import Mathlib

/-!
# BusTub buffer pool: LRU-K replacer and buffer pool manager instance

A shallow embedding of `src/buffer/lru_k_replacer.cpp` and
`src/buffer/buffer_pool_manager_instance.cpp`.

Conventions of the embedding

* `size_t` values are natural numbers; every `++`, `--` and `-` on them is taken
  modulo `2 ^ 64`, as the C++ does.  Theorems that need a counter not to have wrapped
  say so: the pool size is below `2 ^ 64`, fewer than `2 ^ 64` calls were made.
* `frame_id_t` and `page_id_t` are integers (`frame_id < 0` is tested by the
  replacer and `-1` is used as "no victim yet"); their width is declared in a header
  that is not among the sources.  The arguments of the calls are arbitrary integers.
  The one arithmetic operation on a page id, `next_page_id_++` in `AllocatePage`,
  wraps at 32 bits (`incPageId`); theorems that need the allocator not to have
  wrapped say so: at most `PAGE_ID_MAX` page ids were handed out.  Pin counts are
  natural numbers: the only decrement is guarded by `pin_count_ > 0`.
* `std::unordered_map<frame_id_t, FrameEntry>` is an association list; the order of
  the list is the iteration order of the map, and a new key is put in front.
* The frame array `pages_`, the page table and the disk are functions from indices
  and page ids; only the frames `0 .. pool_size_ - 1` are ever touched.
* A thrown `Exception` is the `Except.error` result.  Both replacer methods that
  throw do so before they mutate anything.
* A `Page *` returned by the buffer pool manager is the index of its frame.
* The mutexes are not modelled: every method body runs under its latch, so the
  methods are atomic state transformers.
-/

namespace bustub

/-! ## Machine integers -/

/-- The number of values of a `size_t` (64 bit). -/
def SIZE_T_MOD : Nat := 2 ^ 64

/-- The value `std::numeric_limits<size_t>::max()`. -/
def SIZE_MAX : Nat := 2 ^ 64 - 1

/-- Unsigned `a - b` on `size_t`. -/
def subSizeT (a b : Nat) : Nat := (a + (SIZE_T_MOD - b % SIZE_T_MOD)) % SIZE_T_MOD

/-- Unsigned `a + 1` on `size_t` (the operator `++`). -/
def incSizeT (a : Nat) : Nat := (a + 1) % SIZE_T_MOD

/-- Unsigned `a - 1` on `size_t` (the operator `--`). -/
def decSizeT (a : Nat) : Nat := subSizeT a 1

/-! ## LRU-K replacer (`lru_k_replacer.cpp`) -/

/-- The two exceptions thrown by the replacer. -/
inductive Exception where
  /-- Thrown as `Exception("Invalid frame_id")`. -/
  | InvalidFrameId
  /-- Thrown as `Exception("Cannot remove non-evictable frame")`. -/
  | CannotRemoveNonEvictable
deriving DecidableEq, Repr

/-- Modelled from the spec: the struct `FrameEntry` is declared in the header
`lru_k_replacer.h`, which is not among the sources.  Per-frame access history,
most recent timestamp first, plus an evictable flag. -/
structure FrameEntry where
  history_ : List Nat
  is_evictable_ : Bool
deriving DecidableEq, Repr

/-- Modelled from the spec: the default-constructed `FrameEntry()`; a frame that
becomes tracked has no history yet and is not evictable. -/
def FrameEntry.default : FrameEntry := { history_ := [], is_evictable_ := false }

/-- The container `std::unordered_map<frame_id_t, FrameEntry>`, in iteration order. -/
abbrev FrameMap := List (Int × FrameEntry)

/-- The lookup `frame_map_.find(frame_id)`; `none` is `frame_map_.end()`. -/
def FrameMap.find : FrameMap → Int → Option FrameEntry
  | [], _ => none
  | (g, e) :: m, f => if g = f then some e else FrameMap.find m f

/-- The call `frame_map_.erase(frame_id)`. -/
def FrameMap.erase (m : FrameMap) (f : Int) : FrameMap :=
  m.filter (fun x => decide (x.1 ≠ f))

/-- Assignment through the reference `frame_map_[frame_id]` of an existing key. -/
def FrameMap.set (m : FrameMap) (f : Int) (e : FrameEntry) : FrameMap :=
  m.map (fun x => if x.1 = f then (f, e) else x)

/-- The class `LRUKReplacer`.  The initial values of `current_timestamp_` and
`curr_size_` (both `0`) are in the missing header. -/
structure LRUKReplacer where
  replacer_size_ : Nat
  k_ : Nat
  frame_map_ : FrameMap
  current_timestamp_ : Nat
  curr_size_ : Nat
deriving DecidableEq, Repr

/-- The constructor `LRUKReplacer(num_frames, k)`. -/
def LRUKReplacer.new (num_frames k : Nat) : LRUKReplacer :=
  { replacer_size_ := num_frames, k_ := k, frame_map_ := [],
    current_timestamp_ := 0, curr_size_ := 0 }

/-- The three locals of the scan in `Evict`. -/
structure EvictScan where
  victim_frame : Int
  max_backward_k_dist : Nat
  earliest_timestamp : Nat
deriving DecidableEq, Repr

/-- The value `backward_k_dist` computed for one entry (lines 40-51).  The read
`*it` after `std::advance(it, k_ - 1)` is `history_[k_ - 1]`, in range because the
branch is taken when `history_.size() >= k_` (for `k_ = 0` the C++ advances past the
end, which is undefined; the theorems about the victim assume `k_ >= 1`). -/
def backwardKDist (k now : Nat) (entry : FrameEntry) : Nat :=
  if entry.history_.length < k then SIZE_MAX
  else subSizeT now (entry.history_.getD (k - 1) 0)

/-- The value `frame_earliest_ts`, which is `entry.history_.back()` in both branches
(no entry ever has an empty history: `RecordAccess` alone creates entries). -/
def frameEarliestTs (entry : FrameEntry) : Nat := entry.history_.getLastD 0

/-- One iteration of the loop of `Evict` (lines 32-61). -/
def evictStep (k now : Nat) (acc : EvictScan) (x : Int × FrameEntry) : EvictScan :=
  if x.2.is_evictable_ = false then acc
  else
    if acc.victim_frame = -1 ∨ backwardKDist k now x.2 > acc.max_backward_k_dist ∨
        (backwardKDist k now x.2 = acc.max_backward_k_dist ∧
          frameEarliestTs x.2 < acc.earliest_timestamp) then
      { victim_frame := x.1, max_backward_k_dist := backwardKDist k now x.2,
        earliest_timestamp := frameEarliestTs x.2 }
    else acc

/-- The locals of `Evict` before the loop (lines 28-30). -/
def evictInit : EvictScan :=
  { victim_frame := -1, max_backward_k_dist := 0, earliest_timestamp := SIZE_MAX }

/-- The whole loop of `Evict`. -/
def evictScan (r : LRUKReplacer) : EvictScan :=
  r.frame_map_.foldl (evictStep r.k_ r.current_timestamp_) evictInit

/-- The method `LRUKReplacer::Evict`: the victim (`none` for `false`) and the new state. -/
def LRUKReplacer.Evict (r : LRUKReplacer) : Option Int × LRUKReplacer :=
  if r.curr_size_ = 0 then (none, r)
  else
    if (evictScan r).victim_frame = -1 then (none, r)
    else
      (some (evictScan r).victim_frame,
        { r with frame_map_ := r.frame_map_.erase (evictScan r).victim_frame,
                 curr_size_ := decSizeT r.curr_size_ })

/-- The test `frame_id < 0 || static_cast<size_t>(frame_id) >= replacer_size_`. -/
def invalidFrame (r : LRUKReplacer) (frame_id : Int) : Prop :=
  frame_id < 0 ∨ r.replacer_size_ ≤ frame_id.toNat

instance (r : LRUKReplacer) (frame_id : Int) : Decidable (invalidFrame r frame_id) := by
  unfold invalidFrame; infer_instance

/-- The method `LRUKReplacer::RecordAccess`. -/
def LRUKReplacer.RecordAccess (r : LRUKReplacer) (frame_id : Int) :
    Except Exception LRUKReplacer :=
  if invalidFrame r frame_id then Except.error Exception.InvalidFrameId
  else
    let ts := incSizeT r.current_timestamp_
    match r.frame_map_.find frame_id with
    | none =>
      Except.ok { r with current_timestamp_ := ts,
                         frame_map_ := (frame_id, { FrameEntry.default with
                           history_ := ts :: FrameEntry.default.history_ }) :: r.frame_map_ }
    | some e =>
      Except.ok { r with current_timestamp_ := ts,
                         frame_map_ := r.frame_map_.set frame_id
                           { e with history_ := ts :: e.history_ } }

/-- The method `LRUKReplacer::SetEvictable`. -/
def LRUKReplacer.SetEvictable (r : LRUKReplacer) (frame_id : Int) (set_evictable : Bool) :
    Except Exception LRUKReplacer :=
  if invalidFrame r frame_id then Except.error Exception.InvalidFrameId
  else
    match r.frame_map_.find frame_id with
    | none => Except.ok r
    | some entry =>
      if entry.is_evictable_ = true ∧ set_evictable = false then
        Except.ok { r with frame_map_ := r.frame_map_.set frame_id
                             { entry with is_evictable_ := false },
                           curr_size_ := decSizeT r.curr_size_ }
      else if entry.is_evictable_ = false ∧ set_evictable = true then
        Except.ok { r with frame_map_ := r.frame_map_.set frame_id
                             { entry with is_evictable_ := true },
                           curr_size_ := incSizeT r.curr_size_ }
      else Except.ok r

/-- The method `LRUKReplacer::Remove`. -/
def LRUKReplacer.Remove (r : LRUKReplacer) (frame_id : Int) : Except Exception LRUKReplacer :=
  match r.frame_map_.find frame_id with
  | none => Except.ok r
  | some entry =>
    if entry.is_evictable_ = false then Except.error Exception.CannotRemoveNonEvictable
    else
      Except.ok { r with frame_map_ := r.frame_map_.erase frame_id,
                         curr_size_ := decSizeT r.curr_size_ }

/-- The method `LRUKReplacer::Size`. -/
def LRUKReplacer.Size (r : LRUKReplacer) : Nat := r.curr_size_

/-! ### Observers, operation sequences and invariants of the replacer -/

/-- The keys of the map, in iteration order. -/
def FrameMap.keys (m : FrameMap) : List Int := m.map Prod.fst

/-- The number of entries of the map whose evictable flag is set. -/
def evictableCount (m : FrameMap) : Nat := m.countP (fun x => x.2.is_evictable_)

/-- Frame `f` has an entry in `frame_map_`. -/
def LRUKReplacer.isTracked (r : LRUKReplacer) (f : Int) : Bool :=
  (r.frame_map_.find f).isSome

/-- Frame `f` has an entry in `frame_map_` whose `is_evictable_` flag is set. -/
def LRUKReplacer.isEvictable (r : LRUKReplacer) (f : Int) : Bool :=
  match r.frame_map_.find f with
  | none => false
  | some e => e.is_evictable_

/-- A call of one of the four mutating methods of the replacer. -/
inductive ROp where
  | RecordAccess (frame_id : Int)
  | SetEvictable (frame_id : Int) (set_evictable : Bool)
  | Evict
  | Remove (frame_id : Int)
deriving DecidableEq, Repr

/-- The state of the replacer object after a call; a call that throws leaves the
object as it was (both `throw` statements precede every mutation). -/
def LRUKReplacer.apply (r : LRUKReplacer) : ROp → LRUKReplacer
  | ROp.RecordAccess f =>
    match r.RecordAccess f with
    | Except.ok r1 => r1
    | Except.error _ => r
  | ROp.SetEvictable f b =>
    match r.SetEvictable f b with
    | Except.ok r1 => r1
    | Except.error _ => r
  | ROp.Evict => r.Evict.2
  | ROp.Remove f =>
    match r.Remove f with
    | Except.ok r1 => r1
    | Except.error _ => r

/-- The state after a sequence of calls, first call first. -/
def LRUKReplacer.run (r : LRUKReplacer) : List ROp → LRUKReplacer
  | [] => r
  | op :: ops => LRUKReplacer.run (r.apply op) ops

/-- Size invariant of the replacer: distinct keys, all inside `[0, replacer_size_)`,
and `curr_size_` counts the evictable entries. -/
structure RInv (r : LRUKReplacer) : Prop where
  nodup : r.frame_map_.keys.Nodup
  range : ∀ f ∈ r.frame_map_.keys, 0 ≤ f ∧ f.toNat < r.replacer_size_
  size : r.curr_size_ = evictableCount r.frame_map_
  bound : r.replacer_size_ < SIZE_T_MOD

/-- Timestamp invariant of the replacer: every history is non-empty, strictly
decreasing and made of timestamps in `[1, current_timestamp_]`; histories of
different frames share no timestamp. -/
structure TsInv (r : LRUKReplacer) : Prop where
  nonempty : ∀ f e, r.frame_map_.find f = some e → e.history_ ≠ []
  decreasing : ∀ f e, r.frame_map_.find f = some e → e.history_.Pairwise (fun a b => b < a)
  bounded : ∀ f e, r.frame_map_.find f = some e →
    ∀ t ∈ e.history_, 1 ≤ t ∧ t ≤ r.current_timestamp_
  disjoint : ∀ f g e1 e2, f ≠ g → r.frame_map_.find f = some e1 →
    r.frame_map_.find g = some e2 → ∀ t ∈ e1.history_, t ∉ e2.history_

/-- Backward k-distance as the specification words it: infinite (`⊤`) for a frame
with fewer than `k` recorded accesses, otherwise the current timestamp minus the
timestamp of the `k`-th most recent access. -/
def specDist (k now : Nat) (history : List Nat) : WithTop Nat :=
  if history.length < k then ⊤ else ((now - history.getD (k - 1) 0 : Nat) : WithTop Nat)

/-- The oldest timestamp among the last `k` recorded accesses of a frame, as the
specification words it: the least of the `k` most recent history entries. -/
def specOldest (k : Nat) (history : List Nat) : Nat :=
  (history.take k).foldr min (history.headD 0)

/-- The history recorded for frame `f` (empty when the frame is untracked). -/
def LRUKReplacer.historyOf (r : LRUKReplacer) (f : Int) : List Nat :=
  match r.frame_map_.find f with
  | none => []
  | some e => e.history_

/-- Loop invariant of the scan in `Evict`, for the entries `seen` so far: either no
evictable entry was seen and `victim_frame` is still `-1`, or the three locals are
those of an evictable entry that no other evictable entry seen beats. -/
def ScanGood (k now : Nat) (seen : FrameMap) (acc : EvictScan) : Prop :=
  (acc.victim_frame = -1 ∧ ∀ x ∈ seen, x.2.is_evictable_ = false) ∨
  (∃ e, (acc.victim_frame, e) ∈ seen ∧ e.is_evictable_ = true ∧
    acc.max_backward_k_dist = backwardKDist k now e ∧
    acc.earliest_timestamp = frameEarliestTs e ∧
    ∀ x ∈ seen, x.2.is_evictable_ = true →
      backwardKDist k now x.2 < acc.max_backward_k_dist ∨
      (backwardKDist k now x.2 = acc.max_backward_k_dist ∧
        acc.earliest_timestamp ≤ frameEarliestTs x.2))

/-! ## Buffer pool manager instance (`buffer_pool_manager_instance.cpp`) -/

/-- Modelled from the spec: the constant `INVALID_PAGE_ID` of the header `config.h`,
which is not among the sources; page ids are non-negative and a distinguished
sentinel value denotes "no page". -/
def INVALID_PAGE_ID : Int := -1

/-- Modelled from the spec: the type `page_id_t` of the header `config.h`, which is not
among the sources, is a signed integer of fixed width, 32 bits (`int32_t`); this is the
number of its values. -/
def PAGE_ID_MOD : Int := 4294967296

/-- The largest value of `page_id_t`. -/
def PAGE_ID_MAX : Int := 2147483647

/-- The value of the allocator after `next_page_id_++` (line 257): one more, wrapping
from `PAGE_ID_MAX` to the least value of `page_id_t`. -/
def incPageId (x : Int) : Int := (x + 1 + 2147483648) % PAGE_ID_MOD - 2147483648

/-- Modelled from the spec: the fixed page size shared by the disk manager and the page
buffers (`BUSTUB_PAGE_SIZE` of the header `config.h`, which is not among the sources);
nothing proved here depends on its value. -/
def BUSTUB_PAGE_SIZE : Nat := 4096

/-- The bytes of a page buffer. -/
abbrev PageData := List Nat

/-- The buffer after `ResetMemory()`: all bytes zero. -/
def zeroData : PageData := List.replicate BUSTUB_PAGE_SIZE 0

/-- Modelled from the spec: the class `Page` of the header `page.h`, which is not among
the sources; a byte buffer, a page id, a pin count (at least zero) and a dirty flag. -/
structure Page where
  data_ : PageData
  page_id_ : Int
  pin_count_ : Nat
  is_dirty_ : Bool
deriving DecidableEq, Repr

/-- Modelled from the spec: a freshly constructed `Page`, which is also what
`DeletePgImp` resets a frame to (sentinel page id, pin count 0, not dirty, zeroed
buffer). -/
def Page.fresh : Page :=
  { data_ := zeroData, page_id_ := INVALID_PAGE_ID, pin_count_ := 0, is_dirty_ := false }

/-- The class `BufferPoolManagerInstance`, together with the content of the disk behind
its `disk_manager_`.  Modelled from the spec: the page table (`ExtendibleHashTable`,
with `Find`, `Insert` that overwrites, `Remove`) is a finite map from page ids to frame
indices, and the disk manager (`ReadPage`, `WritePage`) is a map from page ids to page
bytes; the log manager is never used. -/
structure BufferPoolManagerInstance where
  pool_size_ : Nat
  pages_ : Int → Page
  page_table_ : Int → Option Int
  replacer_ : LRUKReplacer
  free_list_ : List Int
  next_page_id_ : Int
  disk_ : Int → PageData

/-- The constructor (lines 20-32), over a disk with content `disk`. -/
def BufferPoolManagerInstance.new (pool_size replacer_k : Nat) (disk : Int → PageData) :
    BufferPoolManagerInstance :=
  { pool_size_ := pool_size
    pages_ := fun _ => Page.fresh
    page_table_ := fun _ => none
    replacer_ := LRUKReplacer.new pool_size replacer_k
    free_list_ := (List.range pool_size).map Int.ofNat
    next_page_id_ := 0
    disk_ := disk }

/-- The frame acquisition that `NewPgImp` (lines 46-65) and `FetchPgImp` (lines
106-125) both spell out: the front of the free list, else a victim of the replacer,
written back when dirty and unmapped from the page table.  `none` is the early
`return nullptr`. -/
def BufferPoolManagerInstance.acquireFrame (s : BufferPoolManagerInstance) :
    Option (Int × BufferPoolManagerInstance) :=
  match s.free_list_ with
  | frame_id :: rest => some (frame_id, { s with free_list_ := rest })
  | [] =>
    match s.replacer_.Evict with
    | (none, _) => none
    | (some frame_id, r1) =>
      let victim_page := s.pages_ frame_id
      let s1 : BufferPoolManagerInstance := { s with replacer_ := r1 }
      let s2 : BufferPoolManagerInstance :=
        if victim_page.is_dirty_ = true then
          { s1 with disk_ := Function.update s1.disk_ victim_page.page_id_ victim_page.data_
                    pages_ := Function.update s1.pages_ frame_id
                      { victim_page with is_dirty_ := false } }
        else s1
      some (frame_id,
        { s2 with page_table_ := Function.update s2.page_table_ victim_page.page_id_ none })

/-- The method `NewPgImp`: on success the new page id and the frame of the returned
`Page *`; `none` is `nullptr`. -/
def BufferPoolManagerInstance.NewPgImp (s : BufferPoolManagerInstance) :
    Except Exception (Option (Int × Int) × BufferPoolManagerInstance) :=
  match s.acquireFrame with
  | none => Except.ok (none, s)
  | some (frame_id, s1) =>
    let page_id := s1.next_page_id_
    let s2 : BufferPoolManagerInstance :=
      { s1 with next_page_id_ := incPageId s1.next_page_id_
                pages_ := Function.update s1.pages_ frame_id
                  { data_ := zeroData, page_id_ := page_id, pin_count_ := 1,
                    is_dirty_ := false }
                page_table_ := Function.update s1.page_table_ page_id (some frame_id) }
    match s2.replacer_.RecordAccess frame_id with
    | Except.error e => Except.error e
    | Except.ok r1 =>
      match r1.SetEvictable frame_id false with
      | Except.error e => Except.error e
      | Except.ok r2 => Except.ok (some (page_id, frame_id), { s2 with replacer_ := r2 })

/-- The method `FetchPgImp`: the frame of the returned `Page *`; `none` is `nullptr`. -/
def BufferPoolManagerInstance.FetchPgImp (s : BufferPoolManagerInstance) (page_id : Int) :
    Except Exception (Option Int × BufferPoolManagerInstance) :=
  match s.page_table_ page_id with
  | some frame_id =>
    let page := s.pages_ frame_id
    let s1 : BufferPoolManagerInstance :=
      { s with pages_ := Function.update s.pages_ frame_id
                 { page with pin_count_ := page.pin_count_ + 1 } }
    match s1.replacer_.RecordAccess frame_id with
    | Except.error e => Except.error e
    | Except.ok r1 =>
      match r1.SetEvictable frame_id false with
      | Except.error e => Except.error e
      | Except.ok r2 => Except.ok (some frame_id, { s1 with replacer_ := r2 })
  | none =>
    match s.acquireFrame with
    | none => Except.ok (none, s)
    | some (frame_id, s1) =>
      let s2 : BufferPoolManagerInstance :=
        { s1 with pages_ := Function.update s1.pages_ frame_id
                    { data_ := s1.disk_ page_id, page_id_ := page_id, pin_count_ := 1,
                      is_dirty_ := false }
                  page_table_ := Function.update s1.page_table_ page_id (some frame_id) }
      match s2.replacer_.RecordAccess frame_id with
      | Except.error e => Except.error e
      | Except.ok r1 =>
        match r1.SetEvictable frame_id false with
        | Except.error e => Except.error e
        | Except.ok r2 => Except.ok (some frame_id, { s2 with replacer_ := r2 })

/-- The method `UnpinPgImp`. -/
def BufferPoolManagerInstance.UnpinPgImp (s : BufferPoolManagerInstance) (page_id : Int)
    (is_dirty : Bool) : Except Exception (Bool × BufferPoolManagerInstance) :=
  match s.page_table_ page_id with
  | none => Except.ok (false, s)
  | some frame_id =>
    let page := s.pages_ frame_id
    if page.pin_count_ ≤ 0 then Except.ok (false, s)
    else
      let page1 : Page := { page with pin_count_ := page.pin_count_ - 1 }
      let page2 : Page := if is_dirty = true then { page1 with is_dirty_ := true } else page1
      let s1 : BufferPoolManagerInstance :=
        { s with pages_ := Function.update s.pages_ frame_id page2 }
      if page2.pin_count_ = 0 then
        match s1.replacer_.SetEvictable frame_id true with
        | Except.error e => Except.error e
        | Except.ok r1 => Except.ok (true, { s1 with replacer_ := r1 })
      else Except.ok (true, s1)

/-- The method `FlushPgImp`. -/
def BufferPoolManagerInstance.FlushPgImp (s : BufferPoolManagerInstance) (page_id : Int) :
    Bool × BufferPoolManagerInstance :=
  match s.page_table_ page_id with
  | none => (false, s)
  | some frame_id =>
    let page := s.pages_ frame_id
    (true, { s with disk_ := Function.update s.disk_ page_id page.data_
                    pages_ := Function.update s.pages_ frame_id
                      { page with is_dirty_ := false } })

/-- One iteration of the loop of `FlushAllPgsImp`, for frame `i`. -/
def BufferPoolManagerInstance.flushFrame (s : BufferPoolManagerInstance) (i : Nat) :
    BufferPoolManagerInstance :=
  let page := s.pages_ (i : Int)
  if page.page_id_ ≠ INVALID_PAGE_ID then
    { s with disk_ := Function.update s.disk_ page.page_id_ page.data_
             pages_ := Function.update s.pages_ (i : Int) { page with is_dirty_ := false } }
  else s

/-- The method `FlushAllPgsImp`. -/
def BufferPoolManagerInstance.FlushAllPgsImp (s : BufferPoolManagerInstance) :
    BufferPoolManagerInstance :=
  (List.range s.pool_size_).foldl BufferPoolManagerInstance.flushFrame s

/-- The method `DeletePgImp`; the call `DeallocatePage(page_id)` does nothing. -/
def BufferPoolManagerInstance.DeletePgImp (s : BufferPoolManagerInstance) (page_id : Int) :
    Except Exception (Bool × BufferPoolManagerInstance) :=
  match s.page_table_ page_id with
  | none => Except.ok (true, s)
  | some frame_id =>
    let page := s.pages_ frame_id
    if page.pin_count_ > 0 then Except.ok (false, s)
    else
      let s1 : BufferPoolManagerInstance :=
        if page.is_dirty_ = true then
          { s with disk_ := Function.update s.disk_ page.page_id_ page.data_ }
        else s
      let s2 : BufferPoolManagerInstance :=
        { s1 with page_table_ := Function.update s1.page_table_ page_id none }
      match s2.replacer_.Remove frame_id with
      | Except.error e => Except.error e
      | Except.ok r1 =>
        Except.ok (true,
          { s2 with replacer_ := r1
                    free_list_ := s2.free_list_ ++ [frame_id]
                    pages_ := Function.update s2.pages_ frame_id Page.fresh })

/-- What a caller that holds a pin does to the page it was handed: it overwrites the
bytes of the buffer.  A frame that is not pinned is left alone. -/
def BufferPoolManagerInstance.writeData (s : BufferPoolManagerInstance) (frame_id : Int)
    (d : PageData) : BufferPoolManagerInstance :=
  if 1 ≤ (s.pages_ frame_id).pin_count_ then
    { s with pages_ := Function.update s.pages_ frame_id { s.pages_ frame_id with data_ := d } }
  else s

/-- A call of a public method of the buffer pool manager, or a write by a caller into
a page it has pinned. -/
inductive BOp where
  | NewPage
  | FetchPage (page_id : Int)
  | UnpinPage (page_id : Int) (is_dirty : Bool)
  | FlushPage (page_id : Int)
  | FlushAllPages
  | DeletePage (page_id : Int)
  | WriteData (frame_id : Int) (d : PageData)
deriving DecidableEq, Repr

/-- The state after a call; `Except.error` when an exception of the replacer escapes. -/
def BufferPoolManagerInstance.apply (s : BufferPoolManagerInstance) :
    BOp → Except Exception BufferPoolManagerInstance
  | BOp.NewPage => (s.NewPgImp).map Prod.snd
  | BOp.FetchPage p => (s.FetchPgImp p).map Prod.snd
  | BOp.UnpinPage p d => (s.UnpinPgImp p d).map Prod.snd
  | BOp.FlushPage p => Except.ok (s.FlushPgImp p).2
  | BOp.FlushAllPages => Except.ok s.FlushAllPgsImp
  | BOp.DeletePage p => (s.DeletePgImp p).map Prod.snd
  | BOp.WriteData f d => Except.ok (s.writeData f d)

/-- The state after a sequence of calls, first call first. -/
def BufferPoolManagerInstance.run (s : BufferPoolManagerInstance) :
    List BOp → Except Exception BufferPoolManagerInstance
  | [] => Except.ok s
  | op :: ops =>
    match s.apply op with
    | Except.error e => Except.error e
    | Except.ok s1 => BufferPoolManagerInstance.run s1 ops

/-- The states reachable from a freshly constructed pool by calls of the public methods
(with arbitrary arguments) and writes of callers into pages they have pinned. -/
inductive Reachable (pool_size replacer_k : Nat) (disk : Int → PageData) :
    BufferPoolManagerInstance → Prop where
  | init : Reachable pool_size replacer_k disk
      (BufferPoolManagerInstance.new pool_size replacer_k disk)
  | step {s s1 : BufferPoolManagerInstance} (op : BOp) :
      Reachable pool_size replacer_k disk s → s.apply op = Except.ok s1 →
      Reachable pool_size replacer_k disk s1

/-- Frame index `f` is one of the frames of the pool. -/
def BufferPoolManagerInstance.isFrame (s : BufferPoolManagerInstance) (f : Int) : Prop :=
  0 ≤ f ∧ f.toNat < s.pool_size_

instance (s : BufferPoolManagerInstance) (f : Int) : Decidable (s.isFrame f) := by
  unfold BufferPoolManagerInstance.isFrame; infer_instance

/-- Invariant of the buffer pool manager: the replacer tracks exactly the frames that
are not in the free list, a tracked frame is evictable exactly when its pin count is
zero, free frames are fresh, and a page table entry points to a tracked frame that
holds the page. -/
structure BInv (s : BufferPoolManagerInstance) : Prop where
  rsize : s.replacer_.replacer_size_ = s.pool_size_
  rinv : RInv s.replacer_
  free_nodup : s.free_list_.Nodup
  free_range : ∀ f ∈ s.free_list_, s.isFrame f
  free_page : ∀ f ∈ s.free_list_, s.pages_ f = Page.fresh
  free_untracked : ∀ f ∈ s.free_list_, s.replacer_.isTracked f = false
  tracked_or_free : ∀ f, s.isFrame f → f ∈ s.free_list_ ∨ s.replacer_.isTracked f = true
  evictable_iff : ∀ f, s.replacer_.isTracked f = true →
    (s.replacer_.isEvictable f = true ↔ (s.pages_ f).pin_count_ = 0)
  table_frame : ∀ p f, s.page_table_ p = some f →
    s.replacer_.isTracked f = true ∧ (s.pages_ f).page_id_ = p

/-- The invariant between the acquisition of frame `f` and the installation of a page
in it: as `BInv`, but `f` is neither free nor tracked (hence not mapped). -/
structure BInvHole (s : BufferPoolManagerInstance) (f : Int) : Prop where
  rsize : s.replacer_.replacer_size_ = s.pool_size_
  rinv : RInv s.replacer_
  free_nodup : s.free_list_.Nodup
  free_range : ∀ g ∈ s.free_list_, s.isFrame g
  free_page : ∀ g ∈ s.free_list_, s.pages_ g = Page.fresh
  free_untracked : ∀ g ∈ s.free_list_, s.replacer_.isTracked g = false
  hole_frame : s.isFrame f
  hole_free : f ∉ s.free_list_
  hole_untracked : s.replacer_.isTracked f = false
  tracked_or_free : ∀ g, s.isFrame g → g ≠ f →
    g ∈ s.free_list_ ∨ s.replacer_.isTracked g = true
  evictable_iff : ∀ g, s.replacer_.isTracked g = true →
    (s.replacer_.isEvictable g = true ↔ (s.pages_ g).pin_count_ = 0)
  table_frame : ∀ p g, s.page_table_ p = some g →
    s.replacer_.isTracked g = true ∧ (s.pages_ g).page_id_ = p

/-- The tail that `NewPgImp` (lines 71-84) and `FetchPgImp` (lines 128-143) share:
store the page in the frame, map its page id to the frame, record an access and
make the frame non-evictable. -/
def BufferPoolManagerInstance.installPage (s : BufferPoolManagerInstance) (frame_id : Int)
    (pg : Page) : Except Exception BufferPoolManagerInstance :=
  match s.replacer_.RecordAccess frame_id with
  | Except.error e => Except.error e
  | Except.ok r1 =>
    match r1.SetEvictable frame_id false with
    | Except.error e => Except.error e
    | Except.ok r2 =>
      Except.ok { s with pages_ := Function.update s.pages_ frame_id pg
                         page_table_ := Function.update s.page_table_ pg.page_id_ (some frame_id)
                         replacer_ := r2 }

/-- The page that `UnpinPgImp` leaves in the frame when it succeeds: pin count one less,
dirty flag or-ed with `is_dirty`. -/
def unpinnedPage (pg : Page) (is_dirty : Bool) : Page :=
  { pg with pin_count_ := pg.pin_count_ - 1, is_dirty_ := pg.is_dirty_ || is_dirty }

/-- The calls of the eviction example of the specification, with frame A as `0` and
frame B as `1`: accesses A, B, A, B, A, then both frames are made evictable. -/
def exampleCalls : List ROp :=
  [ROp.RecordAccess 0, ROp.RecordAccess 1, ROp.RecordAccess 0, ROp.RecordAccess 1,
   ROp.RecordAccess 0, ROp.SetEvictable 0 true, ROp.SetEvictable 1 true]

/-- The state after the longest initial part of a sequence of calls out of which no
exception escapes. -/
def BufferPoolManagerInstance.runD (s : BufferPoolManagerInstance) :
    List BOp → BufferPoolManagerInstance
  | [] => s
  | op :: ops =>
    match s.apply op with
    | Except.error _ => s
    | Except.ok s1 => BufferPoolManagerInstance.runD s1 ops

/-- A disk on which every page is all zero. -/
def blankDisk : Int → PageData := fun _ => zeroData

/-- A pool of one frame over a blank disk, after one NewPage: page 0 sits pinned in
frame 0 and the pool is exhausted. -/
def pinnedPool : BufferPoolManagerInstance :=
  (BufferPoolManagerInstance.new 1 2 blankDisk).runD [BOp.NewPage]

/-- The pool `pinnedPool` after UnpinPage(0, false): frame 0 is evictable. -/
def unpinnedPool : BufferPoolManagerInstance :=
  (BufferPoolManagerInstance.new 1 2 blankDisk).runD [BOp.NewPage, BOp.UnpinPage 0 false]

/-- The history of a frame after `RecordAccess` as the specification words it: the
new timestamp followed by the previous history, truncated so that at most `k` entries
remain. -/
def specHistoryAfterAccess (k ts : Nat) (previous : List Nat) : List Nat :=
  (ts :: previous).take k

/-- The page id that a call hands out: the id in what a successful NewPage returns;
no other call hands out a page id. -/
def BufferPoolManagerInstance.newPageId (s : BufferPoolManagerInstance) : BOp → Option Int
  | BOp.NewPage =>
    match s.NewPgImp with
    | Except.ok (some (page_id, _), _) => some page_id
    | _ => none
  | _ => none

/-- The states reachable from a freshly constructed pool, each with the page ids that
NewPage has returned on the way, oldest first. -/
inductive ReachableWithIds (pool_size replacer_k : Nat) (disk : Int → PageData) :
    BufferPoolManagerInstance → List Int → Prop where
  | init : ReachableWithIds pool_size replacer_k disk
      (BufferPoolManagerInstance.new pool_size replacer_k disk) []
  | step {s s1 : BufferPoolManagerInstance} {ids : List Int} (op : BOp) :
      ReachableWithIds pool_size replacer_k disk s ids → s.apply op = Except.ok s1 →
      ReachableWithIds pool_size replacer_k disk s1 (ids ++ (s.newPageId op).toList)

theorem FrameMap.find_nil (f : Int) : FrameMap.find [] f = none := rfl

theorem FrameMap.find_cons (g : Int) (e : FrameEntry) (m : FrameMap) (f : Int) :
    FrameMap.find ((g, e) :: m) f = if g = f then some e else FrameMap.find m f := rfl

theorem FrameMap.mem_of_find {m : FrameMap} {f : Int} {e : FrameEntry}
    (h : m.find f = some e) : (f, e) ∈ m := by
  induction m with
  | nil => simp [FrameMap.find_nil] at h
  | cons x m ih =>
    obtain ⟨g, e0⟩ := x
    rw [FrameMap.find_cons] at h
    by_cases hg : g = f
    · simp [hg] at h; simp [hg, h]
    · simp [hg] at h; exact List.mem_cons_of_mem _ (ih h)

theorem FrameMap.find_eq_none_iff {m : FrameMap} {f : Int} :
    m.find f = none ↔ f ∉ m.keys := by
  induction m with
  | nil => simp [FrameMap.find_nil, FrameMap.keys]
  | cons x m ih =>
    obtain ⟨g, e0⟩ := x
    rw [FrameMap.find_cons]
    by_cases hg : g = f
    · simp [hg, FrameMap.keys]
    · have hg2 : ¬ f = g := fun h => hg h.symm
      simp only [hg, if_false, ih, FrameMap.keys, List.map_cons, List.mem_cons, hg2, false_or]

theorem FrameMap.find_isSome_iff {m : FrameMap} {f : Int} :
    (∃ e, m.find f = some e) ↔ f ∈ m.keys := by
  have h := @FrameMap.find_eq_none_iff m f
  constructor
  · rintro ⟨e, he⟩
    by_contra hc
    rw [h.mpr hc] at he
    cases he
  · intro hm
    cases hf : m.find f with
    | none => exact absurd hm (h.mp hf)
    | some e => exact ⟨e, rfl⟩

theorem FrameMap.find_of_mem {m : FrameMap} {f : Int} {e : FrameEntry}
    (hn : m.keys.Nodup) (h : (f, e) ∈ m) : m.find f = some e := by
  induction m with
  | nil => cases h
  | cons x m ih =>
    obtain ⟨g, e0⟩ := x
    rw [FrameMap.find_cons]
    simp only [FrameMap.keys, List.map_cons, List.nodup_cons] at hn
    rcases List.mem_cons.mp h with h1 | h1
    · cases h1; simp
    · have hne : g ≠ f := by
        rintro rfl
        exact hn.1 (List.mem_map_of_mem Prod.fst h1)
      simp only [hne, if_false]
      exact ih hn.2 h1

theorem FrameMap.find_erase (m : FrameMap) (f g : Int) :
    (m.erase f).find g = if g = f then none else m.find g := by
  induction m with
  | nil => simp [FrameMap.erase, FrameMap.find_nil]
  | cons x m ih =>
    obtain ⟨h, e0⟩ := x
    unfold FrameMap.erase at ih ⊢
    by_cases hh : h = f
    · subst hh
      simp only [List.filter_cons, ne_eq, not_true_eq_false, decide_False, Bool.false_eq_true,
        if_false, ih, FrameMap.find_cons]
      by_cases hg : g = h
      · simp [hg]
      · have : ¬ h = g := fun c => hg c.symm
        simp [hg, this]
    · simp only [List.filter_cons, ne_eq, hh, not_false_eq_true, decide_True, if_true,
        FrameMap.find_cons, ih]
      by_cases hg : g = f
      · subst hg; simp [hh]
      · simp [hg]

theorem FrameMap.find_set (m : FrameMap) (f g : Int) (e : FrameEntry) :
    (m.set f e).find g = if g = f then (m.find f).map (fun _ => e) else m.find g := by
  induction m with
  | nil => simp [FrameMap.set, FrameMap.find_nil]
  | cons x m ih =>
    obtain ⟨h, e0⟩ := x
    unfold FrameMap.set at ih ⊢
    simp only [List.map_cons]
    by_cases hh : h = f
    · subst hh
      simp only [if_true, FrameMap.find_cons]
      by_cases hg : g = h
      · simp [hg]
      · have : ¬ h = g := fun c => hg c.symm
        simp only [this, if_false, ih, hg]
    · simp only [hh, if_false, FrameMap.find_cons, ih]
      by_cases hg : g = f
      · subst hg; simp [hh]
      · simp [hg]

theorem FrameMap.keys_set (m : FrameMap) (f : Int) (e : FrameEntry) :
    (m.set f e).keys = m.keys := by
  unfold FrameMap.set FrameMap.keys
  rw [List.map_map]
  apply List.map_congr_left
  intro x _
  by_cases hx : x.1 = f <;> simp [hx]

theorem FrameMap.keys_erase (m : FrameMap) (f : Int) :
    (m.erase f).keys = m.keys.filter (fun g => decide (g ≠ f)) := by
  unfold FrameMap.erase FrameMap.keys
  rw [List.filter_map]
  rfl

theorem evictableCount_cons (x : Int × FrameEntry) (m : FrameMap) :
    evictableCount (x :: m) = evictableCount m + (if x.2.is_evictable_ = true then 1 else 0) := by
  unfold evictableCount
  rw [List.countP_cons]

theorem evictableCount_erase_of_not_mem {m : FrameMap} {f : Int} (h : f ∉ m.keys) :
    evictableCount (m.erase f) = evictableCount m := by
  have : m.erase f = m := by
    unfold FrameMap.erase
    rw [List.filter_eq_self]
    intro x hx
    have : x.1 ≠ f := by
      rintro rfl
      exact h (List.mem_map_of_mem Prod.fst hx)
    simpa using this
  rw [this]

theorem evictableCount_set_of_not_mem {m : FrameMap} {f : Int} (e : FrameEntry)
    (h : f ∉ m.keys) : m.set f e = m := by
  unfold FrameMap.set
  conv_rhs => rw [← List.map_id m]
  apply List.map_congr_left
  intro x hx
  have : x.1 ≠ f := by
    rintro rfl
    exact h (List.mem_map_of_mem Prod.fst hx)
  simp [this]

theorem evictableCount_erase {m : FrameMap} {f : Int} {e : FrameEntry}
    (hn : m.keys.Nodup) (h : m.find f = some e) :
    evictableCount (m.erase f) + (if e.is_evictable_ = true then 1 else 0) = evictableCount m := by
  induction m with
  | nil => simp [FrameMap.find_nil] at h
  | cons x m ih =>
    obtain ⟨g, e0⟩ := x
    simp only [FrameMap.keys, List.map_cons, List.nodup_cons] at hn
    rw [FrameMap.find_cons] at h
    by_cases hg : g = f
    · subst hg
      simp only [if_true, Option.some.injEq] at h
      subst h
      have h1 : FrameMap.erase ((g, e0) :: m) g = FrameMap.erase m g := by
        simp [FrameMap.erase]
      rw [h1, evictableCount_erase_of_not_mem hn.1, evictableCount_cons]
    · simp only [hg, if_false] at h
      have h1 : FrameMap.erase ((g, e0) :: m) f = (g, e0) :: FrameMap.erase m f := by
        simp [FrameMap.erase, hg]
      rw [h1, evictableCount_cons, evictableCount_cons, ← ih hn.2 h]
      omega

theorem evictableCount_set {m : FrameMap} {f : Int} {e : FrameEntry} (e1 : FrameEntry)
    (hn : m.keys.Nodup) (h : m.find f = some e) :
    evictableCount (m.set f e1) + (if e.is_evictable_ = true then 1 else 0) =
      evictableCount m + (if e1.is_evictable_ = true then 1 else 0) := by
  induction m with
  | nil => simp [FrameMap.find_nil] at h
  | cons x m ih =>
    obtain ⟨g, e0⟩ := x
    simp only [FrameMap.keys, List.map_cons, List.nodup_cons] at hn
    rw [FrameMap.find_cons] at h
    by_cases hg : g = f
    · subst hg
      simp only [if_true, Option.some.injEq] at h
      subst h
      have h1 : FrameMap.set ((g, e0) :: m) g e1 = (g, e1) :: FrameMap.set m g e1 := by
        simp [FrameMap.set]
      rw [h1, evictableCount_set_of_not_mem e1 hn.1, evictableCount_cons, evictableCount_cons]
      simp only
      omega
    · simp only [hg, if_false] at h
      have h1 : FrameMap.set ((g, e0) :: m) f e1 = (g, e0) :: FrameMap.set m f e1 := by
        simp [FrameMap.set, hg]
      have := ih hn.2 h
      rw [h1, evictableCount_cons, evictableCount_cons]
      omega

/-! ## Arithmetic on `size_t` -/

theorem SIZE_T_MOD_pos : 0 < SIZE_T_MOD := by unfold SIZE_T_MOD; positivity

theorem SIZE_MAX_eq : SIZE_MAX = SIZE_T_MOD - 1 := rfl

theorem incSizeT_of_lt {a : Nat} (h : a + 1 < SIZE_T_MOD) : incSizeT a = a + 1 := by
  unfold incSizeT
  exact Nat.mod_eq_of_lt h

theorem subSizeT_of_le {a b : Nat} (hb : b ≤ a) (ha : a < SIZE_T_MOD) :
    subSizeT a b = a - b := by
  unfold subSizeT
  have hb2 : b < SIZE_T_MOD := lt_of_le_of_lt hb ha
  rw [Nat.mod_eq_of_lt hb2]
  have : a + (SIZE_T_MOD - b) = (a - b) + SIZE_T_MOD := by omega
  rw [this, Nat.add_mod_right]
  exact Nat.mod_eq_of_lt (by omega)

theorem decSizeT_of_pos {a : Nat} (h1 : 1 ≤ a) (ha : a < SIZE_T_MOD) : decSizeT a = a - 1 := by
  unfold decSizeT
  exact subSizeT_of_le h1 ha

/-- At `PAGE_ID_MAX` the increment of the allocator wraps to the least `page_id_t`. -/
theorem incPageId_max : incPageId PAGE_ID_MAX = -2147483648 := by decide

/-! ## The scan of `Evict` -/

theorem scanGood_step {k now : Nat} {seen : FrameMap} {acc : EvictScan} (x : Int × FrameEntry)
    (hs : ∀ y ∈ seen, y.1 ≠ -1) (h : ScanGood k now seen acc) :
    ScanGood k now (seen ++ [x]) (evictStep k now acc x) := by
  unfold evictStep
  by_cases hev : x.2.is_evictable_ = false
  · simp only [hev, if_true]
    rcases h with ⟨h1, h2⟩ | ⟨e, he, hee, hd, ht, hall⟩
    · left
      refine ⟨h1, ?_⟩
      intro y hy
      rcases List.mem_append.mp hy with hy | hy
      · exact h2 y hy
      · simp only [List.mem_singleton] at hy
        rw [hy]; exact hev
    · right
      refine ⟨e, List.mem_append_left _ he, hee, hd, ht, ?_⟩
      intro y hy hye
      rcases List.mem_append.mp hy with hy | hy
      · exact hall y hy hye
      · simp only [List.mem_singleton] at hy
        rw [hy, hev] at hye
        cases hye
  · have hev1 : x.2.is_evictable_ = true := by simpa using hev
    rw [if_neg hev]
    split
    · rename_i hc
      right
      refine ⟨x.2, List.mem_append_right _ (by simp), hev1, rfl, rfl, ?_⟩
      intro y hy hye
      simp only
      rcases List.mem_append.mp hy with hy | hy
      · rcases h with ⟨_, h2⟩ | ⟨e, he, hee, hd, ht, hall⟩
        · rw [h2 y hy] at hye; cases hye
        · have hv : acc.victim_frame ≠ -1 := hs _ he
          have := hall y hy hye
          rcases hc with hc | hc | hc
          · exact absurd hc hv
          · omega
          · omega
      · simp only [List.mem_singleton] at hy
        rw [hy]
        right
        exact ⟨rfl, le_refl _⟩
    · rename_i hc
      simp only [not_or, not_and, not_lt] at hc
      obtain ⟨hv, hc1, hc2⟩ := hc
      rcases h with ⟨h1, _⟩ | ⟨e, he, hee, hd, ht, hall⟩
      · exact absurd h1 hv
      · right
        refine ⟨e, List.mem_append_left _ he, hee, hd, ht, ?_⟩
        intro y hy hye
        rcases List.mem_append.mp hy with hy | hy
        · exact hall y hy hye
        · simp only [List.mem_singleton] at hy
          rw [hy]
          rcases Nat.lt_or_ge (backwardKDist k now x.2) acc.max_backward_k_dist with hlt | hge
          · left; exact hlt
          · right
            have heq : backwardKDist k now x.2 = acc.max_backward_k_dist := le_antisymm hc1 hge
            exact ⟨heq, hc2 heq⟩

theorem scanGood_foldl {k now : Nat} (l : FrameMap) :
    ∀ (seen : FrameMap) (acc : EvictScan), (∀ y ∈ l, y.1 ≠ -1) → (∀ y ∈ seen, y.1 ≠ -1) →
      ScanGood k now seen acc → ScanGood k now (seen ++ l) (l.foldl (evictStep k now) acc) := by
  induction l with
  | nil => intro seen acc _ _ h; simpa using h
  | cons x l ih =>
    intro seen acc hl hs h
    have hx : x.1 ≠ -1 := hl x (List.mem_cons_self _ _)
    have h1 := scanGood_step x hs h
    have hs1 : ∀ y ∈ seen ++ [x], y.1 ≠ -1 := by
      intro y hy
      rcases List.mem_append.mp hy with hy | hy
      · exact hs y hy
      · simp only [List.mem_singleton] at hy
        rw [hy]; exact hx
    have h2 := ih (seen ++ [x]) (evictStep k now acc x)
      (fun y hy => hl y (List.mem_cons_of_mem _ hy)) hs1 h1
    simpa [List.append_assoc] using h2

theorem scanGood_evictScan (r : LRUKReplacer) (h : ∀ f ∈ r.frame_map_.keys, f ≠ -1) :
    ScanGood r.k_ r.current_timestamp_ r.frame_map_ (evictScan r) := by
  have hl : ∀ y ∈ r.frame_map_, y.1 ≠ -1 :=
    fun y hy => h y.1 (List.mem_map_of_mem Prod.fst hy)
  have := @scanGood_foldl r.k_ r.current_timestamp_ r.frame_map_ [] evictInit hl
    (by simp) (Or.inl ⟨rfl, by simp⟩)
  simpa [evictScan] using this

/-! ## Size invariant of the replacer -/

theorem RInv.r_new (n k : Nat) (hn : n < SIZE_T_MOD) : RInv (LRUKReplacer.new n k) :=
  { nodup := by simp [LRUKReplacer.new, FrameMap.keys]
    range := by simp [LRUKReplacer.new, FrameMap.keys]
    size := by simp [LRUKReplacer.new, evictableCount]
    bound := hn }

theorem RInv.length_le {r : LRUKReplacer} (h : RInv r) :
    r.frame_map_.length ≤ r.replacer_size_ := by
  have h1 : (r.frame_map_.keys.map Int.toNat).Nodup := by
    apply List.Nodup.map_on _ h.nodup
    intro x hx y hy hxy
    have := (h.range x hx).1
    have := (h.range y hy).1
    omega
  have h2 : r.frame_map_.keys.map Int.toNat ⊆ List.range r.replacer_size_ := by
    intro a ha
    obtain ⟨f, hf, rfl⟩ := List.mem_map.mp ha
    exact List.mem_range.mpr (h.range f hf).2
  have h3 := (List.subperm_of_subset h1 h2).length_le
  simpa [FrameMap.keys] using h3

theorem RInv.size_lt {r : LRUKReplacer} (h : RInv r) : r.curr_size_ < SIZE_T_MOD := by
  have h1 : evictableCount r.frame_map_ ≤ r.frame_map_.length := List.countP_le_length _
  have h2 := h.length_le
  have h3 := h.bound
  rw [h.size]
  omega

theorem RInv.ne_neg_one {r : LRUKReplacer} (h : RInv r) : ∀ f ∈ r.frame_map_.keys, f ≠ -1 := by
  intro f hf
  have := (h.range f hf).1
  omega

theorem isEvictable_eq_true_iff {r : LRUKReplacer} {f : Int} :
    r.isEvictable f = true ↔ ∃ e, r.frame_map_.find f = some e ∧ e.is_evictable_ = true := by
  unfold LRUKReplacer.isEvictable
  cases hf : r.frame_map_.find f with
  | none => simp
  | some e => simp

theorem isTracked_eq_true_iff {r : LRUKReplacer} {f : Int} :
    r.isTracked f = true ↔ ∃ e, r.frame_map_.find f = some e := by
  unfold LRUKReplacer.isTracked
  cases hf : r.frame_map_.find f with
  | none => simp
  | some e => simp

theorem isEvictable_isTracked {r : LRUKReplacer} {f : Int} (h : r.isEvictable f = true) :
    r.isTracked f = true := by
  obtain ⟨e, he, _⟩ := isEvictable_eq_true_iff.mp h
  exact isTracked_eq_true_iff.mpr ⟨e, he⟩

theorem evictableCount_eq_zero_iff {r : LRUKReplacer} (h : RInv r) :
    evictableCount r.frame_map_ = 0 ↔ ∀ f, r.isEvictable f = false := by
  unfold evictableCount
  rw [List.countP_eq_zero]
  constructor
  · intro h0 f
    by_contra hc
    have hc1 : r.isEvictable f = true := by simpa using hc
    obtain ⟨e, he, hee⟩ := isEvictable_eq_true_iff.mp hc1
    exact h0 (f, e) (FrameMap.mem_of_find he) hee
  · intro h0 x hx hxe
    have hf := FrameMap.find_of_mem (f := x.1) (e := x.2) h.nodup hx
    have := h0 x.1
    rw [← Bool.not_eq_true] at this
    exact this (isEvictable_eq_true_iff.mpr ⟨x.2, hf, hxe⟩)

/-- The scan finds a victim exactly when some entry is evictable, and the victim is an
evictable entry. -/
theorem evictScan_victim {r : LRUKReplacer} (h : RInv r) :
    ((evictScan r).victim_frame = -1 ∧ ∀ f, r.isEvictable f = false) ∨
    ((evictScan r).victim_frame ≠ -1 ∧ r.isEvictable (evictScan r).victim_frame = true) := by
  rcases scanGood_evictScan r h.ne_neg_one with ⟨h1, h2⟩ | ⟨e, he, hee, _⟩
  · left
    refine ⟨h1, ?_⟩
    rw [← evictableCount_eq_zero_iff h]
    unfold evictableCount
    rw [List.countP_eq_zero]
    intro x hx
    simp [h2 x hx]
  · right
    have hk : (evictScan r).victim_frame ∈ r.frame_map_.keys := List.mem_map_of_mem Prod.fst he
    exact ⟨h.ne_neg_one _ hk,
      isEvictable_eq_true_iff.mpr ⟨e, FrameMap.find_of_mem h.nodup he, hee⟩⟩

theorem Evict_none_iff {r : LRUKReplacer} (h : RInv r) :
    r.Evict.1 = none ↔ ∀ f, r.isEvictable f = false := by
  unfold LRUKReplacer.Evict
  by_cases hc : r.curr_size_ = 0
  · simp only [hc, if_true, true_iff]
    rw [h.size] at hc
    exact (evictableCount_eq_zero_iff h).mp hc
  · rw [if_neg hc]
    rcases evictScan_victim h with ⟨h1, h2⟩ | ⟨h1, h2⟩
    · simp only [h1, if_true, true_iff]
      exact h2
    · rw [if_neg h1]
      constructor
      · intro hn; cases hn
      · intro hall
        have := hall (evictScan r).victim_frame
        rw [h2] at this
        cases this

theorem Evict_none_state (r : LRUKReplacer) (h : r.Evict.1 = none) : r.Evict.2 = r := by
  unfold LRUKReplacer.Evict at h ⊢
  by_cases hc : r.curr_size_ = 0
  · simp [hc]
  · rw [if_neg hc] at h ⊢
    by_cases hv : (evictScan r).victim_frame = -1
    · simp [hv]
    · rw [if_neg hv] at h
      cases h

/-- A successful `Evict` returns an evictable frame, erases its entry and
decrements `curr_size_` without wrapping around. -/
theorem Evict_some {r : LRUKReplacer} (h : RInv r) {v : Int} (hv : r.Evict.1 = some v) :
    v = (evictScan r).victim_frame ∧ r.isEvictable v = true ∧
    r.Evict.2 = { r with frame_map_ := r.frame_map_.erase v, curr_size_ := r.curr_size_ - 1 } ∧
    1 ≤ r.curr_size_ := by
  unfold LRUKReplacer.Evict at hv ⊢
  by_cases hc : r.curr_size_ = 0
  · simp [hc] at hv
  · rw [if_neg hc] at hv ⊢
    by_cases hs : (evictScan r).victim_frame = -1
    · simp [hs] at hv
    · rw [if_neg hs] at hv ⊢
      simp only [Option.some.injEq] at hv
      subst hv
      rcases evictScan_victim h with ⟨h1, _⟩ | ⟨_, h2⟩
      · exact absurd h1 hs
      · have hpos : 1 ≤ r.curr_size_ := Nat.one_le_iff_ne_zero.mpr hc
        refine ⟨rfl, h2, ?_, hpos⟩
        simp only [decSizeT_of_pos hpos h.size_lt]

theorem RInv.r_erase {r : LRUKReplacer} (h : RInv r) {v : Int} (hv : r.isEvictable v = true) :
    RInv { r with frame_map_ := r.frame_map_.erase v, curr_size_ := r.curr_size_ - 1 } := by
  obtain ⟨e, he, hee⟩ := isEvictable_eq_true_iff.mp hv
  have hcount := evictableCount_erase h.nodup he
  simp only [hee, if_true] at hcount
  refine ⟨?_, ?_, ?_, h.bound⟩
  · simp only [FrameMap.keys_erase]
    exact h.nodup.filter _
  · intro f hf
    simp only [FrameMap.keys_erase] at hf
    exact h.range f (List.mem_filter.mp hf).1
  · simp only [h.size]
    omega

theorem RInv.r_Evict {r : LRUKReplacer} (h : RInv r) : RInv r.Evict.2 := by
  cases hv : r.Evict.1 with
  | none => rw [Evict_none_state r hv]; exact h
  | some v =>
    obtain ⟨_, h2, h3, _⟩ := Evict_some h hv
    rw [h3]
    exact h.r_erase h2

/-! ## `RecordAccess`, `SetEvictable` and `Remove` -/

theorem historyOf_of_find {r : LRUKReplacer} {f : Int} {e : FrameEntry}
    (h : r.frame_map_.find f = some e) : r.historyOf f = e.history_ := by
  simp [LRUKReplacer.historyOf, h]

theorem isEvictable_of_find {r : LRUKReplacer} {f : Int} {e : FrameEntry}
    (h : r.frame_map_.find f = some e) : r.isEvictable f = e.is_evictable_ := by
  simp [LRUKReplacer.isEvictable, h]

theorem isEvictable_of_find_none {r : LRUKReplacer} {f : Int}
    (h : r.frame_map_.find f = none) : r.isEvictable f = false := by
  simp [LRUKReplacer.isEvictable, h]

theorem RecordAccess_invalid {r : LRUKReplacer} {f : Int} (h : invalidFrame r f) :
    r.RecordAccess f = Except.error Exception.InvalidFrameId := by
  simp [LRUKReplacer.RecordAccess, h]

/-- Effect of `RecordAccess` on a valid frame index. -/
theorem RecordAccess_valid {r : LRUKReplacer} {f : Int} (h : ¬ invalidFrame r f) :
    ∃ r1, r.RecordAccess f = Except.ok r1 ∧
      r1.replacer_size_ = r.replacer_size_ ∧ r1.k_ = r.k_ ∧ r1.curr_size_ = r.curr_size_ ∧
      r1.current_timestamp_ = incSizeT r.current_timestamp_ ∧
      r1.frame_map_.find f = some { history_ := incSizeT r.current_timestamp_ :: r.historyOf f,
                                    is_evictable_ := r.isEvictable f } ∧
      (∀ g, g ≠ f → r1.frame_map_.find g = r.frame_map_.find g) ∧
      (RInv r → RInv r1) := by
  unfold LRUKReplacer.RecordAccess
  rw [if_neg h]
  cases hf : r.frame_map_.find f with
  | none =>
    refine ⟨_, rfl, rfl, rfl, rfl, rfl, ?_, ?_, ?_⟩
    · simp [FrameMap.find_cons, LRUKReplacer.historyOf, LRUKReplacer.isEvictable, hf,
        FrameEntry.default]
    · intro g hg
      have : ¬ f = g := fun c => hg c.symm
      simp [FrameMap.find_cons, this]
    · intro hi
      have hnk : f ∉ r.frame_map_.keys := FrameMap.find_eq_none_iff.mp hf
      have hv : 0 ≤ f ∧ f.toNat < r.replacer_size_ := by
        unfold invalidFrame at h
        omega
      refine ⟨?_, ?_, ?_, hi.bound⟩
      · simp only [FrameMap.keys, List.map_cons, List.nodup_cons]
        exact ⟨hnk, hi.nodup⟩
      · intro g hg
        simp only [FrameMap.keys, List.map_cons, List.mem_cons] at hg
        rcases hg with hg | hg
        · rw [hg]; exact hv
        · exact hi.range g hg
      · simp only [evictableCount_cons, FrameEntry.default]
        simpa using hi.size
  | some e =>
    refine ⟨_, rfl, rfl, rfl, rfl, rfl, ?_, ?_, ?_⟩
    · simp [FrameMap.find_set, hf, historyOf_of_find hf, isEvictable_of_find hf]
    · intro g hg
      simp [FrameMap.find_set, hg]
    · intro hi
      refine ⟨?_, ?_, ?_, hi.bound⟩
      · simp only [FrameMap.keys_set]; exact hi.nodup
      · simp only [FrameMap.keys_set]; exact hi.range
      · have := evictableCount_set { e with history_ := incSizeT r.current_timestamp_ :: e.history_ }
          hi.nodup hf
        simp only at this ⊢
        rw [hi.size]
        omega

theorem SetEvictable_invalid {r : LRUKReplacer} {f : Int} (b : Bool) (h : invalidFrame r f) :
    r.SetEvictable f b = Except.error Exception.InvalidFrameId := by
  simp [LRUKReplacer.SetEvictable, h]

/-- Effect of `SetEvictable` on a valid frame index, in a state that satisfies the
size invariant. -/
theorem SetEvictable_valid {r : LRUKReplacer} {f : Int} (b : Bool) (hi : RInv r)
    (h : ¬ invalidFrame r f) :
    ∃ r1, r.SetEvictable f b = Except.ok r1 ∧
      r1.replacer_size_ = r.replacer_size_ ∧ r1.k_ = r.k_ ∧
      r1.current_timestamp_ = r.current_timestamp_ ∧
      r1.frame_map_.find f =
        (r.frame_map_.find f).map (fun e => { e with is_evictable_ := b }) ∧
      (∀ g, g ≠ f → r1.frame_map_.find g = r.frame_map_.find g) ∧
      RInv r1 ∧
      (r.isTracked f = false ∨ r.isEvictable f = b → r1 = r) ∧
      (r.isTracked f = true → r.isEvictable f = false → b = true →
        r1.curr_size_ = r.curr_size_ + 1) ∧
      (r.isEvictable f = true → b = false → r1.curr_size_ + 1 = r.curr_size_) := by
  unfold LRUKReplacer.SetEvictable
  rw [if_neg h]
  cases hf : r.frame_map_.find f with
  | none =>
    refine ⟨r, rfl, rfl, rfl, rfl, ?_, ?_, hi, ?_, ?_, ?_⟩
    · simp [hf]
    · intro g _; rfl
    · intro _; rfl
    · intro ht; simp [LRUKReplacer.isTracked, hf] at ht
    · intro ht; simp [LRUKReplacer.isEvictable, hf] at ht
  | some e =>
    have hev := isEvictable_of_find hf
    have htr : r.isTracked f = true := isTracked_eq_true_iff.mpr ⟨e, hf⟩
    by_cases h1 : e.is_evictable_ = true ∧ b = false
    · obtain ⟨h1a, h1b⟩ := h1
      subst h1b
      have hc := evictableCount_set { e with is_evictable_ := false } hi.nodup hf
      simp only [h1a, if_true] at hc
      have hpos : 1 ≤ r.curr_size_ := by rw [hi.size]; simp at hc; omega
      have hdec := decSizeT_of_pos hpos hi.size_lt
      simp only [h1a, and_self, if_true]
      refine ⟨_, rfl, rfl, rfl, rfl, ?_, ?_, ?_, ?_, ?_, ?_⟩
      · simp [FrameMap.find_set, hf]
      · intro g hg; simp [FrameMap.find_set, hg]
      · refine ⟨?_, ?_, ?_, hi.bound⟩
        · simp only [FrameMap.keys_set]; exact hi.nodup
        · simp only [FrameMap.keys_set]; exact hi.range
        · simp only [hdec]
          have := hi.size
          simp at hc
          omega
      · intro hh
        rcases hh with hh | hh
        · rw [htr] at hh; cases hh
        · rw [hev, h1a] at hh; cases hh
      · intro _ hh; rw [hev, h1a] at hh; cases hh
      · intro _ _
        simp only [hdec]
        omega
    · dsimp only
      rw [if_neg h1]
      by_cases h2 : e.is_evictable_ = false ∧ b = true
      · obtain ⟨h2a, h2b⟩ := h2
        subst h2b
        have hc := evictableCount_set { e with is_evictable_ := true } hi.nodup hf
        simp only [h2a, if_true] at hc
        simp at hc
        have hlen : evictableCount (r.frame_map_.set f { e with is_evictable_ := true }) ≤
            (r.frame_map_.set f { e with is_evictable_ := true }).length :=
          List.countP_le_length _
        have hlen2 : (r.frame_map_.set f { e with is_evictable_ := true }).length =
            r.frame_map_.length := by simp [FrameMap.set]
        have hle := hi.length_le
        have hb := hi.bound
        have hinc : incSizeT r.curr_size_ = r.curr_size_ + 1 := by
          apply incSizeT_of_lt
          rw [hi.size]
          omega
        simp only [h2a, and_self, if_true]
        refine ⟨_, rfl, rfl, rfl, rfl, ?_, ?_, ?_, ?_, ?_, ?_⟩
        · simp [FrameMap.find_set, hf]
        · intro g hg; simp [FrameMap.find_set, hg]
        · refine ⟨?_, ?_, ?_, hi.bound⟩
          · simp only [FrameMap.keys_set]; exact hi.nodup
          · simp only [FrameMap.keys_set]; exact hi.range
          · simp only [hinc]
            have := hi.size
            omega
        · intro hh
          rcases hh with hh | hh
          · rw [htr] at hh; cases hh
          · rw [hev, h2a] at hh; cases hh
        · intro _ _ _
          simp only [hinc]
        · intro hh; rw [hev, h2a] at hh; cases hh
      · rw [if_neg h2]
        have hb : e.is_evictable_ = b := by
          cases hx : e.is_evictable_ <;> cases b <;> simp_all
        refine ⟨r, rfl, rfl, rfl, rfl, ?_, ?_, hi, ?_, ?_, ?_⟩
        · cases e; simp_all
        · intro g _; rfl
        · intro _; rfl
        · intro _ hh hb2; rw [hev, hb, hb2] at hh; cases hh
        · intro hh hb2; rw [hev, hb, hb2] at hh; cases hh

theorem Remove_untracked {r : LRUKReplacer} {f : Int} (h : r.isTracked f = false) :
    r.Remove f = Except.ok r := by
  unfold LRUKReplacer.Remove
  cases hf : r.frame_map_.find f with
  | none => rfl
  | some e => simp [LRUKReplacer.isTracked, hf] at h

theorem Remove_nonevictable {r : LRUKReplacer} {f : Int} (ht : r.isTracked f = true)
    (h : r.isEvictable f = false) :
    r.Remove f = Except.error Exception.CannotRemoveNonEvictable := by
  unfold LRUKReplacer.Remove
  cases hf : r.frame_map_.find f with
  | none => simp [LRUKReplacer.isTracked, hf] at ht
  | some e =>
    rw [isEvictable_of_find hf] at h
    simp [h]

theorem Remove_evictable {r : LRUKReplacer} {f : Int} (hi : RInv r)
    (h : r.isEvictable f = true) :
    r.Remove f = Except.ok { r with frame_map_ := r.frame_map_.erase f,
                                    curr_size_ := r.curr_size_ - 1 } ∧
    1 ≤ r.curr_size_ := by
  unfold LRUKReplacer.Remove
  obtain ⟨e, hf, he⟩ := isEvictable_eq_true_iff.mp h
  have hc := evictableCount_erase hi.nodup hf
  simp only [he, if_true] at hc
  have hpos : 1 ≤ r.curr_size_ := by rw [hi.size]; omega
  simp only [hf, he, Bool.true_eq_false, if_false, decSizeT_of_pos hpos hi.size_lt]
  exact ⟨trivial, hpos⟩

theorem RInv.r_apply {r : LRUKReplacer} (hi : RInv r) (op : ROp) : RInv (r.apply op) := by
  cases op with
  | RecordAccess f =>
    by_cases h : invalidFrame r f
    · simp only [LRUKReplacer.apply, RecordAccess_invalid h]; exact hi
    · obtain ⟨r1, h1, _, _, _, _, _, _, h2⟩ := RecordAccess_valid h
      simp only [LRUKReplacer.apply, h1]; exact h2 hi
  | SetEvictable f b =>
    by_cases h : invalidFrame r f
    · simp only [LRUKReplacer.apply, SetEvictable_invalid b h]; exact hi
    · obtain ⟨r1, h1, _, _, _, _, _, h2, _⟩ := SetEvictable_valid b hi h
      simp only [LRUKReplacer.apply, h1]; exact h2
  | Evict => exact hi.r_Evict
  | Remove f =>
    cases ht : r.isTracked f with
    | false => simp only [LRUKReplacer.apply, Remove_untracked ht]; exact hi
    | true =>
      cases he : r.isEvictable f with
      | false => simp only [LRUKReplacer.apply, Remove_nonevictable ht he]; exact hi
      | true =>
        simp only [LRUKReplacer.apply, (Remove_evictable hi he).1]
        exact hi.r_erase he

theorem RInv.r_run {r : LRUKReplacer} (hi : RInv r) (ops : List ROp) : RInv (r.run ops) := by
  induction ops generalizing r with
  | nil => exact hi
  | cons op ops ih => exact ih (hi.r_apply op)

/-! ## Timestamp invariant of the replacer -/

theorem TsInv.t_new (n k : Nat) : TsInv (LRUKReplacer.new n k) := by
  constructor <;> intro f <;> simp [LRUKReplacer.new, FrameMap.find_nil]

theorem TsInv.t_erase {r : LRUKReplacer} (h : TsInv r) (v : Int) (c : Nat) :
    TsInv { r with frame_map_ := r.frame_map_.erase v, curr_size_ := c } := by
  have key : ∀ f e, (r.frame_map_.erase v).find f = some e → r.frame_map_.find f = some e := by
    intro f e hf
    rw [FrameMap.find_erase] at hf
    by_cases hfv : f = v
    · simp [hfv] at hf
    · simpa [hfv] using hf
  constructor
  · intro f e hf; exact h.nonempty f e (key f e hf)
  · intro f e hf; exact h.decreasing f e (key f e hf)
  · intro f e hf; exact h.bounded f e (key f e hf)
  · intro f g e1 e2 hfg hf hg; exact h.disjoint f g e1 e2 hfg (key f e1 hf) (key g e2 hg)

theorem TsInv.of_same_histories {r r1 : LRUKReplacer} (h : TsInv r)
    (hts : r1.current_timestamp_ = r.current_timestamp_)
    (hh : ∀ f e1, r1.frame_map_.find f = some e1 →
      ∃ e, r.frame_map_.find f = some e ∧ e.history_ = e1.history_) : TsInv r1 := by
  constructor
  · intro f e1 hf
    obtain ⟨e, he, heq⟩ := hh f e1 hf
    rw [← heq]; exact h.nonempty f e he
  · intro f e1 hf
    obtain ⟨e, he, heq⟩ := hh f e1 hf
    rw [← heq]; exact h.decreasing f e he
  · intro f e1 hf
    obtain ⟨e, he, heq⟩ := hh f e1 hf
    rw [← heq, hts]; exact h.bounded f e he
  · intro f g e1 e2 hfg hf hg
    obtain ⟨e, he, heq⟩ := hh f e1 hf
    obtain ⟨e3, he3, heq3⟩ := hh g e2 hg
    rw [← heq, ← heq3]; exact h.disjoint f g e e3 hfg he he3

theorem TsInv.RecordAccess {r r1 : LRUKReplacer} {f : Int} (h : TsInv r)
    (hlt : r.current_timestamp_ + 1 < SIZE_T_MOD) (hr : r.RecordAccess f = Except.ok r1) :
    TsInv r1 ∧ r1.current_timestamp_ = r.current_timestamp_ + 1 := by
  by_cases hinv : invalidFrame r f
  · rw [RecordAccess_invalid hinv] at hr; cases hr
  obtain ⟨r2, h2, _, _, _, hts, hf, hg, _⟩ := RecordAccess_valid hinv
  rw [h2] at hr
  cases hr
  rw [incSizeT_of_lt hlt] at hts hf
  have hold : ∀ t ∈ r.historyOf f, 1 ≤ t ∧ t ≤ r.current_timestamp_ := by
    intro t ht
    unfold LRUKReplacer.historyOf at ht
    cases hfe : r.frame_map_.find f with
    | none => simp [hfe] at ht
    | some e => rw [hfe] at ht; exact h.bounded f e hfe t ht
  have hdec : (r.historyOf f).Pairwise (fun a b => b < a) := by
    unfold LRUKReplacer.historyOf
    cases hfe : r.frame_map_.find f with
    | none => simp
    | some e => exact h.decreasing f e hfe
  refine ⟨?_, hts⟩
  constructor
  · intro g e hge
    by_cases hgf : g = f
    · subst hgf
      rw [hf] at hge; cases hge; simp
    · rw [hg g hgf] at hge
      exact h.nonempty g e hge
  · intro g e hge
    by_cases hgf : g = f
    · subst hgf
      rw [hf] at hge; cases hge
      simp only [List.pairwise_cons]
      refine ⟨?_, hdec⟩
      intro t ht
      have := (hold t ht).2
      omega
    · rw [hg g hgf] at hge
      exact h.decreasing g e hge
  · intro g e hge t ht
    rw [hts]
    by_cases hgf : g = f
    · subst hgf
      rw [hf] at hge; cases hge
      simp only [List.mem_cons] at ht
      rcases ht with ht | ht
      · omega
      · have := hold t ht
        omega
    · rw [hg g hgf] at hge
      have := h.bounded g e hge t ht
      omega
  · intro g1 g2 e1 e2 hne ha hb t ht
    by_cases hg1 : g1 = f
    · subst hg1
      have hg2 : g2 ≠ g1 := fun c => hne c.symm
      rw [hf] at ha; cases ha
      rw [hg g2 hg2] at hb
      simp only [List.mem_cons] at ht
      rcases ht with ht | ht
      · intro hc
        have := (h.bounded g2 e2 hb t hc).2
        omega
      · unfold LRUKReplacer.historyOf at ht
        cases hfe : r.frame_map_.find g1 with
        | none => simp [hfe] at ht
        | some e => rw [hfe] at ht; exact h.disjoint g1 g2 e e2 hne hfe hb t ht
    · rw [hg g1 hg1] at ha
      by_cases hg2 : g2 = f
      · subst hg2
        rw [hf] at hb; cases hb
        simp only [List.mem_cons, not_or]
        constructor
        · have := (h.bounded g1 e1 ha t ht).2
          omega
        · unfold LRUKReplacer.historyOf
          cases hfe : r.frame_map_.find g2 with
          | none => simp
          | some e => exact h.disjoint g1 g2 e1 e hne ha hfe t ht
      · rw [hg g2 hg2] at hb
        exact h.disjoint g1 g2 e1 e2 hne ha hb t ht

theorem TsInv.SetEvictable {r r1 : LRUKReplacer} {f : Int} {b : Bool} (hi : RInv r)
    (h : TsInv r) (hr : r.SetEvictable f b = Except.ok r1) : TsInv r1 := by
  by_cases hinv : invalidFrame r f
  · rw [SetEvictable_invalid b hinv] at hr; cases hr
  obtain ⟨r2, h2, _, _, hts, hf, hg, _⟩ := SetEvictable_valid b hi hinv
  rw [h2] at hr
  cases hr
  apply h.of_same_histories hts
  intro g e1 hge
  by_cases hgf : g = f
  · subst hgf
    rw [hf] at hge
    cases hfe : r.frame_map_.find g with
    | none => simp [hfe] at hge
    | some e =>
      rw [hfe] at hge
      simp only [Option.map_some', Option.some.injEq] at hge
      exact ⟨e, rfl, by rw [← hge]⟩
  · rw [hg g hgf] at hge
    exact ⟨e1, hge, rfl⟩

/-- The timestamp invariant is kept by every call as long as `current_timestamp_`
does not wrap around; each call advances the timestamp by at most one. -/
theorem TsInv.t_apply {r : LRUKReplacer} (hi : RInv r) (h : TsInv r)
    (hlt : r.current_timestamp_ + 1 < SIZE_T_MOD) (op : ROp) :
    TsInv (r.apply op) ∧ (r.apply op).current_timestamp_ ≤ r.current_timestamp_ + 1 := by
  cases op with
  | RecordAccess f =>
    simp only [LRUKReplacer.apply]
    cases hr : r.RecordAccess f with
    | error e => exact ⟨h, by simp⟩
    | ok r1 =>
      obtain ⟨h1, h2⟩ := h.RecordAccess hlt hr
      exact ⟨h1, by simp [h2]⟩
  | SetEvictable f b =>
    simp only [LRUKReplacer.apply]
    cases hr : r.SetEvictable f b with
    | error e => exact ⟨h, by simp⟩
    | ok r1 =>
      refine ⟨h.SetEvictable hi hr, ?_⟩
      by_cases hinv : invalidFrame r f
      · rw [SetEvictable_invalid b hinv] at hr; cases hr
      · obtain ⟨r2, h2, _, _, hts, _⟩ := SetEvictable_valid b hi hinv
        rw [h2] at hr; cases hr
        simp only [hts]; omega
  | Evict =>
    simp only [LRUKReplacer.apply]
    cases hv : r.Evict.1 with
    | none => rw [Evict_none_state r hv]; exact ⟨h, by simp⟩
    | some v =>
      obtain ⟨_, _, h3, _⟩ := Evict_some hi hv
      rw [h3]
      exact ⟨h.t_erase v _, by simp⟩
  | Remove f =>
    simp only [LRUKReplacer.apply]
    cases ht : r.isTracked f with
    | false => rw [Remove_untracked ht]; exact ⟨h, by simp⟩
    | true =>
      cases he : r.isEvictable f with
      | false => rw [Remove_nonevictable ht he]; exact ⟨h, by simp⟩
      | true =>
        rw [(Remove_evictable hi he).1]
        exact ⟨h.t_erase f _, by simp⟩

theorem TsInv.t_run {r : LRUKReplacer} (ops : List ROp) (hi : RInv r) (h : TsInv r)
    (hlt : r.current_timestamp_ + ops.length < SIZE_T_MOD) :
    TsInv (r.run ops) ∧ (r.run ops).current_timestamp_ ≤ r.current_timestamp_ + ops.length := by
  induction ops generalizing r with
  | nil => exact ⟨h, by simp [LRUKReplacer.run]⟩
  | cons op ops ih =>
    simp only [List.length_cons] at hlt ⊢
    obtain ⟨h1, h2⟩ := h.t_apply hi (by omega) op
    obtain ⟨h3, h4⟩ := ih (hi.r_apply op) h1 (by omega)
    exact ⟨h3, by simp only [LRUKReplacer.run]; omega⟩

/-! ## Backward k-distance: the code against the specification -/

theorem getLastD_mem_of_ne_nil {l : List Nat} (h : l ≠ []) (d : Nat) : l.getLastD d ∈ l := by
  cases l with
  | nil => exact absurd rfl h
  | cons a l =>
    rw [List.getLastD_cons]
    exact List.getLastD_mem_cons l a

theorem getLastD_le_of_decreasing {a : Nat} {l : List Nat}
    (h : (a :: l).Pairwise (fun x y => y < x)) : l.getLastD a ≤ a := by
  have hm := List.getLastD_mem_cons l a
  rcases List.mem_cons.mp hm with h1 | h1
  · exact le_of_eq h1
  · exact le_of_lt ((List.pairwise_cons.mp h).1 _ h1)

theorem foldr_min_eq_getLastD (l : List Nat) :
    ∀ i : Nat, l ≠ [] → l.Pairwise (fun a b => b < a) → l.getLastD 0 ≤ i →
      l.foldr min i = l.getLastD 0 := by
  induction l with
  | nil => intro i h; exact absurd rfl h
  | cons a l ih =>
    intro i _ hp hi
    cases l with
    | nil =>
      simp only [List.foldr_cons, List.foldr_nil, List.getLastD_cons, List.getLastD_nil] at hi ⊢
      exact min_eq_left hi
    | cons b l =>
      have hp2 := (List.pairwise_cons.mp hp).2
      have heq : (a :: b :: l).getLastD 0 = (b :: l).getLastD 0 := by
        simp only [List.getLastD_cons]
      rw [heq] at hi ⊢
      rw [List.foldr_cons, ih i (by simp) hp2 hi]
      apply min_eq_right
      have hm : (b :: l).getLastD 0 ∈ b :: l := getLastD_mem_of_ne_nil (by simp) 0
      exact le_of_lt ((List.pairwise_cons.mp hp).1 _ hm)

/-- For a history shorter than `k`, the oldest of the last `k` accesses is the entry
that `history_.back()` reads. -/
theorem specOldest_eq_back {k : Nat} {h : List Nat} (hne : h ≠ [])
    (hdec : h.Pairwise (fun a b => b < a)) (hlen : h.length ≤ k) :
    specOldest k h = h.getLastD 0 := by
  unfold specOldest
  rw [List.take_of_length_le hlen]
  apply foldr_min_eq_getLastD h _ hne hdec
  cases h with
  | nil => exact absurd rfl hne
  | cons a l =>
    simp only [List.headD_cons, List.getLastD_cons]
    exact getLastD_le_of_decreasing hdec

theorem backwardKDist_short {k now : Nat} {e : FrameEntry} (h : e.history_.length < k) :
    backwardKDist k now e = SIZE_MAX ∧ specDist k now e.history_ = ⊤ := by
  simp [backwardKDist, specDist, h]

theorem backwardKDist_long {k now : Nat} {e : FrameEntry} (hk : 1 ≤ k)
    (h : ¬ e.history_.length < k) (hnow : now < SIZE_T_MOD)
    (hb : ∀ t ∈ e.history_, 1 ≤ t ∧ t ≤ now) :
    ∃ t ∈ e.history_, 1 ≤ t ∧ t ≤ now ∧ backwardKDist k now e = now - t ∧
      specDist k now e.history_ = ((now - t : Nat) : WithTop Nat) := by
  have hidx : k - 1 < e.history_.length := by omega
  refine ⟨e.history_[k - 1], List.getElem_mem _, (hb _ (List.getElem_mem _)).1,
    (hb _ (List.getElem_mem _)).2, ?_, ?_⟩
  · simp only [backwardKDist, h, if_false, List.getD_eq_getElem _ _ hidx]
    exact subSizeT_of_le (hb _ (List.getElem_mem _)).2 hnow
  · simp only [specDist, h, if_false, List.getD_eq_getElem _ _ hidx]

/-- The comparison made by the scan, read in the words of the specification. -/
theorem scan_order_is_spec_order {k now : Nat} {e1 e2 : FrameEntry} (hk : 1 ≤ k)
    (hnow : now < SIZE_T_MOD)
    (hb1 : ∀ t ∈ e1.history_, 1 ≤ t ∧ t ≤ now) (hb2 : ∀ t ∈ e2.history_, 1 ≤ t ∧ t ≤ now)
    (hne1 : e1.history_ ≠ []) (hne2 : e2.history_ ≠ [])
    (hd1 : e1.history_.Pairwise (fun a b => b < a))
    (hd2 : e2.history_.Pairwise (fun a b => b < a))
    (hdisj : ∀ t ∈ e1.history_, t ∉ e2.history_)
    (hcmp : backwardKDist k now e2 < backwardKDist k now e1 ∨
      (backwardKDist k now e2 = backwardKDist k now e1 ∧
        frameEarliestTs e1 ≤ frameEarliestTs e2)) :
    specDist k now e2.history_ < specDist k now e1.history_ ∨
    (specDist k now e1.history_ = specDist k now e2.history_ ∧
      specOldest k e1.history_ < specOldest k e2.history_) := by
  have hmax : SIZE_MAX = SIZE_T_MOD - 1 := rfl
  by_cases hl1 : e1.history_.length < k
  · obtain ⟨hk1, hs1⟩ := @backwardKDist_short k now e1 hl1
    by_cases hl2 : e2.history_.length < k
    · obtain ⟨hk2, hs2⟩ := @backwardKDist_short k now e2 hl2
      right
      refine ⟨by rw [hs1, hs2], ?_⟩
      rw [specOldest_eq_back hne1 hd1 (le_of_lt hl1), specOldest_eq_back hne2 hd2 (le_of_lt hl2)]
      rcases hcmp with hc | ⟨_, hc⟩
      · omega
      · unfold frameEarliestTs at hc
        rcases Nat.lt_or_ge (e1.history_.getLastD 0) (e2.history_.getLastD 0) with hlt | hge
        · exact hlt
        · have heq : e1.history_.getLastD 0 = e2.history_.getLastD 0 := le_antisymm hc hge
          have hm1 := getLastD_mem_of_ne_nil hne1 0
          have hm2 := getLastD_mem_of_ne_nil hne2 0
          rw [← heq] at hm2
          exact absurd hm2 (hdisj _ hm1)
    · obtain ⟨t2, _, _, _, _, hs2⟩ := backwardKDist_long hk hl2 hnow hb2
      left
      rw [hs1, hs2]
      exact WithTop.coe_lt_top _
  · obtain ⟨t1, hm1, h1a, h1b, hk1, hs1⟩ := backwardKDist_long hk hl1 hnow hb1
    by_cases hl2 : e2.history_.length < k
    · obtain ⟨hk2, _⟩ := @backwardKDist_short k now e2 hl2
      rw [hk1, hk2] at hcmp
      omega
    · obtain ⟨t2, hm2, h2a, h2b, hk2, hs2⟩ := backwardKDist_long hk hl2 hnow hb2
      rw [hk1, hk2] at hcmp
      rcases hcmp with hc | ⟨hc, _⟩
      · left
        rw [hs1, hs2]
        exact WithTop.coe_lt_coe.mpr hc
      · have : t1 = t2 := by omega
        rw [← this] at hm2
        exact absurd hm2 (hdisj _ hm1)

theorem RecordAccess_static {r r1 : LRUKReplacer} {f : Int}
    (h : r.RecordAccess f = Except.ok r1) :
    r1.replacer_size_ = r.replacer_size_ ∧ r1.k_ = r.k_ := by
  unfold LRUKReplacer.RecordAccess at h
  split_ifs at h
  cases hf : r.frame_map_.find f with
  | none => rw [hf] at h; cases h; exact ⟨rfl, rfl⟩
  | some e => rw [hf] at h; cases h; exact ⟨rfl, rfl⟩

theorem SetEvictable_static {r r1 : LRUKReplacer} {f : Int} {b : Bool}
    (h : r.SetEvictable f b = Except.ok r1) :
    r1.replacer_size_ = r.replacer_size_ ∧ r1.k_ = r.k_ := by
  unfold LRUKReplacer.SetEvictable at h
  split_ifs at h
  cases hf : r.frame_map_.find f with
  | none => rw [hf] at h; cases h; exact ⟨rfl, rfl⟩
  | some e =>
    rw [hf] at h
    dsimp only at h
    split_ifs at h <;> cases h <;> exact ⟨rfl, rfl⟩

theorem Remove_static {r r1 : LRUKReplacer} {f : Int} (h : r.Remove f = Except.ok r1) :
    r1.replacer_size_ = r.replacer_size_ ∧ r1.k_ = r.k_ := by
  unfold LRUKReplacer.Remove at h
  cases hf : r.frame_map_.find f with
  | none => rw [hf] at h; cases h; exact ⟨rfl, rfl⟩
  | some e =>
    rw [hf] at h
    dsimp only at h
    split_ifs at h
    cases h; exact ⟨rfl, rfl⟩

theorem Evict_static (r : LRUKReplacer) :
    r.Evict.2.replacer_size_ = r.replacer_size_ ∧ r.Evict.2.k_ = r.k_ := by
  unfold LRUKReplacer.Evict
  split_ifs <;> exact ⟨rfl, rfl⟩

theorem apply_static (r : LRUKReplacer) (op : ROp) :
    (r.apply op).replacer_size_ = r.replacer_size_ ∧ (r.apply op).k_ = r.k_ := by
  cases op with
  | RecordAccess f =>
    simp only [LRUKReplacer.apply]
    cases h : r.RecordAccess f with
    | error e => exact ⟨rfl, rfl⟩
    | ok r1 => exact RecordAccess_static h
  | SetEvictable f b =>
    simp only [LRUKReplacer.apply]
    cases h : r.SetEvictable f b with
    | error e => exact ⟨rfl, rfl⟩
    | ok r1 => exact SetEvictable_static h
  | Evict => exact Evict_static r
  | Remove f =>
    simp only [LRUKReplacer.apply]
    cases h : r.Remove f with
    | error e => exact ⟨rfl, rfl⟩
    | ok r1 => exact Remove_static h

theorem run_static (r : LRUKReplacer) (ops : List ROp) :
    (r.run ops).replacer_size_ = r.replacer_size_ ∧ (r.run ops).k_ = r.k_ := by
  induction ops generalizing r with
  | nil => exact ⟨rfl, rfl⟩
  | cons op ops ih =>
    simp only [LRUKReplacer.run]
    rw [(ih (r.apply op)).1, (ih (r.apply op)).2]
    exact apply_static r op

/-! ## Counting evictable frames -/

/-- With distinct keys inside `[0, replacer_size_)`, counting the evictable entries of
the map is counting the frame indices whose entry is evictable. -/
theorem evictableCount_eq_countP_range {r : LRUKReplacer} (h : RInv r) :
    evictableCount r.frame_map_ =
      (List.range r.replacer_size_).countP (fun (i : Nat) => r.isEvictable (i : Int)) := by
  unfold evictableCount
  rw [List.countP_eq_length_filter, List.countP_eq_length_filter]
  have hnd : (r.frame_map_.filter (fun x => x.2.is_evictable_)).Nodup := by
    apply List.Nodup.filter
    exact List.Nodup.of_map Prod.fst h.nodup
  have hinj : ∀ x ∈ r.frame_map_.filter (fun x => x.2.is_evictable_),
      ∀ y ∈ r.frame_map_.filter (fun x => x.2.is_evictable_),
      x.1.toNat = y.1.toNat → x = y := by
    intro x hx y hy hxy
    have hx1 := (List.mem_filter.mp hx).1
    have hy1 := (List.mem_filter.mp hy).1
    have hxr := (h.range x.1 (List.mem_map_of_mem Prod.fst hx1)).1
    have hyr := (h.range y.1 (List.mem_map_of_mem Prod.fst hy1)).1
    have hk : x.1 = y.1 := by omega
    have fx := FrameMap.find_of_mem (f := x.1) (e := x.2) h.nodup hx1
    have fy := FrameMap.find_of_mem (f := y.1) (e := y.2) h.nodup hy1
    rw [hk, fy] at fx
    cases x; cases y
    simp only [Option.some.injEq] at fx
    simp only at hk
    rw [hk, fx]
  have hnd1 : ((r.frame_map_.filter (fun x => x.2.is_evictable_)).map
      (fun x => x.1.toNat)).Nodup := List.Nodup.map_on hinj hnd
  have hnd2 : ((List.range r.replacer_size_).filter
      (fun (i : Nat) => r.isEvictable (i : Int))).Nodup := (List.nodup_range _).filter _
  have hperm := (List.perm_ext_iff_of_nodup hnd1 hnd2).mpr (by
    intro a
    simp only [List.mem_map, List.mem_filter, List.mem_range]
    constructor
    · rintro ⟨x, ⟨hx, hxe⟩, rfl⟩
      have hxr := h.range x.1 (List.mem_map_of_mem Prod.fst hx)
      refine ⟨hxr.2, ?_⟩
      rw [Int.toNat_of_nonneg hxr.1]
      exact isEvictable_eq_true_iff.mpr ⟨x.2, FrameMap.find_of_mem h.nodup hx, hxe⟩
    · rintro ⟨_, ha⟩
      obtain ⟨e, he, hee⟩ := isEvictable_eq_true_iff.mp ha
      exact ⟨((a : Int), e), ⟨FrameMap.mem_of_find he, hee⟩, by simp⟩)
  have := hperm.length_eq
  simpa using this

/-! ## Claims about the replacer -/

/-- C7: after every sequence of RecordAccess, SetEvictable, Evict and Remove calls on a
fresh replacer (calls that throw included), `Size()` is the number of tracked frames
whose evictable flag is set: the entries of the map have distinct keys, all inside
`[0, num_frames)`, and `curr_size_` counts the evictable ones, so it never wraps below
zero; a frame that becomes tracked adds nothing to it until `SetEvictable(frame, true)`,
which then adds exactly one. -/
theorem size_counts_evictable_frames (n k : Nat) (ops : List ROp) (hn : n < SIZE_T_MOD) :
    ((LRUKReplacer.new n k).run ops).frame_map_.keys.Nodup ∧
    (∀ f, ((LRUKReplacer.new n k).run ops).isTracked f = true → 0 ≤ f ∧ f.toNat < n) ∧
    ((LRUKReplacer.new n k).run ops).Size =
      evictableCount ((LRUKReplacer.new n k).run ops).frame_map_ ∧
    ((LRUKReplacer.new n k).run ops).Size =
      (List.range n).countP (fun (i : Nat) => ((LRUKReplacer.new n k).run ops).isEvictable (i : Int)) ∧
    ((LRUKReplacer.new n k).run ops).Size ≤ n ∧
    (∀ f r1, ((LRUKReplacer.new n k).run ops).isTracked f = false →
      ((LRUKReplacer.new n k).run ops).RecordAccess f = Except.ok r1 →
      r1.isTracked f = true ∧ r1.isEvictable f = false ∧
      r1.Size = ((LRUKReplacer.new n k).run ops).Size ∧
      ∀ r2, r1.SetEvictable f true = Except.ok r2 → r2.Size = r1.Size + 1) := by
  have hi : RInv ((LRUKReplacer.new n k).run ops) := (RInv.r_new n k hn).r_run ops
  have hs : ((LRUKReplacer.new n k).run ops).replacer_size_ = n :=
    (run_static (LRUKReplacer.new n k) ops).1
  generalize (LRUKReplacer.new n k).run ops = r at hi hs
  refine ⟨hi.nodup, ?_, hi.size, ?_, ?_, ?_⟩
  · intro f hf
    obtain ⟨e, he⟩ := isTracked_eq_true_iff.mp hf
    rw [← hs]
    exact hi.range f (List.mem_map_of_mem Prod.fst (FrameMap.mem_of_find he))
  · rw [← hs, ← evictableCount_eq_countP_range hi]
    exact hi.size
  · have h1 : evictableCount r.frame_map_ ≤ r.frame_map_.length := List.countP_le_length _
    have h2 := hi.length_le
    have h3 := hi.size
    unfold LRUKReplacer.Size
    omega
  · intro f r1 htr hr
    by_cases hinv : invalidFrame r f
    · rw [RecordAccess_invalid hinv] at hr; cases hr
    obtain ⟨r2, h2, hsz, _, hcs, _, hf, _, hinv1⟩ := RecordAccess_valid hinv
    rw [h2] at hr; cases hr
    have hnone : r.frame_map_.find f = none := by
      cases hx : r.frame_map_.find f with
      | none => rfl
      | some e => simp [LRUKReplacer.isTracked, hx] at htr
    have hev : r1.isEvictable f = false := by
      rw [isEvictable_of_find hf]
      exact isEvictable_of_find_none hnone
    have htr1 : r1.isTracked f = true := isTracked_eq_true_iff.mpr ⟨_, hf⟩
    refine ⟨htr1, hev, hcs, ?_⟩
    intro r2 hr2
    have hinv2 : ¬ invalidFrame r1 f := by
      unfold invalidFrame at hinv ⊢
      rw [hsz]; exact hinv
    obtain ⟨r3, h3, _, _, _, _, _, _, _, hgrow, _⟩ := SetEvictable_valid true (hinv1 hi) hinv2
    rw [h3] at hr2; cases hr2
    exact hgrow htr1 hev rfl

/-- C5: for `k ≥ 1`, in every replacer state reached by RecordAccess / SetEvictable /
Evict / Remove calls (fewer than `2 ^ 64` of them, so that `current_timestamp_` has
not wrapped), `Evict` returns none exactly when no tracked frame is evictable;
otherwise it returns an evictable frame `v` such that every other evictable frame `g`
has a smaller backward k-distance, or the same distance and a larger oldest
timestamp among its last `k` accesses. -/
theorem evict_returns_max_backward_k_distance (n k : Nat) (ops : List ROp) (hk : 1 ≤ k)
    (hn : n < SIZE_T_MOD) (hlen : ops.length < SIZE_T_MOD) :
    (((LRUKReplacer.new n k).run ops).Evict.1 = none ↔
      ∀ f, ((LRUKReplacer.new n k).run ops).isEvictable f = false) ∧
    ∀ v, ((LRUKReplacer.new n k).run ops).Evict.1 = some v →
      ((LRUKReplacer.new n k).run ops).isEvictable v = true ∧
      ∀ g, g ≠ v → ((LRUKReplacer.new n k).run ops).isEvictable g = true →
        specDist k ((LRUKReplacer.new n k).run ops).current_timestamp_
            (((LRUKReplacer.new n k).run ops).historyOf g) <
          specDist k ((LRUKReplacer.new n k).run ops).current_timestamp_
            (((LRUKReplacer.new n k).run ops).historyOf v) ∨
        (specDist k ((LRUKReplacer.new n k).run ops).current_timestamp_
            (((LRUKReplacer.new n k).run ops).historyOf v) =
          specDist k ((LRUKReplacer.new n k).run ops).current_timestamp_
            (((LRUKReplacer.new n k).run ops).historyOf g) ∧
          specOldest k (((LRUKReplacer.new n k).run ops).historyOf v) <
            specOldest k (((LRUKReplacer.new n k).run ops).historyOf g)) := by
  have hi : RInv ((LRUKReplacer.new n k).run ops) := (RInv.r_new n k hn).r_run ops
  have hk_ : ((LRUKReplacer.new n k).run ops).k_ = k :=
    (run_static (LRUKReplacer.new n k) ops).2
  obtain ⟨ht, hnow⟩ := TsInv.t_run ops (RInv.r_new n k hn) (TsInv.t_new n k)
    (by simpa [LRUKReplacer.new] using hlen)
  have hnow1 : ((LRUKReplacer.new n k).run ops).current_timestamp_ < SIZE_T_MOD := by
    have h0 : (LRUKReplacer.new n k).current_timestamp_ = 0 := rfl
    rw [h0, zero_add] at hnow
    omega
  clear hnow
  generalize (LRUKReplacer.new n k).run ops = r at hi hk_ ht hnow1
  refine ⟨Evict_none_iff hi, ?_⟩
  intro v hv
  obtain ⟨hv1, hv2, _, _⟩ := Evict_some hi hv
  refine ⟨hv2, ?_⟩
  intro g hgv hg
  rcases scanGood_evictScan r hi.ne_neg_one with ⟨_, h2⟩ | ⟨e, he, _, hd, hts, hall⟩
  · obtain ⟨e, he, hee⟩ := isEvictable_eq_true_iff.mp hv2
    rw [h2 _ (FrameMap.mem_of_find he)] at hee
    cases hee
  · rw [← hv1] at he
    have hfv := FrameMap.find_of_mem hi.nodup he
    obtain ⟨e2, hfg, hge⟩ := isEvictable_eq_true_iff.mp hg
    have hcmp := hall (g, e2) (FrameMap.mem_of_find hfg) hge
    rw [hd, hts, hk_] at hcmp
    rw [historyOf_of_find hfv, historyOf_of_find hfg]
    exact scan_order_is_spec_order hk hnow1 (ht.bounded v e hfv) (ht.bounded g e2 hfg)
      (ht.nonempty v e hfv) (ht.nonempty g e2 hfg) (ht.decreasing v e hfv)
      (ht.decreasing g e2 hfg) (ht.disjoint v g e e2 (fun c => hgv c.symm) hfv hfg) hcmp

/-! ## Replacer calls seen through `isTracked` and `isEvictable` -/

theorem isTracked_of_find_eq {r r1 : LRUKReplacer} {g : Int}
    (h : r1.frame_map_.find g = r.frame_map_.find g) : r1.isTracked g = r.isTracked g := by
  simp [LRUKReplacer.isTracked, h]

theorem isEvictable_of_find_eq {r r1 : LRUKReplacer} {g : Int}
    (h : r1.frame_map_.find g = r.frame_map_.find g) : r1.isEvictable g = r.isEvictable g := by
  simp [LRUKReplacer.isEvictable, h]

theorem isEvictable_false_of_untracked {r : LRUKReplacer} {f : Int}
    (h : r.isTracked f = false) : r.isEvictable f = false := by
  cases hf : r.frame_map_.find f with
  | none => exact isEvictable_of_find_none hf
  | some e => simp [LRUKReplacer.isTracked, hf] at h

/-- The replacer after `RecordAccess(f)` followed by `SetEvictable(f, false)` on a valid
frame: `f` is tracked and not evictable, every other frame is as before. -/
theorem record_then_pin {r : LRUKReplacer} {f : Int} (hi : RInv r) (h : ¬ invalidFrame r f) :
    ∃ r1 r2, r.RecordAccess f = Except.ok r1 ∧ r1.SetEvictable f false = Except.ok r2 ∧
      RInv r2 ∧ r2.replacer_size_ = r.replacer_size_ ∧ r2.k_ = r.k_ ∧
      r2.isTracked f = true ∧ r2.isEvictable f = false ∧
      (∀ g, g ≠ f → r2.isTracked g = r.isTracked g ∧ r2.isEvictable g = r.isEvictable g) := by
  obtain ⟨r1, h1, hs1, hk1, _, _, hf1, hg1, hinv1⟩ := RecordAccess_valid h
  have hv1 : ¬ invalidFrame r1 f := by
    unfold invalidFrame at h ⊢
    rw [hs1]; exact h
  obtain ⟨r2, h2, hs2, hk2, _, hf2, hg2, hinv2, _⟩ := SetEvictable_valid false (hinv1 hi) hv1
  refine ⟨r1, r2, h1, h2, hinv2, by rw [hs2, hs1], by rw [hk2, hk1], ?_, ?_, ?_⟩
  · rw [hf1] at hf2
    exact isTracked_eq_true_iff.mpr ⟨_, hf2⟩
  · rw [hf1] at hf2
    rw [isEvictable_of_find hf2]
  · intro g hg
    have : r2.frame_map_.find g = r.frame_map_.find g := by rw [hg2 g hg, hg1 g hg]
    exact ⟨isTracked_of_find_eq this, isEvictable_of_find_eq this⟩

/-- The replacer after `SetEvictable(f, true)` on a tracked frame. -/
theorem set_evictable_true {r : LRUKReplacer} {f : Int} (hi : RInv r)
    (ht : r.isTracked f = true) :
    ∃ r1, r.SetEvictable f true = Except.ok r1 ∧
      RInv r1 ∧ r1.replacer_size_ = r.replacer_size_ ∧ r1.k_ = r.k_ ∧
      r1.isTracked f = true ∧ r1.isEvictable f = true ∧
      (∀ g, g ≠ f → r1.isTracked g = r.isTracked g ∧ r1.isEvictable g = r.isEvictable g) ∧
      (r.isEvictable f = false → r1.curr_size_ = r.curr_size_ + 1) := by
  obtain ⟨e, he⟩ := isTracked_eq_true_iff.mp ht
  have hr := hi.range f (List.mem_map_of_mem Prod.fst (FrameMap.mem_of_find he))
  have hv : ¬ invalidFrame r f := by
    unfold invalidFrame
    omega
  obtain ⟨r1, h1, hs1, hk1, _, hf1, hg1, hinv1, _, hgrow, _⟩ := SetEvictable_valid true hi hv
  rw [he] at hf1
  refine ⟨r1, h1, hinv1, hs1, hk1, isTracked_eq_true_iff.mpr ⟨_, hf1⟩, ?_, ?_, ?_⟩
  · rw [isEvictable_of_find hf1]
  · intro g hg
    exact ⟨isTracked_of_find_eq (hg1 g hg), isEvictable_of_find_eq (hg1 g hg)⟩
  · intro hne
    exact hgrow ht hne rfl

/-- The replacer after the entry of an evictable frame is erased, as `Evict` and
`Remove` do. -/
theorem erase_observers {r : LRUKReplacer} (v : Int) (c : Nat) :
    ({ r with frame_map_ := r.frame_map_.erase v, curr_size_ := c } : LRUKReplacer).isTracked v
      = false ∧
    ∀ g, g ≠ v →
      ({ r with frame_map_ := r.frame_map_.erase v, curr_size_ := c } : LRUKReplacer).isTracked g
        = r.isTracked g ∧
      ({ r with frame_map_ := r.frame_map_.erase v, curr_size_ := c } : LRUKReplacer).isEvictable g
        = r.isEvictable g := by
  constructor
  · simp [LRUKReplacer.isTracked, FrameMap.find_erase]
  · intro g hg
    simp [LRUKReplacer.isTracked, LRUKReplacer.isEvictable, FrameMap.find_erase, hg]

theorem RInv.range_of_tracked {r : LRUKReplacer} (hi : RInv r) {f : Int}
    (h : r.isTracked f = true) : 0 ≤ f ∧ f.toNat < r.replacer_size_ := by
  obtain ⟨e, he⟩ := isTracked_eq_true_iff.mp h
  exact hi.range f (List.mem_map_of_mem Prod.fst (FrameMap.mem_of_find he))

/-! ## Frame acquisition and page installation -/

theorem NewPgImp_eq (s : BufferPoolManagerInstance) :
    s.NewPgImp =
      match s.acquireFrame with
      | none => Except.ok (none, s)
      | some (f, s1) =>
        (({ s1 with next_page_id_ := incPageId s1.next_page_id_ } :
            BufferPoolManagerInstance).installPage f
          { data_ := zeroData, page_id_ := s1.next_page_id_, pin_count_ := 1,
            is_dirty_ := false }).map (fun s2 => (some (s1.next_page_id_, f), s2)) := by
  unfold BufferPoolManagerInstance.NewPgImp BufferPoolManagerInstance.installPage
  cases s.acquireFrame with
  | none => rfl
  | some x =>
    obtain ⟨f, s1⟩ := x
    dsimp only
    cases s1.replacer_.RecordAccess f with
    | error e => rfl
    | ok r1 =>
      dsimp only
      cases r1.SetEvictable f false with
      | error e => rfl
      | ok r2 => rfl

theorem FetchPgImp_miss_eq (s : BufferPoolManagerInstance) (p : Int)
    (h : s.page_table_ p = none) :
    s.FetchPgImp p =
      match s.acquireFrame with
      | none => Except.ok (none, s)
      | some (f, s1) =>
        (s1.installPage f
          { data_ := s1.disk_ p, page_id_ := p, pin_count_ := 1,
            is_dirty_ := false }).map (fun s2 => (some f, s2)) := by
  unfold BufferPoolManagerInstance.FetchPgImp BufferPoolManagerInstance.installPage
  rw [h]
  dsimp only
  cases s.acquireFrame with
  | none => rfl
  | some x =>
    obtain ⟨f, s1⟩ := x
    dsimp only
    cases s1.replacer_.RecordAccess f with
    | error e => rfl
    | ok r1 =>
      dsimp only
      cases r1.SetEvictable f false with
      | error e => rfl
      | ok r2 => rfl

theorem BInv.isFrame_of_tracked {s : BufferPoolManagerInstance} (hi : BInv s) {f : Int}
    (h : s.replacer_.isTracked f = true) : s.isFrame f := by
  have := hi.rinv.range_of_tracked h
  rw [hi.rsize] at this
  exact this

theorem BInv.not_free_of_tracked {s : BufferPoolManagerInstance} (hi : BInv s) {f : Int}
    (h : s.replacer_.isTracked f = true) : f ∉ s.free_list_ := by
  intro hf
  rw [hi.free_untracked f hf] at h
  cases h

/-- No frame is obtained exactly when the free list is empty and no frame is evictable;
nothing is changed then. -/
theorem acquireFrame_eq_none_iff {s : BufferPoolManagerInstance} (hi : BInv s) :
    s.acquireFrame = none ↔
      s.free_list_ = [] ∧ ∀ f, s.replacer_.isEvictable f = false := by
  unfold BufferPoolManagerInstance.acquireFrame
  cases hfl : s.free_list_ with
  | cons f rest => simp
  | nil =>
    dsimp only
    have hn := Evict_none_iff hi.rinv
    cases hev : s.replacer_.Evict with
    | mk v r1 =>
      rw [hev] at hn
      cases v with
      | none => simpa using hn.mp rfl
      | some v =>
        simp only [false_iff, not_and, true_implies, reduceCtorEq]
        intro hall
        have := hn.mpr hall
        cases this

/-- What the acquisition of a frame does. -/
theorem acquireFrame_some {s s1 : BufferPoolManagerInstance} {f : Int} (hi : BInv s)
    (h : s.acquireFrame = some (f, s1)) :
    BInvHole s1 f ∧ (s.pages_ f).pin_count_ = 0 ∧ s.isFrame f ∧
    s1.pool_size_ = s.pool_size_ ∧ s1.next_page_id_ = s.next_page_id_ ∧
    s1.replacer_.k_ = s.replacer_.k_ ∧
    (∀ g, g ≠ f → s1.pages_ g = s.pages_ g) ∧
    (∀ g, g ≠ f → s1.replacer_.isTracked g = s.replacer_.isTracked g ∧
      s1.replacer_.isEvictable g = s.replacer_.isEvictable g) ∧
    (s1.pages_ f).page_id_ = (s.pages_ f).page_id_ ∧
    (s1.pages_ f).data_ = (s.pages_ f).data_ ∧
    (∀ p g, s1.page_table_ p = some g ↔
      (s.page_table_ p = some g ∧ p ≠ (s.pages_ f).page_id_) ∨
      (s.page_table_ p = some g ∧ s.free_list_ ≠ [])) ∧
    s1.disk_ = (if s.free_list_ = [] ∧ (s.pages_ f).is_dirty_ = true then
      Function.update s.disk_ (s.pages_ f).page_id_ (s.pages_ f).data_ else s.disk_) ∧
    (∀ g, g ∈ s1.free_list_ → g ∈ s.free_list_) ∧
    (s.free_list_ = [] → s.replacer_.isEvictable f = true) := by
  unfold BufferPoolManagerInstance.acquireFrame at h
  cases hfl : s.free_list_ with
  | cons f0 rest =>
    rw [hfl] at h
    simp only [Option.some.injEq, Prod.mk.injEq] at h
    obtain ⟨h1, h2⟩ := h
    subst h1 h2
    have hmem : f0 ∈ s.free_list_ := by rw [hfl]; exact List.mem_cons_self _ _
    have hnd := hi.free_nodup
    rw [hfl, List.nodup_cons] at hnd
    have hsub : ∀ g ∈ rest, g ∈ s.free_list_ := by
      intro g hg; rw [hfl]; exact List.mem_cons_of_mem _ hg
    refine ⟨?_, ?_, hi.free_range f0 hmem, rfl, rfl, rfl, fun g _ => rfl,
      fun g _ => ⟨rfl, rfl⟩, rfl, rfl, ?_, ?_, ?_, ?_⟩
    · exact
        { rsize := hi.rsize
          rinv := hi.rinv
          free_nodup := hnd.2
          free_range := fun g hg => hi.free_range g (hsub g hg)
          free_page := fun g hg => hi.free_page g (hsub g hg)
          free_untracked := fun g hg => hi.free_untracked g (hsub g hg)
          hole_frame := hi.free_range f0 hmem
          hole_free := hnd.1
          hole_untracked := hi.free_untracked f0 hmem
          tracked_or_free := by
            intro g hg hne
            rcases hi.tracked_or_free g hg with h1 | h1
            · rw [hfl] at h1
              rcases List.mem_cons.mp h1 with h2 | h2
              · exact absurd h2 hne
              · exact Or.inl h2
            · exact Or.inr h1
          evictable_iff := hi.evictable_iff
          table_frame := hi.table_frame }
    · rw [hi.free_page f0 hmem]; rfl
    · intro p g
      constructor
      · intro h; exact Or.inr ⟨h, by simp⟩
      · rintro (⟨h, _⟩ | ⟨h, _⟩) <;> exact h
    · simp
    · intro g hg; exact List.mem_cons_of_mem _ hg
    · intro hc; cases hc
  | nil =>
    rw [hfl] at h
    dsimp only at h
    cases hev : s.replacer_.Evict with
    | mk v r1 =>
      rw [hev] at h
      cases v with
      | none => cases h
      | some v =>
        have hv1 : s.replacer_.Evict.1 = some v := by rw [hev]
        obtain ⟨_, hvev, hr1, _⟩ := Evict_some hi.rinv hv1
        rw [hev] at hr1
        simp only at hr1
        subst hr1
        simp only [Option.some.injEq, Prod.mk.injEq] at h
        obtain ⟨h1, h2⟩ := h
        subst h1
        have hvtr : s.replacer_.isTracked v = true := isEvictable_isTracked hvev
        have hpin : (s.pages_ v).pin_count_ = 0 := (hi.evictable_iff v hvtr).mp hvev
        have hobs := erase_observers (r := s.replacer_) v (s.replacer_.curr_size_ - 1)
        have hpages : ∀ g, g ≠ v → s1.pages_ g = s.pages_ g := by
          intro g hg
          rw [← h2]
          by_cases hd : (s.pages_ v).is_dirty_ = true
          · simp [hd, Function.update_noteq hg]
          · simp [hd]
        have hpagev : (s1.pages_ v).page_id_ = (s.pages_ v).page_id_ ∧
            (s1.pages_ v).data_ = (s.pages_ v).data_ ∧
            (s1.pages_ v).pin_count_ = (s.pages_ v).pin_count_ := by
          rw [← h2]
          by_cases hd : (s.pages_ v).is_dirty_ = true
          · simp [hd]
          · simp [hd]
        have hrep : s1.replacer_ = { s.replacer_ with
            frame_map_ := s.replacer_.frame_map_.erase v,
            curr_size_ := s.replacer_.curr_size_ - 1 } := by
          rw [← h2]
          by_cases hd : (s.pages_ v).is_dirty_ = true
          · simp [hd]
          · simp [hd]
        have htable : ∀ p, s1.page_table_ p =
            if p = (s.pages_ v).page_id_ then none else s.page_table_ p := by
          intro p
          rw [← h2]
          by_cases hd : (s.pages_ v).is_dirty_ = true
          · simp [hd, Function.update_apply]
          · simp [hd, Function.update_apply]
        have hfree : s1.free_list_ = [] := by
          rw [← h2]
          by_cases hd : (s.pages_ v).is_dirty_ = true
          · simp [hd, hfl]
          · simp [hd, hfl]
        have hpool : s1.pool_size_ = s.pool_size_ := by
          rw [← h2]
          by_cases hd : (s.pages_ v).is_dirty_ = true
          · simp [hd]
          · simp [hd]
        have hnext : s1.next_page_id_ = s.next_page_id_ := by
          rw [← h2]
          by_cases hd : (s.pages_ v).is_dirty_ = true
          · simp [hd]
          · simp [hd]
        have hdisk : s1.disk_ = (if (s.pages_ v).is_dirty_ = true then
            Function.update s.disk_ (s.pages_ v).page_id_ (s.pages_ v).data_ else s.disk_) := by
          rw [← h2]
          by_cases hd : (s.pages_ v).is_dirty_ = true
          · simp [hd]
          · simp [hd]
        have hframe : s.isFrame v := hi.isFrame_of_tracked hvtr
        refine ⟨?_, hpin, hframe, hpool, hnext, by rw [hrep], hpages, ?_, hpagev.1, hpagev.2.1,
          ?_, ?_, ?_, fun _ => hvev⟩
        · exact
            { rsize := by rw [hrep, hpool]; exact hi.rsize
              rinv := by rw [hrep]; exact hi.rinv.r_erase hvev
              free_nodup := by rw [hfree]; exact List.nodup_nil
              free_range := by rw [hfree]; intro g hg; cases hg
              free_page := by rw [hfree]; intro g hg; cases hg
              free_untracked := by rw [hfree]; intro g hg; cases hg
              hole_frame := by unfold BufferPoolManagerInstance.isFrame; rw [hpool]; exact hframe
              hole_free := by rw [hfree]; exact List.not_mem_nil _
              hole_untracked := by rw [hrep]; exact hobs.1
              tracked_or_free := by
                intro g hg hne
                right
                rw [hrep, (hobs.2 g hne).1]
                have hg2 : s.isFrame g := by
                  unfold BufferPoolManagerInstance.isFrame at hg ⊢; rw [← hpool]; exact hg
                rcases hi.tracked_or_free g hg2 with h3 | h3
                · rw [hfl] at h3; cases h3
                · exact h3
              evictable_iff := by
                intro g hg
                have hne : g ≠ v := by
                  rintro rfl
                  rw [hrep, hobs.1] at hg
                  cases hg
                rw [hrep, (hobs.2 g hne).1] at hg
                rw [hrep, (hobs.2 g hne).2, hpages g hne]
                exact hi.evictable_iff g hg
              table_frame := by
                intro p g hpg
                rw [htable] at hpg
                by_cases hp : p = (s.pages_ v).page_id_
                · simp [hp] at hpg
                · simp only [hp, if_false] at hpg
                  obtain ⟨ht, hid⟩ := hi.table_frame p g hpg
                  have hne : g ≠ v := by
                    rintro rfl
                    exact hp hid.symm
                  rw [hrep, (hobs.2 g hne).1, hpages g hne]
                  exact ⟨ht, hid⟩ }
        · intro g hg
          rw [hrep]
          exact hobs.2 g hg
        · intro p g
          rw [htable]
          by_cases hp : p = (s.pages_ v).page_id_
          · simp [hp, hfl]
          · simp [hp, hfl]
        · rw [hdisk]
          simp [hfl]
        · rw [hfree]; intro g hg; cases hg

/-- Installing a page with pin count one in an acquired frame restores the invariant and
throws nothing. -/
theorem installPage_ok {s : BufferPoolManagerInstance} {f : Int} (pg : Page)
    (hh : BInvHole s f) (hpin : pg.pin_count_ = 1) :
    ∃ r2, s.installPage f pg =
        Except.ok { s with pages_ := Function.update s.pages_ f pg
                           page_table_ := Function.update s.page_table_ pg.page_id_ (some f)
                           replacer_ := r2 } ∧
      BInv { s with pages_ := Function.update s.pages_ f pg
                    page_table_ := Function.update s.page_table_ pg.page_id_ (some f)
                    replacer_ := r2 } ∧
      r2.k_ = s.replacer_.k_ ∧ r2.isTracked f = true ∧ r2.isEvictable f = false ∧
      (∀ g, g ≠ f → r2.isTracked g = s.replacer_.isTracked g ∧
        r2.isEvictable g = s.replacer_.isEvictable g) := by
  have hv : ¬ invalidFrame s.replacer_ f := by
    have := hh.hole_frame
    unfold BufferPoolManagerInstance.isFrame at this
    unfold invalidFrame
    rw [hh.rsize]
    omega
  obtain ⟨r1, r2, h1, h2, hinv, hsz, hk, htr, hev, hoth⟩ := record_then_pin hh.rinv hv
  refine ⟨r2, ?_, ?_, hk, htr, hev, hoth⟩
  · unfold BufferPoolManagerInstance.installPage
    rw [h1]
    dsimp only
    rw [h2]
  · exact
      { rsize := by simp only [hsz]; exact hh.rsize
        rinv := hinv
        free_nodup := hh.free_nodup
        free_range := hh.free_range
        free_page := by
          intro g hg
          have hne : g ≠ f := fun c => hh.hole_free (c ▸ hg)
          simp only [Function.update_noteq hne]
          exact hh.free_page g hg
        free_untracked := by
          intro g hg
          have hne : g ≠ f := fun c => hh.hole_free (c ▸ hg)
          simp only [(hoth g hne).1]
          exact hh.free_untracked g hg
        tracked_or_free := by
          intro g hg
          by_cases hne : g = f
          · right; rw [hne]; exact htr
          · rcases hh.tracked_or_free g hg hne with h3 | h3
            · exact Or.inl h3
            · right; simp only [(hoth g hne).1]; exact h3
        evictable_iff := by
          intro g hg
          by_cases hne : g = f
          · subst hne
            simp only [hev, Function.update_same, hpin]
            simp
          · simp only [(hoth g hne).1] at hg
            simp only [(hoth g hne).2, Function.update_noteq hne]
            exact hh.evictable_iff g hg
        table_frame := by
          intro p g hpg
          simp only [Function.update_apply] at hpg
          by_cases hp : p = pg.page_id_
          · simp only [hp, if_true, Option.some.injEq] at hpg
            subst hpg
            simp only [Function.update_same]
            exact ⟨htr, hp.symm⟩
          · simp only [hp, if_false] at hpg
            obtain ⟨ht, hid⟩ := hh.table_frame p g hpg
            have hne : g ≠ f := by
              rintro rfl
              rw [hh.hole_untracked] at ht
              cases ht
            simp only [(hoth g hne).1, Function.update_noteq hne]
            exact ⟨ht, hid⟩ }

/-- A change of the page array that keeps every pin count and page id, and leaves free
frames alone, keeps the invariant, whatever happens to the disk. -/
theorem BInv.b_of_pages {s : BufferPoolManagerInstance} (hi : BInv s) (P : Int → Page)
    (D : Int → PageData)
    (hpin : ∀ g, (P g).pin_count_ = (s.pages_ g).pin_count_)
    (hid : ∀ g, (P g).page_id_ = (s.pages_ g).page_id_)
    (hfree : ∀ g ∈ s.free_list_, P g = s.pages_ g) :
    BInv { s with pages_ := P, disk_ := D } :=
  { rsize := hi.rsize
    rinv := hi.rinv
    free_nodup := hi.free_nodup
    free_range := hi.free_range
    free_page := by
      intro g hg
      simp only [hfree g hg]
      exact hi.free_page g hg
    free_untracked := hi.free_untracked
    tracked_or_free := hi.tracked_or_free
    evictable_iff := by
      intro g hg
      simp only [hpin g]
      exact hi.evictable_iff g hg
    table_frame := by
      intro p g hpg
      simp only [hid g]
      exact hi.table_frame p g hpg }

theorem BInv.b_new (n k : Nat) (disk : Int → PageData) (hn : n < SIZE_T_MOD) :
    BInv (BufferPoolManagerInstance.new n k disk) :=
  { rsize := rfl
    rinv := RInv.r_new n k hn
    free_nodup := by
      simp only [BufferPoolManagerInstance.new]
      apply List.Nodup.map_on _ (List.nodup_range n)
      intro x _ y _ hxy
      exact Int.ofNat.inj hxy
    free_range := by
      intro f hf
      simp only [BufferPoolManagerInstance.new, List.mem_map, List.mem_range] at hf
      obtain ⟨a, ha, rfl⟩ := hf
      exact ⟨Int.ofNat_nonneg a, by simpa [BufferPoolManagerInstance.new] using ha⟩
    free_page := fun _ _ => rfl
    free_untracked := fun _ _ => rfl
    tracked_or_free := by
      intro f hf
      left
      obtain ⟨h0, h1⟩ := hf
      simp only [BufferPoolManagerInstance.new, List.mem_map, List.mem_range] at h1 ⊢
      exact ⟨f.toNat, h1, Int.toNat_of_nonneg h0⟩
    evictable_iff := by
      intro f hf
      simp [BufferPoolManagerInstance.new, LRUKReplacer.new, LRUKReplacer.isTracked,
        FrameMap.find_nil] at hf
    table_frame := by
      intro p f hpf
      simp [BufferPoolManagerInstance.new] at hpf }

/-! ## The public methods keep the invariant -/

/-- The outcome of `NewPgImp` in a state that satisfies the invariant. -/
theorem NewPgImp_spec {s : BufferPoolManagerInstance} (hi : BInv s) :
    (s.acquireFrame = none ∧ s.NewPgImp = Except.ok (none, s)) ∨
    (∃ f s1 r2, s.acquireFrame = some (f, s1) ∧
      s.NewPgImp = Except.ok (some (s.next_page_id_, f),
        { s1 with next_page_id_ := incPageId s.next_page_id_
                  pages_ := Function.update s1.pages_ f
                    { data_ := zeroData, page_id_ := s.next_page_id_, pin_count_ := 1,
                      is_dirty_ := false }
                  page_table_ := Function.update s1.page_table_ s.next_page_id_ (some f)
                  replacer_ := r2 }) ∧
      BInv { s1 with next_page_id_ := incPageId s.next_page_id_
                     pages_ := Function.update s1.pages_ f
                       { data_ := zeroData, page_id_ := s.next_page_id_, pin_count_ := 1,
                         is_dirty_ := false }
                     page_table_ := Function.update s1.page_table_ s.next_page_id_ (some f)
                     replacer_ := r2 } ∧
      r2.isTracked f = true ∧ r2.isEvictable f = false ∧
      (∀ g, g ≠ f → r2.isTracked g = s1.replacer_.isTracked g ∧
        r2.isEvictable g = s1.replacer_.isEvictable g)) := by
  rw [NewPgImp_eq]
  cases hacq : s.acquireFrame with
  | none => left; exact ⟨rfl, rfl⟩
  | some x =>
    obtain ⟨f, s1⟩ := x
    right
    obtain ⟨hh, _, _, _, hnext, _⟩ := acquireFrame_some hi hacq
    have hh1 : BInvHole ({ s1 with next_page_id_ := incPageId s1.next_page_id_ } :
        BufferPoolManagerInstance) f :=
      { rsize := hh.rsize, rinv := hh.rinv, free_nodup := hh.free_nodup,
        free_range := hh.free_range, free_page := hh.free_page,
        free_untracked := hh.free_untracked, hole_frame := hh.hole_frame,
        hole_free := hh.hole_free, hole_untracked := hh.hole_untracked,
        tracked_or_free := hh.tracked_or_free, evictable_iff := hh.evictable_iff,
        table_frame := hh.table_frame }
    obtain ⟨r2, h1, h2, _, h3, h4, h5⟩ := installPage_ok
      { data_ := zeroData, page_id_ := s1.next_page_id_, pin_count_ := 1, is_dirty_ := false }
      hh1 rfl
    refine ⟨f, s1, r2, rfl, ?_, ?_, h3, h4, h5⟩
    · dsimp only
      rw [h1, hnext]
      rfl
    · rw [hnext] at h2
      exact h2

/-- The outcome of `FetchPgImp` on a page that is not resident. -/
theorem FetchPgImp_miss_spec {s : BufferPoolManagerInstance} {p : Int} (hi : BInv s)
    (hp : s.page_table_ p = none) :
    (s.acquireFrame = none ∧ s.FetchPgImp p = Except.ok (none, s)) ∨
    (∃ f s1 r2, s.acquireFrame = some (f, s1) ∧
      s.FetchPgImp p = Except.ok (some f,
        { s1 with pages_ := Function.update s1.pages_ f
                    { data_ := s1.disk_ p, page_id_ := p, pin_count_ := 1, is_dirty_ := false }
                  page_table_ := Function.update s1.page_table_ p (some f)
                  replacer_ := r2 }) ∧
      BInv { s1 with pages_ := Function.update s1.pages_ f
                       { data_ := s1.disk_ p, page_id_ := p, pin_count_ := 1,
                         is_dirty_ := false }
                     page_table_ := Function.update s1.page_table_ p (some f)
                     replacer_ := r2 } ∧
      r2.isTracked f = true ∧ r2.isEvictable f = false ∧
      (∀ g, g ≠ f → r2.isTracked g = s1.replacer_.isTracked g ∧
        r2.isEvictable g = s1.replacer_.isEvictable g)) := by
  rw [FetchPgImp_miss_eq s p hp]
  cases hacq : s.acquireFrame with
  | none => left; exact ⟨rfl, rfl⟩
  | some x =>
    obtain ⟨f, s1⟩ := x
    right
    obtain ⟨hh, _⟩ := acquireFrame_some hi hacq
    obtain ⟨r2, h1, h2, _, h3, h4, h5⟩ := installPage_ok
      { data_ := s1.disk_ p, page_id_ := p, pin_count_ := 1, is_dirty_ := false } hh rfl
    refine ⟨f, s1, r2, rfl, ?_, h2, h3, h4, h5⟩
    dsimp only
    rw [h1]
    rfl

/-- The outcome of `FetchPgImp` on a resident page. -/
theorem FetchPgImp_hit_spec {s : BufferPoolManagerInstance} {p f : Int} (hi : BInv s)
    (hp : s.page_table_ p = some f) :
    ∃ r2, s.FetchPgImp p = Except.ok (some f,
        { s with pages_ := Function.update s.pages_ f
                   { s.pages_ f with pin_count_ := (s.pages_ f).pin_count_ + 1 }
                 replacer_ := r2 }) ∧
      BInv { s with pages_ := Function.update s.pages_ f
                      { s.pages_ f with pin_count_ := (s.pages_ f).pin_count_ + 1 }
                    replacer_ := r2 } ∧
      r2.isTracked f = true ∧ r2.isEvictable f = false ∧
      (∀ g, g ≠ f → r2.isTracked g = s.replacer_.isTracked g ∧
        r2.isEvictable g = s.replacer_.isEvictable g) := by
  obtain ⟨htr, hid⟩ := hi.table_frame p f hp
  have hfr := hi.isFrame_of_tracked htr
  have hv : ¬ invalidFrame s.replacer_ f := by
    unfold BufferPoolManagerInstance.isFrame at hfr
    unfold invalidFrame
    rw [hi.rsize]
    omega
  obtain ⟨r1, r2, h1, h2, hinv, hsz, _, htr2, hev2, hoth⟩ := record_then_pin hi.rinv hv
  refine ⟨r2, ?_, ?_, htr2, hev2, hoth⟩
  · unfold BufferPoolManagerInstance.FetchPgImp
    rw [hp]
    dsimp only
    rw [h1]
    dsimp only
    rw [h2]
  · have hnf : f ∉ s.free_list_ := hi.not_free_of_tracked htr
    exact
      { rsize := by simp only [hsz]; exact hi.rsize
        rinv := hinv
        free_nodup := hi.free_nodup
        free_range := hi.free_range
        free_page := by
          intro g hg
          have hne : g ≠ f := fun c => hnf (c ▸ hg)
          simp only [Function.update_noteq hne]
          exact hi.free_page g hg
        free_untracked := by
          intro g hg
          have hne : g ≠ f := fun c => hnf (c ▸ hg)
          simp only [(hoth g hne).1]
          exact hi.free_untracked g hg
        tracked_or_free := by
          intro g hg
          by_cases hne : g = f
          · right; rw [hne]; exact htr2
          · rcases hi.tracked_or_free g hg with h3 | h3
            · exact Or.inl h3
            · right; simp only [(hoth g hne).1]; exact h3
        evictable_iff := by
          intro g hg
          by_cases hne : g = f
          · subst hne
            simp only [hev2, Function.update_same]
            simp
          · simp only [(hoth g hne).1] at hg
            simp only [(hoth g hne).2, Function.update_noteq hne]
            exact hi.evictable_iff g hg
        table_frame := by
          intro q g hqg
          obtain ⟨ht, hid2⟩ := hi.table_frame q g hqg
          by_cases hne : g = f
          · subst hne
            simp only [Function.update_same]
            exact ⟨htr2, hid2⟩
          · simp only [(hoth g hne).1, Function.update_noteq hne]
            exact ⟨ht, hid2⟩ }

/-- The body of `UnpinPgImp` past its two `return false` statements. -/
theorem UnpinPgImp_pinned_eq {s : BufferPoolManagerInstance} {p f : Int} (d : Bool)
    (hp : s.page_table_ p = some f) (hpin : ¬ (s.pages_ f).pin_count_ ≤ 0) :
    s.UnpinPgImp p d =
      if (s.pages_ f).pin_count_ - 1 = 0 then
        match s.replacer_.SetEvictable f true with
        | Except.error e => Except.error e
        | Except.ok r1 =>
          Except.ok (true, { s with pages_ := Function.update s.pages_ f
                                      (unpinnedPage (s.pages_ f) d)
                                    replacer_ := r1 })
      else
        Except.ok (true, { s with pages_ := Function.update s.pages_ f
                                    (unpinnedPage (s.pages_ f) d) }) := by
  unfold BufferPoolManagerInstance.UnpinPgImp unpinnedPage
  rw [hp]
  dsimp only
  rw [if_neg hpin]
  cases d with
  | false => simp only [Bool.false_eq_true, if_false, Bool.or_false]
  | true => simp only [if_true, Bool.or_true]

/-- The two `return false` paths of `UnpinPgImp`. -/
theorem UnpinPgImp_false_iff (s : BufferPoolManagerInstance) (p : Int) (d : Bool) :
    (∃ s1, s.UnpinPgImp p d = Except.ok (false, s1)) ↔
      (s.page_table_ p = none ∨
        ∃ f, s.page_table_ p = some f ∧ (s.pages_ f).pin_count_ = 0) := by
  cases hp : s.page_table_ p with
  | none => simp [BufferPoolManagerInstance.UnpinPgImp, hp]
  | some f =>
    by_cases hpin : (s.pages_ f).pin_count_ ≤ 0
    · have h0 : (s.pages_ f).pin_count_ = 0 := by omega
      simp [BufferPoolManagerInstance.UnpinPgImp, hp, h0]
    · rw [UnpinPgImp_pinned_eq d hp hpin]
      have hne : ¬ (s.pages_ f).pin_count_ = 0 := by omega
      simp only [reduceCtorEq, Option.some.injEq, exists_eq_left', hne, or_self, iff_false,
        not_exists]
      intro s1
      split_ifs
      · cases s.replacer_.SetEvictable f true with
        | error e => simp
        | ok r1 => simp
      · simp

theorem UnpinPgImp_false_state (s s1 : BufferPoolManagerInstance) (p : Int) (d : Bool)
    (h : s.UnpinPgImp p d = Except.ok (false, s1)) : s1 = s := by
  cases hp : s.page_table_ p with
  | none =>
    simp [BufferPoolManagerInstance.UnpinPgImp, hp] at h
    exact h.symm
  | some f =>
    by_cases hpin : (s.pages_ f).pin_count_ ≤ 0
    · simp [BufferPoolManagerInstance.UnpinPgImp, hp, hpin] at h
      exact h.symm
    · rw [UnpinPgImp_pinned_eq d hp hpin] at h
      split_ifs at h
      · cases hr : s.replacer_.SetEvictable f true with
        | error e => rw [hr] at h; simp at h
        | ok r1 => rw [hr] at h; simp at h
      · simp at h

/-- The outcome of `UnpinPgImp` on a resident page that is pinned. -/
theorem UnpinPgImp_pinned_spec {s : BufferPoolManagerInstance} {p f : Int} (d : Bool)
    (hi : BInv s) (hp : s.page_table_ p = some f) (hpin : 1 ≤ (s.pages_ f).pin_count_) :
    ∃ r1, s.UnpinPgImp p d =
        Except.ok (true, { s with pages_ := Function.update s.pages_ f
                                    (unpinnedPage (s.pages_ f) d)
                                  replacer_ := r1 }) ∧
      BInv { s with pages_ := Function.update s.pages_ f (unpinnedPage (s.pages_ f) d)
                    replacer_ := r1 } ∧
      s.replacer_.isEvictable f = false ∧
      ((s.pages_ f).pin_count_ = 1 →
        r1.isEvictable f = true ∧ r1.Size = s.replacer_.Size + 1 ∧
        ∀ g, g ≠ f → r1.isTracked g = s.replacer_.isTracked g ∧
          r1.isEvictable g = s.replacer_.isEvictable g) ∧
      ((s.pages_ f).pin_count_ ≠ 1 → r1 = s.replacer_) := by
  obtain ⟨htr, hid⟩ := hi.table_frame p f hp
  have hnf : f ∉ s.free_list_ := hi.not_free_of_tracked htr
  have hne : s.replacer_.isEvictable f = false := by
    cases hx : s.replacer_.isEvictable f with
    | false => rfl
    | true =>
      have := (hi.evictable_iff f htr).mp hx
      omega
  have hpin0 : ¬ (s.pages_ f).pin_count_ ≤ 0 := by omega
  rw [UnpinPgImp_pinned_eq d hp hpin0]
  by_cases h1 : (s.pages_ f).pin_count_ = 1
  · have h10 : (s.pages_ f).pin_count_ - 1 = 0 := by omega
    rw [if_pos h10]
    obtain ⟨r1, hr1, hinv, hsz, _, htr1, hev1, hoth, hgrow⟩ := set_evictable_true hi.rinv htr
    refine ⟨r1, by rw [hr1], ?_, hne, fun _ => ⟨hev1, hgrow hne, hoth⟩, fun hc => absurd h1 hc⟩
    exact
      { rsize := by simp only [hsz]; exact hi.rsize
        rinv := hinv
        free_nodup := hi.free_nodup
        free_range := hi.free_range
        free_page := by
          intro g hg
          have hgf : g ≠ f := fun c => hnf (c ▸ hg)
          simp only [Function.update_noteq hgf]
          exact hi.free_page g hg
        free_untracked := by
          intro g hg
          have hgf : g ≠ f := fun c => hnf (c ▸ hg)
          simp only [(hoth g hgf).1]
          exact hi.free_untracked g hg
        tracked_or_free := by
          intro g hg
          by_cases hgf : g = f
          · right; rw [hgf]; exact htr1
          · rcases hi.tracked_or_free g hg with h3 | h3
            · exact Or.inl h3
            · right; simp only [(hoth g hgf).1]; exact h3
        evictable_iff := by
          intro g hg
          by_cases hgf : g = f
          · subst hgf
            simp only [hev1, Function.update_same, unpinnedPage, h10]
          · simp only [(hoth g hgf).1] at hg
            simp only [(hoth g hgf).2, Function.update_noteq hgf]
            exact hi.evictable_iff g hg
        table_frame := by
          intro q g hqg
          obtain ⟨ht, hid2⟩ := hi.table_frame q g hqg
          by_cases hgf : g = f
          · subst hgf
            simp only [Function.update_same, unpinnedPage]
            exact ⟨htr1, hid2⟩
          · simp only [(hoth g hgf).1, Function.update_noteq hgf]
            exact ⟨ht, hid2⟩ }
  · have h10 : ¬ (s.pages_ f).pin_count_ - 1 = 0 := by omega
    rw [if_neg h10]
    refine ⟨s.replacer_, rfl, ?_, hne, fun hc => absurd hc h1, fun _ => rfl⟩
    exact
      { rsize := hi.rsize
        rinv := hi.rinv
        free_nodup := hi.free_nodup
        free_range := hi.free_range
        free_page := by
          intro g hg
          have hgf : g ≠ f := fun c => hnf (c ▸ hg)
          simp only [Function.update_noteq hgf]
          exact hi.free_page g hg
        free_untracked := hi.free_untracked
        tracked_or_free := hi.tracked_or_free
        evictable_iff := by
          intro g hg
          by_cases hgf : g = f
          · subst hgf
            simp [hne, unpinnedPage, h10]
          · simp only [Function.update_noteq hgf]
            exact hi.evictable_iff g hg
        table_frame := by
          intro q g hqg
          obtain ⟨ht, hid2⟩ := hi.table_frame q g hqg
          by_cases hgf : g = f
          · subst hgf
            simp only [Function.update_same, unpinnedPage]
            exact ⟨ht, hid2⟩
          · simp only [Function.update_noteq hgf]
            exact ⟨ht, hid2⟩ }

theorem BInv.b_FlushPgImp {s : BufferPoolManagerInstance} (hi : BInv s) (p : Int) :
    BInv (s.FlushPgImp p).2 := by
  unfold BufferPoolManagerInstance.FlushPgImp
  cases hp : s.page_table_ p with
  | none => exact hi
  | some f =>
    have hnf : f ∉ s.free_list_ := hi.not_free_of_tracked (hi.table_frame p f hp).1
    dsimp only
    apply hi.b_of_pages
    · intro g
      by_cases hg : g = f
      · subst hg; simp
      · simp [Function.update_noteq hg]
    · intro g
      by_cases hg : g = f
      · subst hg; simp
      · simp [Function.update_noteq hg]
    · intro g hg
      have hgf : g ≠ f := fun c => hnf (c ▸ hg)
      simp [Function.update_noteq hgf]

theorem BInv.b_flushFrame {s : BufferPoolManagerInstance} (hi : BInv s) (i : Nat) :
    BInv (s.flushFrame i) ∧ (s.flushFrame i).pool_size_ = s.pool_size_ := by
  unfold BufferPoolManagerInstance.flushFrame
  dsimp only
  by_cases hid : (s.pages_ ((i : Int))).page_id_ ≠ INVALID_PAGE_ID
  · rw [if_pos hid]
    refine ⟨?_, rfl⟩
    have hnf : (i : Int) ∉ s.free_list_ := by
      intro hc
      rw [hi.free_page _ hc] at hid
      exact hid rfl
    apply hi.b_of_pages
    · intro g
      by_cases hg : g = (i : Int)
      · subst hg; simp
      · simp [Function.update_noteq hg]
    · intro g
      by_cases hg : g = (i : Int)
      · subst hg; simp
      · simp [Function.update_noteq hg]
    · intro g hg
      have hgf : g ≠ (i : Int) := fun c => hnf (c ▸ hg)
      simp [Function.update_noteq hgf]
  · rw [if_neg hid]
    exact ⟨hi, rfl⟩

theorem BInv.foldl_flushFrame (l : List Nat) {s : BufferPoolManagerInstance} (hi : BInv s) :
    BInv (l.foldl BufferPoolManagerInstance.flushFrame s) := by
  induction l generalizing s with
  | nil => exact hi
  | cons i l ih => exact ih (hi.b_flushFrame i).1

theorem BInv.b_FlushAllPgsImp {s : BufferPoolManagerInstance} (hi : BInv s) :
    BInv s.FlushAllPgsImp :=
  hi.foldl_flushFrame _

theorem BInv.b_writeData {s : BufferPoolManagerInstance} (hi : BInv s) (f : Int)
    (d : PageData) : BInv (s.writeData f d) := by
  unfold BufferPoolManagerInstance.writeData
  by_cases hpin : 1 ≤ (s.pages_ f).pin_count_
  · rw [if_pos hpin]
    have hnf : f ∉ s.free_list_ := by
      intro hc
      rw [hi.free_page f hc] at hpin
      simp [Page.fresh] at hpin
    have := hi.b_of_pages (Function.update s.pages_ f { s.pages_ f with data_ := d }) s.disk_
      (by
        intro g
        by_cases hg : g = f
        · subst hg; simp
        · simp [Function.update_noteq hg])
      (by
        intro g
        by_cases hg : g = f
        · subst hg; simp
        · simp [Function.update_noteq hg])
      (by
        intro g hg
        have hgf : g ≠ f := fun c => hnf (c ▸ hg)
        simp [Function.update_noteq hgf])
    exact this
  · rw [if_neg hpin]
    exact hi

/-- The outcome of `DeletePgImp` on a resident page that is not pinned. -/
theorem DeletePgImp_unpinned_spec {s : BufferPoolManagerInstance} {p f : Int} (hi : BInv s)
    (hp : s.page_table_ p = some f) (hpin : (s.pages_ f).pin_count_ = 0) :
    s.DeletePgImp p = Except.ok (true,
      { s with disk_ := (if (s.pages_ f).is_dirty_ = true then
                 Function.update s.disk_ (s.pages_ f).page_id_ (s.pages_ f).data_ else s.disk_),
               page_table_ := Function.update s.page_table_ p none,
               replacer_ := { s.replacer_ with
                 frame_map_ := s.replacer_.frame_map_.erase f,
                 curr_size_ := s.replacer_.curr_size_ - 1 },
               free_list_ := s.free_list_ ++ [f],
               pages_ := Function.update s.pages_ f Page.fresh }) ∧
    BInv
      { s with disk_ := (if (s.pages_ f).is_dirty_ = true then
                 Function.update s.disk_ (s.pages_ f).page_id_ (s.pages_ f).data_ else s.disk_),
               page_table_ := Function.update s.page_table_ p none,
               replacer_ := { s.replacer_ with
                 frame_map_ := s.replacer_.frame_map_.erase f,
                 curr_size_ := s.replacer_.curr_size_ - 1 },
               free_list_ := s.free_list_ ++ [f],
               pages_ := Function.update s.pages_ f Page.fresh } := by
  obtain ⟨htr, hid⟩ := hi.table_frame p f hp
  have hnf : f ∉ s.free_list_ := hi.not_free_of_tracked htr
  have hev : s.replacer_.isEvictable f = true := (hi.evictable_iff f htr).mpr hpin
  obtain ⟨hrem, _⟩ := Remove_evictable hi.rinv hev
  have hobs := erase_observers (r := s.replacer_) f (s.replacer_.curr_size_ - 1)
  constructor
  · unfold BufferPoolManagerInstance.DeletePgImp
    rw [hp]
    dsimp only
    have hpin0 : ¬ (s.pages_ f).pin_count_ > 0 := by omega
    rw [if_neg hpin0]
    by_cases hd : (s.pages_ f).is_dirty_ = true
    · simp only [if_pos hd]
      rw [hrem]
    · simp only [if_neg hd]
      rw [hrem]
  · exact
      { rsize := hi.rsize
        rinv := hi.rinv.r_erase hev
        free_nodup := by
          simp only
          rw [List.nodup_append]
          refine ⟨hi.free_nodup, List.nodup_singleton f, ?_⟩
          intro a ha hb
          simp only [List.mem_singleton] at hb
          exact hnf (hb ▸ ha)
        free_range := by
          intro g hg
          simp only [List.mem_append, List.mem_singleton] at hg
          rcases hg with hg | hg
          · exact hi.free_range g hg
          · rw [hg]; exact hi.isFrame_of_tracked htr
        free_page := by
          intro g hg
          simp only [List.mem_append, List.mem_singleton] at hg
          by_cases hgf : g = f
          · subst hgf; simp
          · rcases hg with hg | hg
            · simp only [Function.update_noteq hgf]; exact hi.free_page g hg
            · exact absurd hg hgf
        free_untracked := by
          intro g hg
          simp only [List.mem_append, List.mem_singleton] at hg
          by_cases hgf : g = f
          · subst hgf; exact hobs.1
          · rcases hg with hg | hg
            · rw [(hobs.2 g hgf).1]; exact hi.free_untracked g hg
            · exact absurd hg hgf
        tracked_or_free := by
          intro g hg
          by_cases hgf : g = f
          · left; simp [hgf]
          · rcases hi.tracked_or_free g hg with h3 | h3
            · left; simp [h3]
            · right; rw [(hobs.2 g hgf).1]; exact h3
        evictable_iff := by
          intro g hg
          have hgf : g ≠ f := by
            rintro rfl
            rw [hobs.1] at hg
            cases hg
          rw [(hobs.2 g hgf).1] at hg
          simp only [Function.update_noteq hgf]
          rw [(hobs.2 g hgf).2]
          exact hi.evictable_iff g hg
        table_frame := by
          intro q g hqg
          simp only [Function.update_apply] at hqg
          by_cases hq : q = p
          · simp [hq] at hqg
          · simp only [hq, if_false] at hqg
            obtain ⟨ht, hid2⟩ := hi.table_frame q g hqg
            have hgf : g ≠ f := by
              rintro rfl
              exact hq (hid2.symm.trans hid)
            simp only [Function.update_noteq hgf]
            rw [(hobs.2 g hgf).1]
            exact ⟨ht, hid2⟩ }

/-- The two `return` statements at the head of `DeletePgImp`. -/
theorem DeletePgImp_early (s : BufferPoolManagerInstance) (p : Int) :
    (s.page_table_ p = none → s.DeletePgImp p = Except.ok (true, s)) ∧
    (∀ f, s.page_table_ p = some f → 0 < (s.pages_ f).pin_count_ →
      s.DeletePgImp p = Except.ok (false, s)) := by
  constructor
  · intro hp
    simp [BufferPoolManagerInstance.DeletePgImp, hp]
  · intro f hp hpin
    simp [BufferPoolManagerInstance.DeletePgImp, hp, hpin]

/-- Every call keeps the invariant. -/
theorem BInv.b_apply {s s1 : BufferPoolManagerInstance} (hi : BInv s) (op : BOp)
    (h : s.apply op = Except.ok s1) : BInv s1 := by
  cases op with
  | NewPage =>
    simp only [BufferPoolManagerInstance.apply] at h
    rcases NewPgImp_spec hi with ⟨_, h1⟩ | ⟨f, s2, r2, _, h1, h2, _⟩
    · rw [h1] at h; cases h; exact hi
    · rw [h1] at h; cases h; exact h2
  | FetchPage p =>
    simp only [BufferPoolManagerInstance.apply] at h
    cases hp : s.page_table_ p with
    | none =>
      rcases FetchPgImp_miss_spec hi hp with ⟨_, h1⟩ | ⟨f, s2, r2, _, h1, h2, _⟩
      · rw [h1] at h; cases h; exact hi
      · rw [h1] at h; cases h; exact h2
    | some f =>
      obtain ⟨r2, h1, h2, _⟩ := FetchPgImp_hit_spec hi hp
      rw [h1] at h; cases h; exact h2
  | UnpinPage p d =>
    simp only [BufferPoolManagerInstance.apply] at h
    cases hp : s.page_table_ p with
    | none =>
      obtain ⟨s2, h2⟩ := (UnpinPgImp_false_iff s p d).mpr (Or.inl hp)
      have := UnpinPgImp_false_state s s2 p d h2
      subst this
      rw [h2] at h; cases h; exact hi
    | some f =>
      by_cases hpin : 1 ≤ (s.pages_ f).pin_count_
      · obtain ⟨r1, h1, h2, _⟩ := UnpinPgImp_pinned_spec d hi hp hpin
        rw [h1] at h; cases h; exact h2
      · obtain ⟨s2, h2⟩ := (UnpinPgImp_false_iff s p d).mpr (Or.inr ⟨f, hp, by omega⟩)
        have := UnpinPgImp_false_state s s2 p d h2
        subst this
        rw [h2] at h; cases h; exact hi
  | FlushPage p =>
    simp only [BufferPoolManagerInstance.apply] at h
    cases h
    exact hi.b_FlushPgImp p
  | FlushAllPages =>
    simp only [BufferPoolManagerInstance.apply] at h
    cases h
    exact hi.b_FlushAllPgsImp
  | DeletePage p =>
    simp only [BufferPoolManagerInstance.apply] at h
    cases hp : s.page_table_ p with
    | none =>
      rw [(DeletePgImp_early s p).1 hp] at h
      cases h; exact hi
    | some f =>
      by_cases hpin : 0 < (s.pages_ f).pin_count_
      · rw [(DeletePgImp_early s p).2 f hp hpin] at h
        cases h; exact hi
      · obtain ⟨h1, h2⟩ := DeletePgImp_unpinned_spec hi hp (by omega)
        rw [h1] at h; cases h; exact h2
  | WriteData f d =>
    simp only [BufferPoolManagerInstance.apply] at h
    cases h
    exact hi.b_writeData f d

/-- Every reachable state satisfies the invariant. -/
theorem Reachable.binv {n k : Nat} {disk : Int → PageData} {s : BufferPoolManagerInstance}
    (hn : n < SIZE_T_MOD) (h : Reachable n k disk s) : BInv s := by
  induction h with
  | init => exact BInv.b_new n k disk hn
  | step op _ hstep ih => exact ih.b_apply op hstep

/-- Witness of C7: the example of the specification, after which two frames are
evictable. -/
theorem size_counts_evictable_frames_witness :
    2 < SIZE_T_MOD ∧
    ((LRUKReplacer.new 2 2).run exampleCalls).Size = 2 ∧
    ((LRUKReplacer.new 2 2).run exampleCalls).Size =
      evictableCount ((LRUKReplacer.new 2 2).run exampleCalls).frame_map_ :=
  ⟨by decide, by decide,
    (size_counts_evictable_frames 2 2 exampleCalls (by decide)).2.2.1⟩

/-- Witness of C5: `k = 2`, accesses A, B, A, B, A at timestamps 1 to 5, both frames
evictable; `Evict` returns B (frame 1), whose backward 2-distance 3 exceeds the 2 of A. -/
theorem evict_returns_max_backward_k_distance_witness :
    (1 ≤ 2 ∧ 2 < SIZE_T_MOD ∧ exampleCalls.length < SIZE_T_MOD) ∧
    ((LRUKReplacer.new 2 2).run exampleCalls).Evict.1 = some 1 ∧
    (specDist 2 ((LRUKReplacer.new 2 2).run exampleCalls).current_timestamp_
        (((LRUKReplacer.new 2 2).run exampleCalls).historyOf 0) <
      specDist 2 ((LRUKReplacer.new 2 2).run exampleCalls).current_timestamp_
        (((LRUKReplacer.new 2 2).run exampleCalls).historyOf 1) ∨
      (specDist 2 ((LRUKReplacer.new 2 2).run exampleCalls).current_timestamp_
          (((LRUKReplacer.new 2 2).run exampleCalls).historyOf 1) =
        specDist 2 ((LRUKReplacer.new 2 2).run exampleCalls).current_timestamp_
          (((LRUKReplacer.new 2 2).run exampleCalls).historyOf 0) ∧
        specOldest 2 (((LRUKReplacer.new 2 2).run exampleCalls).historyOf 1) <
          specOldest 2 (((LRUKReplacer.new 2 2).run exampleCalls).historyOf 0))) :=
  ⟨⟨by decide, by decide, by decide⟩, by decide,
    ((evict_returns_max_backward_k_distance 2 2 exampleCalls (by decide) (by decide)
      (by decide)).2 1 (by decide)).2 0 (by decide) (by decide)⟩

/-! ## Reachable states -/

theorem Reachable.runD {n k : Nat} {disk : Int → PageData} {s : BufferPoolManagerInstance}
    (h : Reachable n k disk s) (ops : List BOp) : Reachable n k disk (s.runD ops) := by
  induction ops generalizing s with
  | nil => exact h
  | cons op ops ih =>
    simp only [BufferPoolManagerInstance.runD]
    cases hs : s.apply op with
    | error e => exact h
    | ok s1 => exact ih (Reachable.step op h hs)

theorem Reachable.of_run {n k : Nat} {disk : Int → PageData} {s s1 : BufferPoolManagerInstance}
    (h : Reachable n k disk s) {ops : List BOp} (hr : s.run ops = Except.ok s1) :
    Reachable n k disk s1 := by
  induction ops generalizing s with
  | nil =>
    simp only [BufferPoolManagerInstance.run] at hr
    cases hr; exact h
  | cons op ops ih =>
    simp only [BufferPoolManagerInstance.run] at hr
    cases hs : s.apply op with
    | error e => rw [hs] at hr; cases hr
    | ok s2 =>
      rw [hs] at hr
      exact ih (Reachable.step op h hs) hr

/-- Failure to obtain a frame, in terms of the free list and the pin counts. -/
theorem acquireFrame_eq_none_iff_pinned {s : BufferPoolManagerInstance} (hi : BInv s) :
    s.acquireFrame = none ↔
      s.free_list_ = [] ∧ ∀ f, s.isFrame f → 1 ≤ (s.pages_ f).pin_count_ := by
  rw [acquireFrame_eq_none_iff hi]
  constructor
  · rintro ⟨hfl, hall⟩
    refine ⟨hfl, ?_⟩
    intro f hf
    rcases hi.tracked_or_free f hf with h1 | h1
    · rw [hfl] at h1; cases h1
    · have h2 := hi.evictable_iff f h1
      rw [hall f] at h2
      have : ¬ (s.pages_ f).pin_count_ = 0 := fun hc => by
        have := h2.mpr hc
        cases this
      omega
  · rintro ⟨hfl, hall⟩
    refine ⟨hfl, ?_⟩
    intro f
    cases hx : s.replacer_.isEvictable f with
    | false => rfl
    | true =>
      have htr := isEvictable_isTracked hx
      have h0 := (hi.evictable_iff f htr).mp hx
      have h1 := hall f (hi.isFrame_of_tracked htr)
      omega

/-! ## Claims about the buffer pool manager -/

/-- C1: in every state reachable from a fresh pool by NewPage, FetchPage, UnpinPage,
FlushPage, FlushAllPages and DeletePage calls (and writes of callers into pinned
pages), every frame the replacer holds as evictable has pin count 0; so `Evict` never
returns a frame whose pin count is at least 1, and neither NewPage nor a FetchPage miss
takes such a frame: the frame they use had pin count 0 and every pinned frame keeps its
page id, bytes, pin count and dirty flag. -/
theorem pinned_frames_are_never_evicted_or_reused {n k : Nat} {disk : Int → PageData}
    {s : BufferPoolManagerInstance} (hn : n < SIZE_T_MOD) (h : Reachable n k disk s) :
    (∀ f, s.replacer_.isEvictable f = true → (s.pages_ f).pin_count_ = 0) ∧
    (∀ v, s.replacer_.Evict.1 = some v → (s.pages_ v).pin_count_ = 0) ∧
    (∀ pid f s1, s.NewPgImp = Except.ok (some (pid, f), s1) →
      (s.pages_ f).pin_count_ = 0 ∧
      ∀ g, 1 ≤ (s.pages_ g).pin_count_ → s1.pages_ g = s.pages_ g) ∧
    (∀ p f s1, s.page_table_ p = none → s.FetchPgImp p = Except.ok (some f, s1) →
      (s.pages_ f).pin_count_ = 0 ∧
      ∀ g, 1 ≤ (s.pages_ g).pin_count_ → s1.pages_ g = s.pages_ g) := by
  have hi := h.binv hn
  have hev : ∀ f, s.replacer_.isEvictable f = true → (s.pages_ f).pin_count_ = 0 :=
    fun f hf => (hi.evictable_iff f (isEvictable_isTracked hf)).mp hf
  refine ⟨hev, ?_, ?_, ?_⟩
  · intro v hv
    exact hev v (Evict_some hi.rinv hv).2.1
  · intro pid f s1 hnew
    rcases NewPgImp_spec hi with ⟨_, h1⟩ | ⟨f2, s2, r2, hacq, h1, _⟩
    · rw [h1] at hnew; cases hnew
    · rw [h1] at hnew
      simp only [Except.ok.injEq, Prod.mk.injEq, Option.some.injEq] at hnew
      obtain ⟨⟨_, hf⟩, hs1⟩ := hnew
      subst hf
      obtain ⟨_, hpin, _, _, _, _, hpages, _⟩ := acquireFrame_some hi hacq
      refine ⟨hpin, ?_⟩
      intro g hg
      have hne : g ≠ f2 := by
        rintro rfl
        omega
      rw [← hs1]
      simp only [Function.update_noteq hne]
      exact hpages g hne
  · intro p f s1 hp hfetch
    rcases FetchPgImp_miss_spec hi hp with ⟨_, h1⟩ | ⟨f2, s2, r2, hacq, h1, _⟩
    · rw [h1] at hfetch; cases hfetch
    · rw [h1] at hfetch
      simp only [Except.ok.injEq, Prod.mk.injEq, Option.some.injEq] at hfetch
      obtain ⟨hf, hs1⟩ := hfetch
      subst hf
      obtain ⟨_, hpin, _, _, _, _, hpages, _⟩ := acquireFrame_some hi hacq
      refine ⟨hpin, ?_⟩
      intro g hg
      have hne : g ≠ f2 := by
        rintro rfl
        omega
      rw [← hs1]
      simp only [Function.update_noteq hne]
      exact hpages g hne

/-- C4: in every reachable pool state, NewPage fails, and FetchPage of a page that is
not resident fails, exactly when the free list is empty and every frame has pin count
at least 1; a failing call changes nothing at all (page table, free list, frames,
replacer, disk and page-id allocator). -/
theorem exhausted_pool_fails_without_change {n k : Nat} {disk : Int → PageData}
    {s : BufferPoolManagerInstance} (hn : n < SIZE_T_MOD) (h : Reachable n k disk s) :
    ((∃ s1, s.NewPgImp = Except.ok (none, s1)) ↔
      (s.free_list_ = [] ∧ ∀ f, s.isFrame f → 1 ≤ (s.pages_ f).pin_count_)) ∧
    (∀ s1, s.NewPgImp = Except.ok (none, s1) → s1 = s) ∧
    (∀ p, s.page_table_ p = none →
      ((∃ s1, s.FetchPgImp p = Except.ok (none, s1)) ↔
        (s.free_list_ = [] ∧ ∀ f, s.isFrame f → 1 ≤ (s.pages_ f).pin_count_)) ∧
      (∀ s1, s.FetchPgImp p = Except.ok (none, s1) → s1 = s)) := by
  have hi := h.binv hn
  have hiff := acquireFrame_eq_none_iff_pinned hi
  refine ⟨?_, ?_, ?_⟩
  · rw [← hiff]
    rcases NewPgImp_spec hi with ⟨h0, h1⟩ | ⟨f2, s2, r2, hacq, h1, _⟩
    · rw [h1]
      exact ⟨fun _ => h0, fun _ => ⟨s, rfl⟩⟩
    · rw [h1, hacq]
      simp
  · intro s1 hs1
    rcases NewPgImp_spec hi with ⟨_, h1⟩ | ⟨f2, s2, r2, _, h1, _⟩
    · rw [h1] at hs1
      simp only [Except.ok.injEq, Prod.mk.injEq, true_and] at hs1
      exact hs1.symm
    · rw [h1] at hs1
      simp at hs1
  · intro p hp
    constructor
    · rw [← hiff]
      rcases FetchPgImp_miss_spec hi hp with ⟨h0, h1⟩ | ⟨f2, s2, r2, hacq, h1, _⟩
      · rw [h1]
        exact ⟨fun _ => h0, fun _ => ⟨s, rfl⟩⟩
      · rw [h1, hacq]
        simp
    · intro s1 hs1
      rcases FetchPgImp_miss_spec hi hp with ⟨_, h1⟩ | ⟨f2, s2, r2, _, h1, _⟩
      · rw [h1] at hs1
        simp only [Except.ok.injEq, Prod.mk.injEq, true_and] at hs1
        exact hs1.symm
      · rw [h1] at hs1
        simp at hs1

/-- C6: in every reachable pool state a frame is marked evictable in the replacer
exactly when it is not in the free list and its pin count is 0 (and only frames of
the pool are ever marked); so `Size()` is the number of frames that are not in the
free list and have pin count 0. -/
theorem evictable_iff_unpinned_and_not_free {n k : Nat} {disk : Int → PageData}
    {s : BufferPoolManagerInstance} (hn : n < SIZE_T_MOD) (h : Reachable n k disk s) :
    (∀ f, s.replacer_.isEvictable f = true → s.isFrame f) ∧
    (∀ f, s.isFrame f →
      (s.replacer_.isEvictable f = true ↔
        (f ∉ s.free_list_ ∧ (s.pages_ f).pin_count_ = 0))) ∧
    s.replacer_.Size =
      (List.range s.pool_size_).countP
        (fun (i : Nat) =>
          decide ((i : Int) ∉ s.free_list_ ∧ (s.pages_ (i : Int)).pin_count_ = 0)) := by
  have hi := h.binv hn
  have hiff : ∀ f, s.isFrame f →
      (s.replacer_.isEvictable f = true ↔
        (f ∉ s.free_list_ ∧ (s.pages_ f).pin_count_ = 0)) := by
    intro f hf
    constructor
    · intro hev
      have htr := isEvictable_isTracked hev
      exact ⟨hi.not_free_of_tracked htr, (hi.evictable_iff f htr).mp hev⟩
    · rintro ⟨hnf, hpin⟩
      rcases hi.tracked_or_free f hf with h1 | h1
      · exact absurd h1 hnf
      · exact (hi.evictable_iff f h1).mpr hpin
  refine ⟨fun f hf => hi.isFrame_of_tracked (isEvictable_isTracked hf), hiff, ?_⟩
  unfold LRUKReplacer.Size
  rw [hi.rinv.size, evictableCount_eq_countP_range hi.rinv, hi.rsize]
  apply List.countP_congr
  intro i hi2
  have hfr : s.isFrame (i : Int) := by
    refine ⟨Int.ofNat_nonneg i, ?_⟩
    simpa using List.mem_range.mp hi2
  simp only [decide_eq_true_eq]
  exact hiff _ hfr

/-- C8: in every reachable pool state, FetchPage of a page id that the page table maps
to frame `f` succeeds and returns `f`, adds exactly 1 to the pin count of `f`, leaves
the disk, the page table, the free list, the allocator, every frame's page id, dirty
flag and bytes, and every other frame's pin count as they were, and leaves `f`
tracked and non-evictable in the replacer. -/
theorem fetch_of_resident_page_pins_it {n k : Nat} {disk : Int → PageData}
    {s : BufferPoolManagerInstance} {p f : Int} (hn : n < SIZE_T_MOD)
    (h : Reachable n k disk s) (hp : s.page_table_ p = some f) :
    ∃ s1, s.FetchPgImp p = Except.ok (some f, s1) ∧
      (s1.pages_ f).pin_count_ = (s.pages_ f).pin_count_ + 1 ∧
      s1.disk_ = s.disk_ ∧ s1.page_table_ = s.page_table_ ∧ s1.free_list_ = s.free_list_ ∧
      s1.next_page_id_ = s.next_page_id_ ∧
      (∀ g, (s1.pages_ g).page_id_ = (s.pages_ g).page_id_ ∧
        (s1.pages_ g).is_dirty_ = (s.pages_ g).is_dirty_ ∧
        (s1.pages_ g).data_ = (s.pages_ g).data_) ∧
      (∀ g, g ≠ f → (s1.pages_ g).pin_count_ = (s.pages_ g).pin_count_) ∧
      s1.replacer_.isTracked f = true ∧ s1.replacer_.isEvictable f = false := by
  have hi := h.binv hn
  obtain ⟨r2, h1, _, htr, hev, _⟩ := FetchPgImp_hit_spec hi hp
  refine ⟨_, h1, by simp, rfl, rfl, rfl, rfl, ?_, ?_, htr, hev⟩
  · intro g
    by_cases hg : g = f
    · subst hg; simp
    · simp [Function.update_noteq hg]
  · intro g hg
    simp [Function.update_noteq hg]

/-- C9: for every pool state, page id and flag, UnpinPage returns false exactly when
the page id is not mapped in the page table or the mapped frame has pin count 0, and
then the whole state (pin counts, dirty flags, page table, free list, replacer and
disk) is what it was. -/
theorem unpin_fails_iff_not_resident_or_unpinned (s : BufferPoolManagerInstance) (p : Int)
    (is_dirty : Bool) :
    ((∃ s1, s.UnpinPgImp p is_dirty = Except.ok (false, s1)) ↔
      (s.page_table_ p = none ∨
        ∃ f, s.page_table_ p = some f ∧ (s.pages_ f).pin_count_ = 0)) ∧
    (∀ s1, s.UnpinPgImp p is_dirty = Except.ok (false, s1) → s1 = s) :=
  ⟨UnpinPgImp_false_iff s p is_dirty, fun s1 => UnpinPgImp_false_state s s1 p is_dirty⟩

/-- C10: in every reachable pool state in which page `p` is resident in frame `f` with
pin count at least 1, UnpinPage(p, is_dirty) returns true, takes 1 off the pin count
and sets the dirty flag to the old flag or-ed with `is_dirty`; the frame, which was
not evictable, is evictable afterwards exactly when the pin count was 1, in which case
`Size()` grows by exactly 1, and otherwise the replacer is unchanged. -/
theorem unpin_of_pinned_page {n k : Nat} {disk : Int → PageData}
    {s : BufferPoolManagerInstance} {p f : Int} (is_dirty : Bool) (hn : n < SIZE_T_MOD)
    (h : Reachable n k disk s) (hp : s.page_table_ p = some f)
    (hc : 1 ≤ (s.pages_ f).pin_count_) :
    ∃ s1, s.UnpinPgImp p is_dirty = Except.ok (true, s1) ∧
      (s1.pages_ f).pin_count_ = (s.pages_ f).pin_count_ - 1 ∧
      (s1.pages_ f).is_dirty_ = ((s.pages_ f).is_dirty_ || is_dirty) ∧
      s.replacer_.isEvictable f = false ∧
      (s1.replacer_.isEvictable f = true ↔ (s.pages_ f).pin_count_ = 1) ∧
      ((s.pages_ f).pin_count_ = 1 → s1.replacer_.Size = s.replacer_.Size + 1) ∧
      ((s.pages_ f).pin_count_ ≠ 1 → s1.replacer_ = s.replacer_) := by
  have hi := h.binv hn
  obtain ⟨r1, h1, _, hne, hone, hmany⟩ := UnpinPgImp_pinned_spec is_dirty hi hp hc
  refine ⟨_, h1, by simp [unpinnedPage], by simp [unpinnedPage], hne, ?_,
    fun h2 => (hone h2).2.1, hmany⟩
  constructor
  · intro hev
    by_contra hc1
    have := hmany hc1
    simp only [this, hne] at hev
    cases hev
  · intro h2
    exact (hone h2).1

theorem pinnedPool_reachable : Reachable 1 2 blankDisk pinnedPool :=
  Reachable.init.runD _

theorem unpinnedPool_reachable : Reachable 1 2 blankDisk unpinnedPool :=
  Reachable.init.runD _

/-- Witness of C1: on a pool of one frame, after NewPage and UnpinPage the victim of
`Evict` is frame 0, whose pin count is 0. -/
theorem pinned_frames_are_never_evicted_or_reused_witness :
    (1 < SIZE_T_MOD ∧ Reachable 1 2 blankDisk unpinnedPool) ∧
    unpinnedPool.replacer_.Evict.1 = some 0 ∧ (unpinnedPool.pages_ 0).pin_count_ = 0 :=
  ⟨⟨by decide, unpinnedPool_reachable⟩, by decide,
    (pinned_frames_are_never_evicted_or_reused (by decide) unpinnedPool_reachable).2.1 0
      (by decide)⟩

/-- Witness of C4: a pool of one frame whose only frame is pinned. -/
theorem exhausted_pool_fails_without_change_witness :
    (1 < SIZE_T_MOD ∧ Reachable 1 2 blankDisk pinnedPool) ∧
    pinnedPool.free_list_ = [] ∧ (pinnedPool.pages_ 0).pin_count_ = 1 ∧
    ((∃ s1, pinnedPool.NewPgImp = Except.ok (none, s1)) ↔
      (pinnedPool.free_list_ = [] ∧
        ∀ f, pinnedPool.isFrame f → 1 ≤ (pinnedPool.pages_ f).pin_count_)) :=
  ⟨⟨by decide, pinnedPool_reachable⟩, by decide, by decide,
    (exhausted_pool_fails_without_change (by decide) pinnedPool_reachable).1⟩

/-- Witness of C6: a pool of one frame after NewPage and UnpinPage; `Size()` is 1. -/
theorem evictable_iff_unpinned_and_not_free_witness :
    (1 < SIZE_T_MOD ∧ Reachable 1 2 blankDisk unpinnedPool) ∧
    unpinnedPool.replacer_.Size = 1 ∧
    unpinnedPool.replacer_.Size =
      (List.range unpinnedPool.pool_size_).countP
        (fun (i : Nat) =>
          decide ((i : Int) ∉ unpinnedPool.free_list_ ∧
            (unpinnedPool.pages_ (i : Int)).pin_count_ = 0)) :=
  ⟨⟨by decide, unpinnedPool_reachable⟩, by decide,
    (evictable_iff_unpinned_and_not_free (by decide) unpinnedPool_reachable).2.2⟩

/-- Witness of C8: FetchPage(0) on a pool of one frame in which page 0 is resident. -/
theorem fetch_of_resident_page_pins_it_witness :
    (1 < SIZE_T_MOD ∧ Reachable 1 2 blankDisk unpinnedPool ∧
      unpinnedPool.page_table_ 0 = some 0) ∧
    ∃ s1, unpinnedPool.FetchPgImp 0 = Except.ok (some 0, s1) ∧
      (s1.pages_ 0).pin_count_ = (unpinnedPool.pages_ 0).pin_count_ + 1 :=
  ⟨⟨by decide, unpinnedPool_reachable, by decide⟩,
    (fetch_of_resident_page_pins_it (by decide) unpinnedPool_reachable (by decide)).imp
      (fun _ hs => ⟨hs.1, hs.2.1⟩)⟩

/-- Witness of C10: UnpinPage(0, true) on a pool of one frame in which page 0 is pinned
once. -/
theorem unpin_of_pinned_page_witness :
    (1 < SIZE_T_MOD ∧ Reachable 1 2 blankDisk pinnedPool ∧
      pinnedPool.page_table_ 0 = some 0 ∧ 1 ≤ (pinnedPool.pages_ 0).pin_count_) ∧
    ∃ s1, pinnedPool.UnpinPgImp 0 true = Except.ok (true, s1) ∧
      (s1.pages_ 0).pin_count_ = (pinnedPool.pages_ 0).pin_count_ - 1 ∧
      (s1.pages_ 0).is_dirty_ = ((pinnedPool.pages_ 0).is_dirty_ || true) :=
  ⟨⟨by decide, pinnedPool_reachable, by decide, by decide⟩,
    (unpin_of_pinned_page true (by decide) pinnedPool_reachable (by decide) (by decide)).imp
      (fun _ hs => ⟨hs.1, hs.2.1, hs.2.2.1⟩)⟩

/-! ## Consistency of the page table -/

/-- C11: DeletePage is idempotent.  In every reachable pool state, for every page id `p`
that is not resident, or resident with pin count 0, DeletePage(p) returns true;
afterwards `p` has no page table entry, the frame that held `p` (if any) is in the free
list, is a fresh page (sentinel page id, pin count 0, dirty flag false, all-zero
buffer) and is untracked by the replacer; and a second DeletePage(p) returns true and
leaves the whole state as it is. -/
theorem delete_page_is_idempotent {n k : Nat} {disk : Int → PageData}
    {s : BufferPoolManagerInstance} {p : Int} (hn : n < SIZE_T_MOD)
    (h : Reachable n k disk s)
    (hp : s.page_table_ p = none ∨
      ∃ f, s.page_table_ p = some f ∧ (s.pages_ f).pin_count_ = 0) :
    ∃ s1, s.DeletePgImp p = Except.ok (true, s1) ∧
      s1.page_table_ p = none ∧
      (∀ f, s.page_table_ p = some f →
        f ∈ s1.free_list_ ∧ s1.pages_ f = Page.fresh ∧
        (s1.pages_ f).page_id_ = INVALID_PAGE_ID ∧ (s1.pages_ f).pin_count_ = 0 ∧
        (s1.pages_ f).is_dirty_ = false ∧ (s1.pages_ f).data_ = zeroData ∧
        s1.replacer_.isTracked f = false) ∧
      s1.DeletePgImp p = Except.ok (true, s1) := by
  have hi := h.binv hn
  rcases hp with hp | ⟨f, hp, hpin⟩
  · refine ⟨s, (DeletePgImp_early s p).1 hp, hp, ?_, (DeletePgImp_early s p).1 hp⟩
    intro f hf
    rw [hp] at hf
    cases hf
  · obtain ⟨h1, _⟩ := DeletePgImp_unpinned_spec hi hp hpin
    have hobs := erase_observers (r := s.replacer_) f (s.replacer_.curr_size_ - 1)
    refine ⟨_, h1, by simp, ?_, ?_⟩
    · intro g hg
      rw [hp] at hg
      cases hg
      refine ⟨by simp, by simp, by simp [Page.fresh], by simp [Page.fresh],
        by simp [Page.fresh], by simp [Page.fresh], hobs.1⟩
    · apply (DeletePgImp_early _ p).1
      simp

/-- C12: for every pool state and page id `p`, DeletePage(p) returns false exactly when
`p` is mapped in the page table and the mapped frame has a pin count above 0, and then
the whole state (disk, page table, free list, frames and replacer) is what it was. -/
theorem delete_fails_iff_pinned (s : BufferPoolManagerInstance) (p : Int) :
    ((∃ s1, s.DeletePgImp p = Except.ok (false, s1)) ↔
      ∃ f, s.page_table_ p = some f ∧ 0 < (s.pages_ f).pin_count_) ∧
    (∀ s1, s.DeletePgImp p = Except.ok (false, s1) → s1 = s) := by
  have key : ∀ s1, s.DeletePgImp p = Except.ok (false, s1) →
      (∃ f, s.page_table_ p = some f ∧ 0 < (s.pages_ f).pin_count_) ∧ s1 = s := by
    intro s1 h1
    cases hp : s.page_table_ p with
    | none =>
      rw [(DeletePgImp_early s p).1 hp] at h1
      simp at h1
    | some f =>
      by_cases hpin : 0 < (s.pages_ f).pin_count_
      · rw [(DeletePgImp_early s p).2 f hp hpin] at h1
        simp only [Except.ok.injEq, Prod.mk.injEq, true_and] at h1
        exact ⟨⟨f, rfl, hpin⟩, h1.symm⟩
      · unfold BufferPoolManagerInstance.DeletePgImp at h1
        rw [hp] at h1
        dsimp only at h1
        rw [if_neg hpin] at h1
        split at h1
        · cases h1
        · simp at h1
  refine ⟨⟨?_, ?_⟩, fun s1 h1 => (key s1 h1).2⟩
  · rintro ⟨s1, h1⟩
    exact (key s1 h1).1
  · rintro ⟨f, hp, hpin⟩
    exact ⟨s, (DeletePgImp_early s p).2 f hp hpin⟩

/-- C17: in every state reachable from a fresh pool by public operations, no frame index
occurs twice in the free list, no frame of the free list is the value of a page table
entry, and every frame of the free list has the sentinel page id, pin count 0 and
dirty flag false (and lies inside the pool). -/
theorem free_list_frames_are_free {n k : Nat} {disk : Int → PageData}
    {s : BufferPoolManagerInstance} (hn : n < SIZE_T_MOD) (h : Reachable n k disk s) :
    s.free_list_.Nodup ∧
    (∀ p f, s.page_table_ p = some f → f ∉ s.free_list_) ∧
    (∀ f ∈ s.free_list_,
      s.isFrame f ∧ (s.pages_ f).page_id_ = INVALID_PAGE_ID ∧
      (s.pages_ f).pin_count_ = 0 ∧ (s.pages_ f).is_dirty_ = false) := by
  have hi := h.binv hn
  refine ⟨hi.free_nodup, ?_, ?_⟩
  · intro p f hpf
    exact hi.not_free_of_tracked (hi.table_frame p f hpf).1
  · intro f hf
    rw [hi.free_page f hf]
    exact ⟨hi.free_range f hf, rfl, rfl, rfl⟩

/-- Witness of C11: DeletePage(0) on a pool of one frame in which page 0 is resident and
unpinned. -/
theorem delete_page_is_idempotent_witness :
    (1 < SIZE_T_MOD ∧ Reachable 1 2 blankDisk unpinnedPool ∧
      unpinnedPool.page_table_ 0 = some 0 ∧ (unpinnedPool.pages_ 0).pin_count_ = 0) ∧
    ∃ s1, unpinnedPool.DeletePgImp 0 = Except.ok (true, s1) ∧
      s1.page_table_ 0 = none ∧ s1.DeletePgImp 0 = Except.ok (true, s1) :=
  ⟨⟨by decide, unpinnedPool_reachable, by decide, by decide⟩,
    (delete_page_is_idempotent (by decide) unpinnedPool_reachable
      (Or.inr ⟨0, by decide, by decide⟩)).imp (fun _ hs => ⟨hs.1, hs.2.1, hs.2.2.2⟩)⟩

/-- Witness of C17: the fresh pool of two frames, whose free list is `[0, 1]`. -/
theorem free_list_frames_are_free_witness :
    (2 < SIZE_T_MOD ∧
      Reachable 2 2 blankDisk (BufferPoolManagerInstance.new 2 2 blankDisk)) ∧
    (BufferPoolManagerInstance.new 2 2 blankDisk).free_list_ = [0, 1] ∧
    (BufferPoolManagerInstance.new 2 2 blankDisk).free_list_.Nodup :=
  ⟨⟨by decide, Reachable.init⟩, by decide,
    (free_list_frames_are_free (by decide)
      (Reachable.init : Reachable 2 2 blankDisk _)).1⟩

/-! ## Claims about the error branches of the replacer -/

theorem invalidFrame_iff (r : LRUKReplacer) (f : Int) :
    invalidFrame r f ↔ (f < 0 ∨ (r.replacer_size_ : Int) ≤ f) := by
  unfold invalidFrame
  omega

theorem RecordAccess_error_iff (r : LRUKReplacer) (f : Int) (e : Exception) :
    r.RecordAccess f = Except.error e ↔ (invalidFrame r f ∧ e = Exception.InvalidFrameId) := by
  by_cases h : invalidFrame r f
  · rw [RecordAccess_invalid h]
    constructor
    · intro he; cases he; exact ⟨h, rfl⟩
    · rintro ⟨_, rfl⟩; rfl
  · obtain ⟨r1, h1, _⟩ := RecordAccess_valid h
    rw [h1]
    constructor
    · intro he; cases he
    · rintro ⟨hc, _⟩; exact absurd hc h

theorem SetEvictable_error_iff (r : LRUKReplacer) (f : Int) (b : Bool) (e : Exception) :
    r.SetEvictable f b = Except.error e ↔
      (invalidFrame r f ∧ e = Exception.InvalidFrameId) := by
  by_cases h : invalidFrame r f
  · rw [SetEvictable_invalid b h]
    constructor
    · intro he; cases he; exact ⟨h, rfl⟩
    · rintro ⟨_, rfl⟩; rfl
  · constructor
    · intro he
      unfold LRUKReplacer.SetEvictable at he
      rw [if_neg h] at he
      cases hf : r.frame_map_.find f with
      | none => rw [hf] at he; cases he
      | some x =>
        rw [hf] at he
        dsimp only at he
        split_ifs at he
    · rintro ⟨hc, _⟩; exact absurd hc h

theorem SetEvictable_untracked {r : LRUKReplacer} {f : Int} (b : Bool)
    (h : ¬ invalidFrame r f) (ht : r.isTracked f = false) :
    r.SetEvictable f b = Except.ok r := by
  unfold LRUKReplacer.SetEvictable
  rw [if_neg h]
  cases hf : r.frame_map_.find f with
  | none => rfl
  | some x => simp [LRUKReplacer.isTracked, hf] at ht

/-- C15: for every replacer state, RecordAccess(f) and SetEvictable(f, b) throw exactly
when `f < 0` or `f >= num_frames`, what they throw is the invalid-argument exception,
and the state after a call that throws is the state before it (same timestamp, same
entries); SetEvictable on a frame inside the range that has no entry returns normally
and changes nothing. -/
theorem out_of_range_frame_is_rejected (r : LRUKReplacer) (f : Int) (b : Bool) :
    ((∃ e, r.RecordAccess f = Except.error e) ↔ (f < 0 ∨ (r.replacer_size_ : Int) ≤ f)) ∧
    ((∃ e, r.SetEvictable f b = Except.error e) ↔ (f < 0 ∨ (r.replacer_size_ : Int) ≤ f)) ∧
    (∀ e, r.RecordAccess f = Except.error e →
      e = Exception.InvalidFrameId ∧ r.apply (ROp.RecordAccess f) = r) ∧
    (∀ e, r.SetEvictable f b = Except.error e →
      e = Exception.InvalidFrameId ∧ r.apply (ROp.SetEvictable f b) = r) ∧
    (¬ (f < 0 ∨ (r.replacer_size_ : Int) ≤ f) → r.isTracked f = false →
      r.SetEvictable f b = Except.ok r) := by
  refine ⟨?_, ?_, ?_, ?_, ?_⟩
  · rw [← invalidFrame_iff]
    constructor
    · rintro ⟨e, he⟩
      exact ((RecordAccess_error_iff r f e).mp he).1
    · intro h
      exact ⟨_, RecordAccess_invalid h⟩
  · rw [← invalidFrame_iff]
    constructor
    · rintro ⟨e, he⟩
      exact ((SetEvictable_error_iff r f b e).mp he).1
    · intro h
      exact ⟨_, SetEvictable_invalid b h⟩
  · intro e he
    refine ⟨((RecordAccess_error_iff r f e).mp he).2, ?_⟩
    simp only [LRUKReplacer.apply, he]
  · intro e he
    refine ⟨((SetEvictable_error_iff r f b e).mp he).2, ?_⟩
    simp only [LRUKReplacer.apply, he]
  · intro h ht
    rw [← invalidFrame_iff] at h
    exact SetEvictable_untracked b h ht

/-- The successful path of `Remove`, field by field. -/
theorem Remove_evictable_fields {r : LRUKReplacer} {f : Int}
    (hev : r.isEvictable f = true) :
    ∃ r1, r.Remove f = Except.ok r1 ∧ r1.frame_map_ = r.frame_map_.erase f ∧
      r1.curr_size_ = decSizeT r.curr_size_ ∧
      r1.current_timestamp_ = r.current_timestamp_ ∧
      r1.replacer_size_ = r.replacer_size_ ∧ r1.k_ = r.k_ := by
  obtain ⟨x, hx, hxe⟩ := isEvictable_eq_true_iff.mp hev
  refine ⟨LRUKReplacer.mk r.replacer_size_ r.k_ (r.frame_map_.erase f) r.current_timestamp_
    (decSizeT r.curr_size_), ?_, rfl, rfl, rfl, rfl, rfl⟩
  unfold LRUKReplacer.Remove
  rw [hx]
  dsimp only
  rw [if_neg (by simp [hxe])]

/-- C14: for every replacer state and frame index `f`, Remove(f) throws exactly when `f`
is tracked and not evictable, what it throws is the contract-violation exception, and
the state after the throw is the state before it; when `f` is untracked (whatever its
value) Remove(f) returns normally and changes nothing; when `f` is tracked and
evictable its entry is deleted, every other entry and the timestamp stay as they are,
and `Size()` goes down by exactly 1 (in a state in which `curr_size_` counts the
evictable entries, so that the decrement does not wrap). -/
theorem remove_contract (r : LRUKReplacer) (f : Int) :
    ((∃ e, r.Remove f = Except.error e) ↔
      (r.isTracked f = true ∧ r.isEvictable f = false)) ∧
    (∀ e, r.Remove f = Except.error e →
      e = Exception.CannotRemoveNonEvictable ∧ r.apply (ROp.Remove f) = r) ∧
    (r.isTracked f = false → r.Remove f = Except.ok r) ∧
    (r.isEvictable f = true →
      ∃ r1, r.Remove f = Except.ok r1 ∧ r1.isTracked f = false ∧
        (∀ g, g ≠ f → r1.frame_map_.find g = r.frame_map_.find g) ∧
        r1.current_timestamp_ = r.current_timestamp_ ∧
        r1.replacer_size_ = r.replacer_size_ ∧ r1.k_ = r.k_ ∧
        (RInv r → r1.Size + 1 = r.Size)) := by
  have herr : ∀ e, r.Remove f = Except.error e →
      (r.isTracked f = true ∧ r.isEvictable f = false) ∧
      e = Exception.CannotRemoveNonEvictable := by
    intro e he
    cases ht : r.isTracked f with
    | false => rw [Remove_untracked ht] at he; cases he
    | true =>
      cases hev : r.isEvictable f with
      | false =>
        rw [Remove_nonevictable ht hev] at he
        cases he
        exact ⟨⟨rfl, rfl⟩, rfl⟩
      | true =>
        obtain ⟨x, hx, hxe⟩ := isEvictable_eq_true_iff.mp hev
        unfold LRUKReplacer.Remove at he
        rw [hx] at he
        dsimp only at he
        rw [if_neg (by simp [hxe])] at he
        cases he
  refine ⟨⟨?_, ?_⟩, ?_, fun ht => Remove_untracked ht, ?_⟩
  · rintro ⟨e, he⟩
    exact (herr e he).1
  · rintro ⟨ht, hev⟩
    exact ⟨_, Remove_nonevictable ht hev⟩
  · intro e he
    refine ⟨(herr e he).2, ?_⟩
    simp only [LRUKReplacer.apply, he]
  · intro hev
    obtain ⟨r1, hrem, hmap, hcs, hts, hsz, hk⟩ := Remove_evictable_fields hev
    refine ⟨r1, hrem, ?_, ?_, hts, hsz, hk, ?_⟩
    · simp [LRUKReplacer.isTracked, hmap, FrameMap.find_erase]
    · intro g hg
      simp [hmap, FrameMap.find_erase, hg]
    · intro hi
      obtain ⟨_, hpos⟩ := Remove_evictable hi hev
      show r1.curr_size_ + 1 = r.curr_size_
      rw [hcs, decSizeT_of_pos hpos hi.size_lt]
      exact Nat.sub_add_cancel hpos

/-- Witness of C14: after the calls of the eviction example frame 0 is evictable, and
Remove(0) takes `Size()` from 2 to 1. -/
theorem remove_contract_witness :
    RInv ((LRUKReplacer.new 2 2).run exampleCalls) ∧
    ((LRUKReplacer.new 2 2).run exampleCalls).isEvictable 0 = true ∧
    ∃ r1, ((LRUKReplacer.new 2 2).run exampleCalls).Remove 0 = Except.ok r1 ∧
      r1.isTracked 0 = false ∧ r1.Size + 1 = ((LRUKReplacer.new 2 2).run exampleCalls).Size :=
  have hi : RInv ((LRUKReplacer.new 2 2).run exampleCalls) :=
    (RInv.r_new 2 2 (by decide)).r_run exampleCalls
  ⟨hi, by decide,
    ((remove_contract ((LRUKReplacer.new 2 2).run exampleCalls) 0).2.2.2 (by decide)).imp
      (fun _ hs => ⟨hs.1, hs.2.1, hs.2.2.2.2.2.2 hi⟩)⟩

/-! ## Claims about the access histories -/

/-- In every state reached from a fresh replacer with fewer than `2 ^ 64` calls the
timestamp invariant holds and the timestamp has not wrapped. -/
theorem tsInv_of_run (n k : Nat) (ops : List ROp) (hn : n < SIZE_T_MOD)
    (hlen : ops.length < SIZE_T_MOD) :
    TsInv ((LRUKReplacer.new n k).run ops) ∧
      ((LRUKReplacer.new n k).run ops).current_timestamp_ ≤ ops.length := by
  obtain ⟨ht, hnow⟩ := TsInv.t_run ops (RInv.r_new n k hn) (TsInv.t_new n k)
    (by simpa [LRUKReplacer.new] using hlen)
  have h0 : (LRUKReplacer.new n k).current_timestamp_ = 0 := rfl
  rw [h0, zero_add] at hnow
  exact ⟨ht, hnow⟩

/-- C13, counterexample: with `k = 1` on a replacer of one frame, a second
RecordAccess(0) leaves frame 0 with the history `[2, 1]` of length 2, whereas the new
timestamp followed by the previous history truncated to `k = 1` entries is `[2]`. -/
theorem record_access_truncation_counterexample :
    ((LRUKReplacer.new 1 1).run [ROp.RecordAccess 0]).historyOf 0 = [1] ∧
    ((LRUKReplacer.new 1 1).run [ROp.RecordAccess 0]).RecordAccess 0 =
      Except.ok ((LRUKReplacer.new 1 1).run [ROp.RecordAccess 0, ROp.RecordAccess 0]) ∧
    ((LRUKReplacer.new 1 1).run [ROp.RecordAccess 0, ROp.RecordAccess 0]).current_timestamp_
      = 2 ∧
    ((LRUKReplacer.new 1 1).run [ROp.RecordAccess 0, ROp.RecordAccess 0]).historyOf 0
      = [2, 1] ∧
    specHistoryAfterAccess 1 2 [1] = [2] ∧
    ((LRUKReplacer.new 1 1).run [ROp.RecordAccess 0, ROp.RecordAccess 0]).historyOf 0 ≠
      specHistoryAfterAccess 1 2
        (((LRUKReplacer.new 1 1).run [ROp.RecordAccess 0]).historyOf 0) ∧
    ¬ (((LRUKReplacer.new 1 1).run [ROp.RecordAccess 0, ROp.RecordAccess 0]).historyOf
      0).length ≤ 1 :=
  ⟨by decide, rfl, by decide, by decide, by decide, by decide, by decide⟩

/-- C13 (amended): for every replacer state (any `k`) whose timestamp is not about to
wrap and every frame index `f` in `[0, num_frames)`, RecordAccess(f) increases the
global timestamp by exactly 1 and makes the history of `f` equal to the new timestamp
followed by the whole previous history of `f` (nothing is dropped); the evictable flag
of `f`, `Size()` and every other frame's entry are unchanged, and a previously
untracked `f` becomes tracked with evictable flag false. So in every state reached
from a fresh replacer (by fewer than `2 ^ 64` calls) every tracked frame's history is
non-empty and strictly decreasing from front to back; its length is the number of
accesses recorded since the frame was last removed and is not bounded by `k`. -/
theorem record_access_prepends_timestamp (r : LRUKReplacer) (f : Int)
    (hf : 0 ≤ f ∧ f < (r.replacer_size_ : Int))
    (hts : r.current_timestamp_ + 1 < SIZE_T_MOD) :
    (∃ r1, r.RecordAccess f = Except.ok r1 ∧
      r1.current_timestamp_ = r.current_timestamp_ + 1 ∧
      r1.historyOf f = (r.current_timestamp_ + 1) :: r.historyOf f ∧
      (r1.historyOf f).length = (r.historyOf f).length + 1 ∧
      r1.isTracked f = true ∧
      r1.isEvictable f = r.isEvictable f ∧
      (r.isTracked f = false → r1.isEvictable f = false) ∧
      (∀ g, g ≠ f → r1.frame_map_.find g = r.frame_map_.find g) ∧
      r1.Size = r.Size ∧ r1.replacer_size_ = r.replacer_size_ ∧ r1.k_ = r.k_) ∧
    ∀ (n k : Nat) (ops : List ROp), n < SIZE_T_MOD → ops.length < SIZE_T_MOD →
      ∀ g, ((LRUKReplacer.new n k).run ops).isTracked g = true →
        ((LRUKReplacer.new n k).run ops).historyOf g ≠ [] ∧
        (((LRUKReplacer.new n k).run ops).historyOf g).Pairwise (fun a b => b < a) := by
  constructor
  · have hv : ¬ invalidFrame r f := by
      rw [invalidFrame_iff]
      omega
    obtain ⟨r1, h1, hsz, hk, hcs, hnow, hfind, hoth, _⟩ := RecordAccess_valid hv
    rw [incSizeT_of_lt hts] at hnow hfind
    have hh : r1.historyOf f = (r.current_timestamp_ + 1) :: r.historyOf f :=
      historyOf_of_find hfind
    have he : r1.isEvictable f = r.isEvictable f := isEvictable_of_find hfind
    refine ⟨r1, h1, hnow, hh, by rw [hh]; rfl, ?_, he, ?_, hoth, hcs, hsz, hk⟩
    · simp [LRUKReplacer.isTracked, hfind]
    · intro hu
      rw [he]
      cases hfd : r.frame_map_.find f with
      | none => exact isEvictable_of_find_none hfd
      | some e => simp [LRUKReplacer.isTracked, hfd] at hu
  · intro n k ops hn hlen g hg
    obtain ⟨ht, _⟩ := tsInv_of_run n k ops hn hlen
    obtain ⟨e, he⟩ := isTracked_eq_true_iff.mp hg
    rw [historyOf_of_find he]
    exact ⟨ht.nonempty g e he, ht.decreasing g e he⟩

/-- Witness of C13 (amended): the second RecordAccess(0) with `k = 1` prepends
timestamp 2 to the history `[1]`. -/
theorem record_access_prepends_timestamp_witness :
    ((0 : Int) ≤ 0 ∧
      (0 : Int) < (((LRUKReplacer.new 1 1).run [ROp.RecordAccess 0]).replacer_size_ : Int)) ∧
    ((LRUKReplacer.new 1 1).run [ROp.RecordAccess 0]).current_timestamp_ + 1 < SIZE_T_MOD ∧
    ∃ r1, ((LRUKReplacer.new 1 1).run [ROp.RecordAccess 0]).RecordAccess 0 = Except.ok r1 ∧
      r1.current_timestamp_ = 2 ∧ r1.historyOf 0 = [2, 1] :=
  ⟨by decide, by decide,
    (record_access_prepends_timestamp ((LRUKReplacer.new 1 1).run [ROp.RecordAccess 0]) 0
      (by decide) (by decide)).1.imp (fun _ hs => ⟨hs.1, hs.2.1, hs.2.2.1⟩)⟩

/-! ## Determinism of `Evict` -/

theorem foldr_min_mem (h l : List Nat) (i : Nat) (hl : ∀ x ∈ l, x ∈ h) (hi : i ∈ h) :
    l.foldr min i ∈ h := by
  induction l with
  | nil => exact hi
  | cons a l ih =>
    rw [List.foldr_cons]
    have h1 := ih (fun x hx => hl x (List.mem_cons_of_mem _ hx))
    rcases min_choice a (l.foldr min i) with hm | hm
    · rw [hm]; exact hl a (List.mem_cons_self _ _)
    · rw [hm]; exact h1

/-- The oldest of the last `k` accesses of a non-empty history is one of its entries. -/
theorem specOldest_mem (k : Nat) {h : List Nat} (hne : h ≠ []) : specOldest k h ∈ h := by
  unfold specOldest
  apply foldr_min_mem
  · intro x hx; exact List.mem_of_mem_take hx
  · cases h with
    | nil => exact absurd rfl hne
    | cons a l => simp

theorem frameEarliestTs_mem {e : FrameEntry} (hne : e.history_ ≠ []) :
    frameEarliestTs e ∈ e.history_ :=
  getLastD_mem_of_ne_nil hne 0

/-- Two different tracked frames never have the same `history_.back()`. -/
theorem TsInv.earliest_ne {r : LRUKReplacer} (ht : TsInv r) {f g : Int} {e1 e2 : FrameEntry}
    (hfg : f ≠ g) (h1 : r.frame_map_.find f = some e1) (h2 : r.frame_map_.find g = some e2) :
    frameEarliestTs e1 ≠ frameEarliestTs e2 := by
  intro heq
  have hm1 := frameEarliestTs_mem (ht.nonempty f e1 h1)
  have hm2 := frameEarliestTs_mem (ht.nonempty g e2 h2)
  rw [← heq] at hm2
  exact ht.disjoint f g e1 e2 hfg h1 h2 _ hm1 hm2

/-- Two different tracked frames never have the same oldest timestamp among their
last `k` accesses. -/
theorem TsInv.specOldest_ne {r : LRUKReplacer} (ht : TsInv r) (k : Nat) {f g : Int}
    {e1 e2 : FrameEntry} (hfg : f ≠ g) (h1 : r.frame_map_.find f = some e1)
    (h2 : r.frame_map_.find g = some e2) :
    specOldest k e1.history_ ≠ specOldest k e2.history_ := by
  intro heq
  have hm1 := specOldest_mem k (ht.nonempty f e1 h1)
  have hm2 := specOldest_mem k (ht.nonempty g e2 h2)
  rw [← heq] at hm2
  exact ht.disjoint f g e1 e2 hfg h1 h2 _ hm1 hm2

/-- The victim found by the scan does not depend on the order of the entries. -/
theorem evictScan_perm {r : LRUKReplacer} (hi : RInv r) (ht : TsInv r) {m : FrameMap}
    (hp : m.Perm r.frame_map_) :
    (evictScan { r with frame_map_ := m }).victim_frame = (evictScan r).victim_frame := by
  have hkeys : ∀ f ∈ FrameMap.keys m, f ≠ -1 := by
    intro f hf
    exact hi.ne_neg_one f ((hp.map Prod.fst).subset hf)
  have h1 := scanGood_evictScan r hi.ne_neg_one
  have h2 := scanGood_evictScan { r with frame_map_ := m } hkeys
  generalize evictScan { r with frame_map_ := m } = a2 at h2 ⊢
  generalize evictScan r = a1 at h1 ⊢
  change ScanGood r.k_ r.current_timestamp_ m a2 at h2
  rcases h1 with ⟨hv1, hall1⟩ | ⟨e1, hm1, he1, hd1, hts1, hbest1⟩
  · rcases h2 with ⟨hv2, _⟩ | ⟨e2, hm2, he2, _, _, _⟩
    · rw [hv1, hv2]
    · have := hall1 _ (hp.subset hm2)
      rw [he2] at this
      cases this
  · rcases h2 with ⟨_, hall2⟩ | ⟨e2, hm2, he2, hd2, hts2, hbest2⟩
    · have := hall2 _ (hp.symm.subset hm1)
      rw [he1] at this
      cases this
    · by_contra hne
      have hc1 := hbest1 _ (hp.subset hm2) he2
      have hc2 := hbest2 _ (hp.symm.subset hm1) he1
      have hf1 := FrameMap.find_of_mem hi.nodup hm1
      have hf2 := FrameMap.find_of_mem hi.nodup (hp.subset hm2)
      have hne2 := ht.earliest_ne (fun c => hne c) hf2 hf1
      simp only at hc1 hc2
      rw [hd1] at hc1
      rw [hd2] at hc2
      rw [hts1] at hc1
      rw [hts2] at hc2
      omega

/-- The result of `Evict` does not depend on the order in which the map is iterated:
the same victim is returned, and the maps afterwards hold the same entries. -/
theorem Evict_perm {r : LRUKReplacer} (hi : RInv r) (ht : TsInv r) {m : FrameMap}
    (hp : m.Perm r.frame_map_) :
    ({ r with frame_map_ := m } : LRUKReplacer).Evict.1 = r.Evict.1 ∧
    (({ r with frame_map_ := m } : LRUKReplacer).Evict.2.frame_map_).Perm
      r.Evict.2.frame_map_ := by
  have hs := evictScan_perm hi ht hp
  unfold LRUKReplacer.Evict
  rw [hs]
  dsimp only
  by_cases h0 : r.curr_size_ = 0
  · rw [if_pos h0, if_pos h0]
    exact ⟨rfl, hp⟩
  · rw [if_neg h0, if_neg h0]
    by_cases hv : (evictScan r).victim_frame = -1
    · rw [if_pos hv, if_pos hv]
      exact ⟨rfl, hp⟩
    · rw [if_neg hv, if_neg hv]
      exact ⟨rfl, hp.filter _⟩

/-- C20: in every replacer state reached from a fresh replacer with `k ≥ 1` (by fewer
than `2 ^ 64` calls, so that the timestamp has not wrapped), every tracked frame has
a non-empty history (and at least `k` entries when the scan reads entry `k - 1`),
and no timestamp occurs in the histories of two different frames; so two different evictable frames never tie on both backward k-distance and
oldest timestamp (neither on the pair of the specification nor on the pair of locals
that the scan compares), and `Evict` returns the same frame, and leaves the same
entries, for every order in which the entries of the frame map are iterated. -/
theorem evict_is_deterministic (n k : Nat) (ops : List ROp) (hk : 1 ≤ k)
    (hn : n < SIZE_T_MOD) (hlen : ops.length < SIZE_T_MOD) :
    (∀ f, ((LRUKReplacer.new n k).run ops).isTracked f = true →
      ((LRUKReplacer.new n k).run ops).historyOf f ≠ [] ∧
      (¬ (((LRUKReplacer.new n k).run ops).historyOf f).length < k →
        k - 1 < (((LRUKReplacer.new n k).run ops).historyOf f).length)) ∧
    (∀ f g, f ≠ g → ∀ t ∈ ((LRUKReplacer.new n k).run ops).historyOf f,
      t ∉ ((LRUKReplacer.new n k).run ops).historyOf g) ∧
    (∀ f g, f ≠ g → ((LRUKReplacer.new n k).run ops).isEvictable f = true →
      ((LRUKReplacer.new n k).run ops).isEvictable g = true →
      ¬ (specDist k ((LRUKReplacer.new n k).run ops).current_timestamp_
            (((LRUKReplacer.new n k).run ops).historyOf f) =
          specDist k ((LRUKReplacer.new n k).run ops).current_timestamp_
            (((LRUKReplacer.new n k).run ops).historyOf g) ∧
        specOldest k (((LRUKReplacer.new n k).run ops).historyOf f) =
          specOldest k (((LRUKReplacer.new n k).run ops).historyOf g))) ∧
    (∀ f g e1 e2, f ≠ g → ((LRUKReplacer.new n k).run ops).frame_map_.find f = some e1 →
      ((LRUKReplacer.new n k).run ops).frame_map_.find g = some e2 →
      e1.is_evictable_ = true → e2.is_evictable_ = true →
      ¬ (backwardKDist k ((LRUKReplacer.new n k).run ops).current_timestamp_ e1 =
          backwardKDist k ((LRUKReplacer.new n k).run ops).current_timestamp_ e2 ∧
        frameEarliestTs e1 = frameEarliestTs e2)) ∧
    (∀ m : FrameMap, m.Perm ((LRUKReplacer.new n k).run ops).frame_map_ →
      ({ (LRUKReplacer.new n k).run ops with frame_map_ := m } : LRUKReplacer).Evict.1 =
        ((LRUKReplacer.new n k).run ops).Evict.1 ∧
      (({ (LRUKReplacer.new n k).run ops with frame_map_ := m } :
        LRUKReplacer).Evict.2.frame_map_).Perm
        ((LRUKReplacer.new n k).run ops).Evict.2.frame_map_) := by
  have hi : RInv ((LRUKReplacer.new n k).run ops) := (RInv.r_new n k hn).r_run ops
  obtain ⟨ht, _⟩ := tsInv_of_run n k ops hn hlen
  generalize (LRUKReplacer.new n k).run ops = r at hi ht
  refine ⟨?_, ?_, ?_, ?_, ?_⟩
  · intro f hf
    obtain ⟨e, he⟩ := isTracked_eq_true_iff.mp hf
    rw [historyOf_of_find he]
    exact ⟨ht.nonempty f e he, fun hl => by omega⟩
  · intro f g hfg t htf htg
    cases h1 : r.frame_map_.find f with
    | none => simp [LRUKReplacer.historyOf, h1] at htf
    | some e1 =>
      cases h2 : r.frame_map_.find g with
      | none => simp [LRUKReplacer.historyOf, h2] at htg
      | some e2 =>
        rw [historyOf_of_find h1] at htf
        rw [historyOf_of_find h2] at htg
        exact ht.disjoint f g e1 e2 hfg h1 h2 t htf htg
  · intro f g hfg hf hg
    obtain ⟨e1, h1, _⟩ := isEvictable_eq_true_iff.mp hf
    obtain ⟨e2, h2, _⟩ := isEvictable_eq_true_iff.mp hg
    rw [historyOf_of_find h1, historyOf_of_find h2]
    intro hc
    exact ht.specOldest_ne k hfg h1 h2 hc.2
  · intro f g e1 e2 hfg h1 h2 _ _ hc
    exact ht.earliest_ne hfg h1 h2 hc.2
  · intro m hp
    exact Evict_perm hi ht hp

/-- Witness of C20: after the calls of the eviction example (`k = 2`, both frames
evictable) `Evict` returns frame 1 also when the map is iterated in reverse order. -/
theorem evict_is_deterministic_witness :
    (1 ≤ 2 ∧ 2 < SIZE_T_MOD ∧ exampleCalls.length < SIZE_T_MOD) ∧
    ((LRUKReplacer.new 2 2).run exampleCalls).Evict.1 = some 1 ∧
    ({ (LRUKReplacer.new 2 2).run exampleCalls with
        frame_map_ := ((LRUKReplacer.new 2 2).run exampleCalls).frame_map_.reverse } :
      LRUKReplacer).Evict.1 = ((LRUKReplacer.new 2 2).run exampleCalls).Evict.1 :=
  ⟨⟨by decide, by decide, by decide⟩, by decide,
    ((evict_is_deterministic 2 2 exampleCalls (by decide) (by decide) (by decide)).2.2.2.2
      _ (List.reverse_perm _)).1⟩

/-! ## No exception of the replacer escapes -/

/-- In a state that satisfies the invariant no call lets an exception escape. -/
theorem BInv.apply_total {s : BufferPoolManagerInstance} (hi : BInv s) (op : BOp) :
    ∃ s1, s.apply op = Except.ok s1 := by
  cases op with
  | NewPage =>
    simp only [BufferPoolManagerInstance.apply]
    rcases NewPgImp_spec hi with ⟨_, h⟩ | ⟨f, s1, r2, _, h, _⟩
    · rw [h]; exact ⟨_, rfl⟩
    · rw [h]; exact ⟨_, rfl⟩
  | FetchPage p =>
    simp only [BufferPoolManagerInstance.apply]
    cases hp : s.page_table_ p with
    | none =>
      rcases FetchPgImp_miss_spec hi hp with ⟨_, h⟩ | ⟨f, s1, r2, _, h, _⟩
      · rw [h]; exact ⟨_, rfl⟩
      · rw [h]; exact ⟨_, rfl⟩
    | some f =>
      obtain ⟨r2, h, _⟩ := FetchPgImp_hit_spec hi hp
      rw [h]; exact ⟨_, rfl⟩
  | UnpinPage p d =>
    simp only [BufferPoolManagerInstance.apply]
    cases hp : s.page_table_ p with
    | none =>
      obtain ⟨s1, h⟩ := (UnpinPgImp_false_iff s p d).mpr (Or.inl hp)
      rw [h]; exact ⟨_, rfl⟩
    | some f =>
      by_cases hpin : (s.pages_ f).pin_count_ = 0
      · obtain ⟨s1, h⟩ := (UnpinPgImp_false_iff s p d).mpr (Or.inr ⟨f, hp, hpin⟩)
        rw [h]; exact ⟨_, rfl⟩
      · obtain ⟨r1, h, _⟩ := UnpinPgImp_pinned_spec d hi hp (by omega)
        rw [h]; exact ⟨_, rfl⟩
  | FlushPage p => exact ⟨_, rfl⟩
  | FlushAllPages => exact ⟨_, rfl⟩
  | DeletePage p =>
    simp only [BufferPoolManagerInstance.apply]
    cases hp : s.page_table_ p with
    | none =>
      rw [(DeletePgImp_early s p).1 hp]; exact ⟨_, rfl⟩
    | some f =>
      by_cases hpin : (s.pages_ f).pin_count_ = 0
      · rw [(DeletePgImp_unpinned_spec hi hp hpin).1]; exact ⟨_, rfl⟩
      · rw [(DeletePgImp_early s p).2 f hp (by omega)]; exact ⟨_, rfl⟩
  | WriteData f d => exact ⟨_, rfl⟩

theorem not_invalidFrame_of_isFrame {s : BufferPoolManagerInstance} {r : LRUKReplacer}
    {f : Int} (hr : r.replacer_size_ = s.pool_size_) (hf : s.isFrame f) :
    ¬ invalidFrame r f := by
  unfold invalidFrame
  unfold BufferPoolManagerInstance.isFrame at hf
  omega

/-- C18: in every state reachable from a fresh pool (of any size that fits a
`size_t`, any `k`) by public operations with arbitrary arguments, the next public
operation, whatever it is, lets no exception of the replacer escape.  The frame
index that a FetchPage hit and UnpinPage pass to RecordAccess / SetEvictable (the
value of the page table entry) and the one that NewPage and a FetchPage miss pass
(the acquired frame) lie in `[0, pool size)`, and the two calls succeed; the frame
that DeletePage passes to Remove (mapped, with pin count 0) is tracked and evictable,
and Remove succeeds. -/
theorem replacer_errors_are_unreachable {n k : Nat} {disk : Int → PageData}
    {s : BufferPoolManagerInstance} (hn : n < SIZE_T_MOD) (h : Reachable n k disk s) :
    (∀ op, ∃ s1, s.apply op = Except.ok s1) ∧
    (∀ p f, s.page_table_ p = some f →
      (0 ≤ f ∧ f < (s.pool_size_ : Int)) ∧ ¬ invalidFrame s.replacer_ f ∧
      (∃ r1 r2, s.replacer_.RecordAccess f = Except.ok r1 ∧
        r1.SetEvictable f false = Except.ok r2) ∧
      (∀ b, ∃ r1, s.replacer_.SetEvictable f b = Except.ok r1) ∧
      s.replacer_.isTracked f = true ∧
      ((s.pages_ f).pin_count_ = 0 → s.replacer_.isEvictable f = true ∧
        ∃ r1, s.replacer_.Remove f = Except.ok r1)) ∧
    (∀ f s1, s.acquireFrame = some (f, s1) →
      (0 ≤ f ∧ f < (s.pool_size_ : Int)) ∧ ¬ invalidFrame s1.replacer_ f ∧
      ∃ r1 r2, s1.replacer_.RecordAccess f = Except.ok r1 ∧
        r1.SetEvictable f false = Except.ok r2) := by
  have hi := h.binv hn
  have hseq : ∀ (r : LRUKReplacer) (f : Int), RInv r → ¬ invalidFrame r f →
      ∃ r1 r2, r.RecordAccess f = Except.ok r1 ∧ r1.SetEvictable f false = Except.ok r2 := by
    intro r f hr hv
    obtain ⟨r1, h1, hsz, _, _, _, _, _, hinv⟩ := RecordAccess_valid hv
    have hv1 : ¬ invalidFrame r1 f := by
      unfold invalidFrame at hv ⊢
      rw [hsz]; exact hv
    obtain ⟨r2, h2, _⟩ := SetEvictable_valid false (hinv hr) hv1
    exact ⟨r1, r2, h1, h2⟩
  refine ⟨hi.apply_total, ?_, ?_⟩
  · intro p f hp
    have htr := (hi.table_frame p f hp).1
    have hfr := hi.isFrame_of_tracked htr
    have hv : ¬ invalidFrame s.replacer_ f := not_invalidFrame_of_isFrame hi.rsize hfr
    refine ⟨?_, hv, hseq _ f hi.rinv hv, ?_, htr, ?_⟩
    · unfold BufferPoolManagerInstance.isFrame at hfr
      omega
    · intro b
      obtain ⟨r1, h1, _⟩ := SetEvictable_valid b hi.rinv hv
      exact ⟨r1, h1⟩
    · intro hpin
      have hev := (hi.evictable_iff f htr).mpr hpin
      obtain ⟨r1, h1, _⟩ := Remove_evictable_fields hev
      exact ⟨hev, r1, h1⟩
  · intro f s1 hacq
    obtain ⟨hh, _, hfr, hps, _⟩ := acquireFrame_some hi hacq
    have hv : ¬ invalidFrame s1.replacer_ f :=
      not_invalidFrame_of_isFrame hh.rsize hh.hole_frame
    refine ⟨?_, hv, hseq _ f hh.rinv hv⟩
    unfold BufferPoolManagerInstance.isFrame at hfr
    omega

/-- Witness of C18: on the pool of one frame in which page 0 is unpinned (frame 0
evictable), DeletePage(0) lets no exception escape and the call of Remove it makes
finds frame 0 tracked and evictable. -/
theorem replacer_errors_are_unreachable_witness :
    (1 < SIZE_T_MOD ∧ Reachable 1 2 blankDisk unpinnedPool ∧
      unpinnedPool.page_table_ 0 = some 0 ∧ (unpinnedPool.pages_ 0).pin_count_ = 0) ∧
    (∃ s1, unpinnedPool.apply (BOp.DeletePage 0) = Except.ok s1) ∧
    unpinnedPool.replacer_.isEvictable 0 = true ∧
    ∃ r1, unpinnedPool.replacer_.Remove 0 = Except.ok r1 :=
  ⟨⟨by decide, unpinnedPool_reachable, by decide, by decide⟩,
    (replacer_errors_are_unreachable (by decide) unpinnedPool_reachable).1 (BOp.DeletePage 0),
    ((replacer_errors_are_unreachable (by decide) unpinnedPool_reachable).2.1 0 0
      (by decide)).2.2.2.2.2 (by decide)⟩

/-! ## The page id allocator -/

theorem Reachable.withIds {n k : Nat} {disk : Int → PageData}
    {s : BufferPoolManagerInstance} (h : Reachable n k disk s) :
    ∃ ids, ReachableWithIds n k disk s ids := by
  induction h with
  | init => exact ⟨[], ReachableWithIds.init⟩
  | step op _ hs ih =>
    obtain ⟨ids, hids⟩ := ih
    exact ⟨_, ReachableWithIds.step op hids hs⟩

end bustub
